import Mathlib

/-!
# Verification of the `compas_pattern` quad-mesh topology core

A shallow embedding of the combinatorial mesh algorithms of the
`compas_pattern` repository (quad-mesh singularities, polyedges, strips,
and the face-strip edit operations), together with theorems settling the
specification claims.

The mesh kernel (the `compas` half-edge mesh that `compas_pattern`
builds on) is not part of the repository sources; its operations are
modelled from the specification's data model and `HalfedgeMesh`
contract: faces are keyed vertex cycles, and the halfedge relation
"directed pair `(u, v)` maps to the face on its left, or to none if
`(u, v)` is a boundary-facing direction" is derived from the face
cycles.  Vertex coordinates never influence the control flow of any
claim under study, so vertices are carried as bare keys.

Fallible Python behaviour (`KeyError`, `IndexError`, `ValueError`) is
modelled with `Option`: a `none` result of an `Option`-valued embedding
marks a raised exception, while Python's `None` value is modelled as
`some none` where both can occur.
-/

namespace CompasPattern

/-- Mesh state: vertex keys, keyed face cycles, the fresh-key counters of
the kernel, and the strip table of `QuadMesh` (`self.strip`). -/
structure QMesh where
  vertexList : List Nat
  faceList : List (Nat × List Nat)
  vertexCounter : Nat
  faceCounter : Nat
  strip : List (Int × List (Nat × Nat))
deriving DecidableEq, Repr

/-- The directed halfedges of one face cycle `[v0, ..., vk]`:
`(v0,v1), ..., (vk,v0)`. -/
def cyclePairs (c : List Nat) : List (Nat × Nat) :=
  c.zip (c.rotate 1)

/-- All directed halfedges of the mesh, in face order. -/
def allHalfedges (m : QMesh) : List (Nat × Nat) :=
  m.faceList.flatMap (fun fp => cyclePairs fp.2)

/-- Modelled from the spec: the halfedge relation of the kernel.
`some (some f)`: face `f` lies to the left of `(u, v)`;
`some none`: `(u, v)` is a boundary-facing direction (Python value `None`);
`none`: `(u, v)` is not a halfedge of the mesh (a lookup raises `KeyError`). -/
def halfedgeFace (m : QMesh) (u v : Nat) : Option (Option Nat) :=
  match m.faceList.find? (fun fp => decide ((u, v) ∈ cyclePairs fp.2)) with
  | some fp => some (some fp.1)
  | none =>
    if m.faceList.any (fun fp => decide ((v, u) ∈ cyclePairs fp.2)) then some none
    else none

/-- Keep-first deduplication of a list of vertex keys. -/
def dedupKFAux (seen : List Nat) : List Nat → List Nat
  | [] => []
  | a :: rest =>
    if a ∈ seen then dedupKFAux seen rest
    else a :: dedupKFAux (a :: seen) rest

/-- Keep-first deduplication of a list of vertex keys. -/
def dedupKF (l : List Nat) : List Nat :=
  dedupKFAux [] l

/-- Keep-first direction-agnostic deduplication of a list of directed edges
(the `seen` set of the kernel's `edges()` iterator). -/
def undirDedupAux (seen : List (Nat × Nat)) : List (Nat × Nat) → List (Nat × Nat)
  | [] => []
  | (u, v) :: rest =>
    if (u, v) ∈ seen ∨ (v, u) ∈ seen then undirDedupAux seen rest
    else (u, v) :: undirDedupAux ((u, v) :: seen) rest

/-- Keep-first direction-agnostic deduplication of a list of directed edges. -/
def undirDedup (l : List (Nat × Nat)) : List (Nat × Nat) :=
  undirDedupAux [] l

/-- Ascending insertion of a key into a sorted list. -/
def insertAsc (a : Nat) : List Nat → List Nat
  | [] => [a]
  | b :: rest => if a ≤ b then a :: b :: rest else b :: insertAsc a rest

/-- Ascending insertion sort.  A CPython-2 dict over small consecutive
integer keys (as produced by the kernel's bulk constructors) iterates its
keys in ascending order, so dict-driven enumerations are modelled sorted. -/
def sortAsc (l : List Nat) : List Nat :=
  l.foldr insertAsc []

/-- Modelled from the spec: `mesh.number_of_vertices()`. -/
def numberOfVertices (m : QMesh) : Nat :=
  m.vertexList.length

/-- Modelled from the spec: `mesh.vertex_neighbors(v)` (unordered) — the
keys of the dict `halfedge[v]`, iterated in ascending order. -/
def vertexNeighbors (m : QMesh) (v : Nat) : List Nat :=
  sortAsc (dedupKF ((allHalfedges m).filterMap
    (fun e => if e.1 = v then some e.2 else if e.2 = v then some e.1 else none)))

/-- Modelled from the spec: `mesh.edges()` — iterate the halfedge dicts,
yielding every undirected edge once, in the direction first encountered. -/
def edgeList (m : QMesh) : List (Nat × Nat) :=
  undirDedup ((sortAsc m.vertexList).flatMap
    (fun u => (vertexNeighbors m u).map (fun v => (u, v))))

/-- Modelled from the spec: `mesh.number_of_edges()`. -/
def numberOfEdges (m : QMesh) : Nat :=
  (edgeList m).length

/-- Modelled from the spec: `mesh.vertex_degree(v)`. -/
def vertexDegree (m : QMesh) (v : Nat) : Nat :=
  (vertexNeighbors m v).length

/-- Modelled from the spec: `mesh.is_vertex_on_boundary(v)` — some outgoing
halfedge of `v` faces the boundary. -/
def isVertexOnBoundary (m : QMesh) (v : Nat) : Bool :=
  (vertexNeighbors m v).any (fun w => decide (halfedgeFace m v w = some none))

/-- Modelled from the spec: `mesh.is_edge_on_boundary(u, v)`. -/
def isEdgeOnBoundary (m : QMesh) (u v : Nat) : Bool :=
  decide (halfedgeFace m u v = some none) || decide (halfedgeFace m v u = some none)

/-- Modelled from the spec: `mesh.is_quadmesh()` — every face has 4 vertices. -/
def isQuadmesh (m : QMesh) : Bool :=
  m.faceList.all (fun fp => decide (fp.2.length = 4))

/-- `QuadMesh.is_vertex_singular` (mesh_quad.py): degree differs from the
regular valence (3 on the boundary, 4 in the interior). -/
def isVertexSingular (m : QMesh) (v : Nat) : Bool :=
  (isVertexOnBoundary m v && decide (vertexDegree m v ≠ 3)) ||
    (!isVertexOnBoundary m v && decide (vertexDegree m v ≠ 4))

/-- The vertex cycle of face `f`, if `f` exists. -/
def faceCycle (m : QMesh) (f : Nat) : Option (List Nat) :=
  (m.faceList.find? (fun fp => decide (fp.1 = f))).map (·.2)

/-- Index search with a running offset (helper for `pyIndex`). -/
def pyIndexAux (x : Nat) : List Nat → Nat → Option Nat
  | [], _ => none
  | a :: rest, i => if a = x then some i else pyIndexAux x rest (i + 1)

/-- Python `l.index(x)`: the index of the first occurrence of `x` in `l`;
`none` marks a raised `ValueError`. -/
def pyIndex (l : List Nat) (x : Nat) : Option Nat :=
  pyIndexAux x l 0

/-- The cyclic successor of the first occurrence of `v` in the cycle `c`
(Python `c[(c.index(v) + 1) % len(c)]`). -/
def cycleNext (c : List Nat) (v : Nat) : Option Nat :=
  match pyIndex c v with
  | some i => c.get? ((i + 1) % c.length)
  | none => none

/-- The cyclic predecessor of the first occurrence of `v` in the cycle `c`
(Python `c[c.index(v) - 1]`). -/
def cyclePrev (c : List Nat) (v : Nat) : Option Nat :=
  match pyIndex c v with
  | some i => c.get? ((i + c.length - 1) % c.length)
  | none => none

/-- Modelled from the spec: `mesh.face_vertex_descendant(f, v)` — the next
vertex after `v` on the cycle of face `f`; `none` marks a raised exception. -/
def faceVertexDescendant (m : QMesh) (f v : Nat) : Option Nat :=
  (faceCycle m f).bind (fun c => cycleNext c v)

/-- Modelled from the spec: `mesh.face_vertex_ancestor(f, v)`. -/
def faceVertexAncestor (m : QMesh) (f v : Nat) : Option Nat :=
  (faceCycle m f).bind (fun c => cyclePrev c v)

/-- Python list indexing with negative-index wrap-around: `l[i]`, `none` on
`IndexError`. -/
def pythonIdx {α : Type} (l : List α) (i : Int) : Option α :=
  if 0 ≤ i then l.get? i.toNat
  else if (-i) ≤ (l.length : Int) then l.get? (l.length - (-i).toNat)
  else none

/-- Modelled from the spec: the walk computing `vertex_neighbors(v, ordered=True)`
("the ordering around the vertex must be a consistent cyclic rotation"):
starting from a boundary-facing neighbour when one exists, repeatedly step to
the next neighbour around `v` through the face on the current side. -/
def orderedNbrsLoop (m : QMesh) (v start : Nat) :
    Nat → Nat → List Nat → Option (List Nat)
  | 0, _, acc => some acc
  | fuel + 1, fkey, acc =>
    match faceVertexDescendant m fkey v with
    | none => none
    | some nbr =>
      match halfedgeFace m nbr v with
      | none => none
      | some fk2 =>
        if nbr = start then some acc
        else
          match fk2 with
          | none => some (acc ++ [nbr])
          | some f2 => orderedNbrsLoop m v start fuel f2 (acc ++ [nbr])

/-- Modelled from the spec: `vertex_neighbors(v, ordered=True)`;
`none` marks a raised exception. -/
def orderedVertexNeighbors (m : QMesh) (v : Nat) : Option (List Nat) :=
  match vertexNeighbors m v with
  | [] => some []
  | t0 :: _ =>
    let temp := vertexNeighbors m v
    let start := ((temp.find? (fun nbr => decide (halfedgeFace m v nbr = some none))).getD t0)
    match halfedgeFace m start v with
    | some (some f0) => orderedNbrsLoop m v start 1000 f0 [start]
    | _ => none

/-- The candidate list of the boundary branch of
`QuadMesh.vertex_opposite_vertex`:
`[nbr for nbr in vertex_neighbors(v) if nbr != u and is_vertex_on_boundary(nbr)]`. -/
def boundaryCandidates (m : QMesh) (u v : Nat) : List Nat :=
  (vertexNeighbors m v).filter (fun nbr => decide (nbr ≠ u) && isVertexOnBoundary m nbr)

/-- `QuadMesh.vertex_opposite_vertex` (mesh_quad.py): the vertex across `v`
from `u`.  `some none` is Python's `None`; `none` marks a raised exception. -/
def vertexOppositeVertex (m : QMesh) (u v : Nat) : Option (Option Nat) :=
  if isVertexSingular m v then some none
  else if isVertexOnBoundary m v then
    if !isVertexOnBoundary m u then some none
    else
      match boundaryCandidates m u v with
      | [] => none
      | w :: _ => some (some w)
  else
    match orderedVertexNeighbors m v with
    | none => none
    | some nbrs =>
      match pyIndex nbrs u with
      | none => none
      | some i =>
        match pythonIdx nbrs ((i : Int) - 2) with
        | none => none
        | some w => some (some w)

/-- The consecutive vertex pairs of a polyedge (Python `pairwise`). -/
def consecPairs (l : List Nat) : List (Nat × Nat) :=
  l.zip l.tail

/-- The last two entries of a vertex sequence (`polyedge[-2:]`). -/
def lastTwo (l : List Nat) : Option (Nat × Nat) :=
  match l.reverse with
  | b :: a :: _ => some (a, b)
  | _ => none

/-- The loop of `QuadMesh.polyedge` (mesh_quad.py):
`while len(polyedge) <= number_of_vertices()`, stepping across four-valent
vertices and reversing once when the first extremity is reached. -/
def polyedgeLoop (m : QMesh) : Nat → List Nat → Option (List Nat)
  | 0, pe => some pe
  | fuel + 1, pe =>
    if pe.length > numberOfVertices m then some pe
    else if pe.headD 0 = pe.getLastD 0 then some pe
    else
      match lastTwo pe with
      | none => none
      | some (a, b) =>
        match vertexOppositeVertex m a b with
        | none => none
        | some (some w) => polyedgeLoop m fuel (pe ++ [w])
        | some none =>
          match lastTwo pe.reverse with
          | none => none
          | some (a', b') =>
            match vertexOppositeVertex m a' b' with
            | none => none
            | some none => some pe.reverse
            | some (some w) => polyedgeLoop m fuel (pe.reverse ++ [w])

/-- `QuadMesh.polyedge(u0, v0)` (mesh_quad.py): trace the polyedge of the
edge `(u0, v0)`; `none` marks a raised exception. -/
def polyedge (m : QMesh) (u0 v0 : Nat) : Option (List Nat) :=
  polyedgeLoop m (numberOfVertices m + 1) [u0, v0]

/-- Removal of the edges covered by a polyedge from the unconsumed stack,
matched direction-agnostically (the removal loops of `QuadMesh.polyedges`
and `QuadMesh.collect_strips`). -/
def removeCovered (covered : List (Nat × Nat)) (edges : List (Nat × Nat)) :
    List (Nat × Nat) :=
  covered.foldl
    (fun es e =>
      if e ∈ es then es.erase e
      else if (e.2, e.1) ∈ es then es.erase (e.2, e.1)
      else es)
    edges

/-- The worklist loop of `QuadMesh.polyedges` (mesh_quad.py): pop the last
unconsumed edge, trace its polyedge, remove the covered edges. -/
def polyedgesLoop (m : QMesh) :
    Nat → List (Nat × Nat) → List (List Nat) → Option (List (List Nat))
  | _, [], acc => some acc
  | 0, _ :: _, _ => none
  | fuel + 1, e0 :: es, acc =>
    let e := (e0 :: es).getLastD (0, 0)
    let rest := (e0 :: es).dropLast
    match polyedge m e.1 e.2 with
    | none => none
    | some pe => polyedgesLoop m fuel (removeCovered (consecPairs pe) rest) (acc ++ [pe])

/-- `QuadMesh.polyedges` (mesh_quad.py). -/
def polyedges (m : QMesh) : Option (List (List Nat)) :=
  polyedgesLoop m (edgeList m).length (edgeList m) []

/-- `QuadMesh.face_opposite_edge` (mesh_quad.py): the opposite edge in the
quad face left of `(u, v)`; `none` marks a raised exception. -/
def faceOppositeEdge (m : QMesh) (u v : Nat) : Option (Nat × Nat) :=
  match halfedgeFace m u v with
  | some (some fkey) =>
    match faceVertexDescendant m fkey v with
    | none => none
    | some w =>
      match faceVertexDescendant m fkey w with
      | none => none
      | some x => some (w, x)
  | _ => none

/-- `QuadMesh.not_none_edges` (mesh_quad.py): the edges oriented inwards. -/
def notNoneEdges (m : QMesh) : List (Nat × Nat) :=
  (edgeList m).map (fun e =>
    match halfedgeFace m e.1 e.2 with
    | some (some _) => (e.1, e.2)
    | _ => (e.2, e.1))

/-- True when the Python test
`w not in self.halfedge[x] or self.halfedge[x][w] is None` holds. -/
def halfedgeIsNoneOrAbsent (m : QMesh) (x w : Nat) : Bool :=
  match halfedgeFace m x w with
  | some (some _) => false
  | _ => true

/-- The loop of `QuadMesh.collect_strip` (mesh_quad.py), with the decrementing
counter `count = number_of_edges()` as fuel: walk to the opposite edge of the
face ahead, stop on closure, reverse once on reaching the boundary. -/
def collectStripLoop (m : QMesh) : Nat → List (Nat × Nat) → Option (List (Nat × Nat))
  | 0, edges => some edges
  | count + 1, edges =>
    let uv := edges.getLastD (0, 0)
    match faceOppositeEdge m uv.1 uv.2 with
    | none => none
    | some (w, x) =>
      if (x, w) = edges.headD (0, 0) then some edges
      else
        let edges' := edges ++ [(x, w)]
        if halfedgeIsNoneOrAbsent m x w then
          let edges'' := (edges'.reverse.map (fun e => (e.2, e.1)))
          let uv2 := edges''.getLastD (0, 0)
          if halfedgeIsNoneOrAbsent m uv2.1 uv2.2 then some edges''
          else collectStripLoop m count edges''
        else collectStripLoop m count edges'

/-- `QuadMesh.collect_strip(u0, v0)` (mesh_quad.py): all edges in the strip
of the input edge; `none` marks a raised exception. -/
def collectStrip (m : QMesh) (u0 v0 : Nat) : Option (List (Nat × Nat)) :=
  match halfedgeFace m u0 v0 with
  | none => none
  | some none => collectStripLoop m (numberOfEdges m) [(v0, u0)]
  | some (some _) => collectStripLoop m (numberOfEdges m) [(u0, v0)]

/-- The worklist loop of `QuadMesh.collect_strips` (mesh_quad.py): pop the
last unconsumed oriented edge, collect its strip under the next strip id,
remove the covered edges. -/
def collectStripsLoop (m : QMesh) :
    Nat → List (Nat × Nat) → Int → List (Int × List (Nat × Nat)) →
    Option (Int × List (Int × List (Nat × Nat)))
  | _, [], strip, table => some (strip, table)
  | 0, _ :: _, _, _ => none
  | fuel + 1, e0 :: es, strip, table =>
    let e := (e0 :: es).getLastD (0, 0)
    let rest := (e0 :: es).dropLast
    match collectStrip m e.1 e.2 with
    | none => none
    | some stripEdges =>
      collectStripsLoop m fuel (removeCovered stripEdges rest) (strip + 1)
        (table ++ [(strip + 1, stripEdges)])

/-- `QuadMesh.collect_strips` (mesh_quad.py): rebuild the strip table; the
returned pair is the returned strip counter and the final `self.strip`. -/
def collectStrips (m : QMesh) : Option (Int × List (Int × List (Nat × Nat))) :=
  collectStripsLoop m (notNoneEdges m).length (notNoneEdges m) (-1) []

/-- Modelled from the spec: the kernel's `key_index()` — vertex key to rank
in the `vertices()` enumeration. -/
def keyIndex (m : QMesh) (k : Nat) : Option Nat :=
  pyIndex (sortAsc m.vertexList) k

/-- One face cycle of `to_vertices_and_faces(keep_keys=False)` (mesh.py):
`[key_index[key] for key in face_vertices(fkey)]`;
`none` marks a raised `KeyError`. -/
def reindexCycle (m : QMesh) : List Nat → Option (List Nat)
  | [] => some []
  | v :: rest =>
    match keyIndex m v, reindexCycle m rest with
    | some i, some t => some (i :: t)
    | _, _ => none

/-- The reindexed face list of `to_vertices_and_faces(keep_keys=False)`
(mesh.py lines 72-75). -/
def toFacesNoKeys (m : QMesh) : List (Nat × List Nat) → Option (List (List Nat))
  | [] => some []
  | fp :: rest =>
    match reindexCycle m fp.2, toFacesNoKeys m rest with
    | some c, some t => some (c :: t)
    | _, _ => none

/-- `Mesh.to_vertices_and_faces(keep_keys=False)` (mesh.py): the vertex part
is the coordinate list (carried as its length, coordinates being
topologically inert), the face part the reindexed cycles. -/
def toVerticesAndFacesNoKeys (m : QMesh) : Option (Nat × List (List Nat)) :=
  (toFacesNoKeys m m.faceList).map (fun fs => ((sortAsc m.vertexList).length, fs))

/-- Modelled from the spec: the bulk constructor `from_vertices_and_faces
(vertex list, face list of vertex-id lists) → Mesh` — vertices get keys
`0..n-1`, faces get keys `0..m-1` in order. -/
def fromVerticesAndFaces (nv : Nat) (faces : List (List Nat)) : QMesh :=
  ⟨List.range nv, faces.enum, nv, faces.length, []⟩

/-- The rank of a face key in the `faces()` enumeration. -/
def faceKeyPos (m : QMesh) (f : Nat) : Option Nat :=
  pyIndex (m.faceList.map Prod.fst) f

/-- The consecutive integers `start, start + 1, ..., start + n - 1`. -/
def intSeq (start : Int) : Nat → List Int
  | 0 => []
  | n + 1 => start :: intSeq (start + 1) n

/-- Swap the two endpoints of a directed edge. -/
def swapE (e : Nat × Nat) : Nat × Nat :=
  (e.2, e.1)

/-- How many times the undirected edge `e` occurs in a list of directed
edges, counted regardless of direction. -/
def pmCount (e : Nat × Nat) (l : List (Nat × Nat)) : Nat :=
  l.countP (fun g => decide (g = e ∨ g = swapE e))

/-- The property claimed of `polyedges()`: the returned polyedges cover every
mesh edge by exactly one consecutive vertex pair of exactly one polyedge,
counted regardless of direction. -/
def polyedgesPartition (m : QMesh) : Prop :=
  ∃ pes, polyedges m = some pes ∧
    ∀ e ∈ edgeList m, (pes.map (fun pe => pmCount e (consecPairs pe))).sum = 1

/-- Modelled from the spec: `mesh.delete_face(f)` — remove the face and its
halfedge entries; `none` marks a raised exception (unknown face key). -/
def deleteFace (m : QMesh) (f : Nat) : Option QMesh :=
  if m.faceList.any (fun fp => decide (fp.1 = f)) then
    some { m with faceList := m.faceList.filter (fun fp => decide (fp.1 ≠ f)) }
  else none

/-- Modelled from the spec: `mesh.add_face(vertices)` with an automatic key
(the kernel's monotone fresh-key counter); returns the new mesh and key. -/
def addFaceAuto (m : QMesh) (verts : List Nat) : QMesh × Nat :=
  ({ m with faceList := m.faceList ++ [(m.faceCounter, verts)],
            faceCounter := m.faceCounter + 1 },
   m.faceCounter)

/-- Modelled from the spec: `mesh.add_face(vertices, fkey)` with an explicit
key (the delete-then-re-add replace idiom). -/
def addFaceKeyed (m : QMesh) (verts : List Nat) (f : Nat) : QMesh :=
  { m with faceList := m.faceList ++ [(f, verts)],
           faceCounter := max m.faceCounter (f + 1) }

/-- Extract the real face of a halfedge lookup (`none` when the direction is
boundary-facing, absent, or the mesh raises). -/
def realFace : Option (Option Nat) → Option Nat
  | some (some f) => some f
  | _ => none

/-- The step computing the next polyline vertex in `quad_mesh_polylines_all`
(polyline_extraction.py lines 128-135): dichotomy on whether the halfedge
`(u, v)` points to a face or outside. -/
def qmpNextVertex (m : QMesh) (u v : Nat) : Option Nat :=
  match halfedgeFace m u v with
  | some (some f) => do
    let x ← faceVertexDescendant m f v
    let f2 ← realFace (halfedgeFace m x v)
    faceVertexDescendant m f2 v
  | some none => do
    let f ← realFace (halfedgeFace m v u)
    let x ← faceVertexAncestor m f v
    let f2 ← realFace (halfedgeFace m v x)
    faceVertexAncestor m f2 v
  | none => none

/-- The directional inner loop of `quad_mesh_polylines_all`
(polyline_extraction.py lines 117-142), with the decrementing `count` as
fuel; returns the updated edge stack, edge counter and polyline. -/
def qmpInner (m : QMesh) (isB : Bool) :
    Nat → List (Nat × Nat) → Nat → List Nat →
    Option (List (Nat × Nat) × Nat × List Nat)
  | 0, edges, nb, pl => some (edges, nb, pl)
  | count + 1, edges, nb, pl =>
    match lastTwo pl with
    | none => none
    | some (u, v) =>
      if !isB && (isVertexOnBoundary m v || decide (vertexDegree m v ≠ 4) ||
          decide (pl.headD 0 = pl.getLastD 0)) then some (edges, nb, pl)
      else if isB && (decide (vertexDegree m v ≠ 3) ||
          decide (pl.headD 0 = pl.getLastD 0)) then some (edges, nb, pl)
      else
        match qmpNextVertex m u v with
        | none => none
        | some w =>
          if (v, w) ∈ edges then
            qmpInner m isB count (edges.erase (v, w)) (nb - 1) (pl ++ [w])
          else if (w, v) ∈ edges then
            qmpInner m isB count (edges.erase (w, v)) (nb - 1) (pl ++ [w])
          else none

/-- The two directional passes of `quad_mesh_polylines_all`
(polyline_extraction.py lines 116-148): search, reverse, search again
unless already closed. -/
def qmpTwoPasses (m : QMesh) (isB : Bool) (edges : List (Nat × Nat)) (nb : Nat)
    (pl : List Nat) : Option (List (Nat × Nat) × Nat × List Nat) :=
  match qmpInner m isB nb edges nb pl with
  | none => none
  | some (edges1, nb1, pl1) =>
    let pl1r := pl1.reverse
    if pl1r.headD 0 = pl1r.getLastD 0 then some (edges1, nb1, pl1r)
    else
      match qmpInner m isB nb1 edges1 nb1 pl1r with
      | none => none
      | some (edges2, nb2, pl2) => some (edges2, nb2, pl2.reverse)

/-- The outer worklist loop of `quad_mesh_polylines_all`
(polyline_extraction.py lines 106-149). -/
def qmpOuter (m : QMesh) :
    Nat → List (Nat × Nat) → Nat → List (List Nat) → Option (List (List Nat))
  | 0, _, _, acc => some acc
  | fuel + 1, edges, nb, acc =>
    if nb = 0 then some acc
    else
      match edges.getLast? with
      | none => none
      | some e0 =>
        let rest := edges.dropLast
        let isB := isEdgeOnBoundary m e0.1 e0.2
        match qmpTwoPasses m isB rest (nb - 1) [e0.1, e0.2] with
        | none => none
        | some (edges', nb', pl) => qmpOuter m fuel edges' nb' (acc ++ [pl])

/-- `quad_mesh_polylines_all(mesh, dual=False)` (polyline_extraction.py
lines 63-151): partition the edges into maximal straight polylines.
(The reversal at the end of the second pass is undone before the polyline
is stored, matching `polyline.reverse()` placement in the source.)
`none` also covers the not-a-quad-mesh failure. -/
def quadMeshPolylinesAll (m : QMesh) : Option (List (List Nat)) :=
  if isQuadmesh m then
    qmpOuter m (numberOfEdges m) (edgeList m) (numberOfEdges m) []
  else none

/-- Lookup in the `edge_groups` dict (association list with dict-update
semantics). -/
def egGet (gs : List ((Nat × Nat) × Nat)) (e : Nat × Nat) : Option Nat :=
  (gs.find? (fun p => decide (p.1 = e))).map (·.2)

/-- Write to the `edge_groups` dict: overwrite an existing key or append. -/
def egSet (gs : List ((Nat × Nat) × Nat)) (e : Nat × Nat) (g : Nat) :
    List ((Nat × Nat) × Nat) :=
  if gs.any (fun p => decide (p.1 = e)) then
    gs.map (fun p => if p.1 = e then (e, g) else p)
  else gs ++ [(e, g)]

/-- The group-merging relabel loop of `dual_edge_groups`
(polyline_extraction.py lines 199-204): for every key whose current value is
the old group, set the key and its reverse to the new group. -/
def egRelabelLoop (keys : List (Nat × Nat)) (old new1 : Nat)
    (gs : List ((Nat × Nat) × Nat)) : List ((Nat × Nat) × Nat) :=
  keys.foldl
    (fun acc e =>
      match egGet acc e with
      | some g =>
        if g = old then egSet (egSet acc e new1) (e.2, e.1) new1 else acc
      | none => acc)
    gs

/-- One `(u, v, w, x)` configuration step of `dual_edge_groups`
(polyline_extraction.py lines 182-224): degenerate-face handling followed by
the four-way membership chain. -/
def degruStep (st : List ((Nat × Nat) × Nat) × Nat) (u v w x : Nat) :
    List ((Nat × Nat) × Nat) × Nat :=
  let gs := st.1
  let mg := st.2
  let st1 :=
    if u = v then
      if egGet gs (w, x) = none then
        (egSet (egSet gs (w, x) (mg + 1)) (x, w) (mg + 1), mg + 1)
      else (gs, mg)
    else if w = x then
      if egGet gs (u, v) = none then
        (egSet (egSet gs (u, v) (mg + 1)) (v, u) (mg + 1), mg + 1)
      else (gs, mg)
    else (gs, mg)
  let gs1 := st1.1
  let mg1 := st1.2
  match egGet gs1 (u, v), egGet gs1 (w, x) with
  | some gn, some go => (egRelabelLoop (gs1.map Prod.fst) go gn gs1, mg1)
  | none, some g => (egSet (egSet gs1 (u, v) g) (v, u) g, mg1)
  | some g, none => (egSet (egSet gs1 (w, x) g) (x, w) g, mg1)
  | none, none =>
    (egSet (egSet (egSet (egSet gs1 (u, v) (mg1 + 1)) (v, u) (mg1 + 1))
        (w, x) (mg1 + 1)) (x, w) (mg1 + 1),
     mg1 + 1)

/-- The face loop of `dual_edge_groups` (polyline_extraction.py lines
153-226): per quad face `(a, b, c, d)`, process the two opposite-edge
configurations; `none` marks the not-a-quad-mesh failure or an unpacking
error. -/
def degruFaces (m : QMesh) :
    List (Nat × List Nat) → List ((Nat × Nat) × Nat) × Nat →
    Option (List ((Nat × Nat) × Nat) × Nat)
  | [], st => some st
  | fp :: rest, st =>
    match fp.2 with
    | [a, b, c, d] => degruFaces m rest (degruStep (degruStep st a b c d) b c d a)
    | _ => none

/-- `dual_edge_groups(mesh)` (polyline_extraction.py lines 153-226), imported
by `face_strip_collapse` under the name `dual_edge_polylines`. -/
def dualEdgeGroups (m : QMesh) : Option (List ((Nat × Nat) × Nat) × Nat) :=
  if isQuadmesh m then degruFaces m m.faceList ([], 0) else none

/-- The face-deletion loop of `face_strip_collapse`
(face_strip_operations.py lines 64-69): delete the face left of every
collapse edge that still has one. -/
def collapseDeleteLoop (m : QMesh) : List (Nat × Nat) → QMesh
  | [] => m
  | e :: es =>
    match halfedgeFace m e.1 e.2 with
    | some (some f) =>
      collapseDeleteLoop
        { m with faceList := m.faceList.filter (fun fp => decide (fp.1 ≠ f)) } es
    | _ => collapseDeleteLoop m es

/-- Modelled from the spec: `mesh.add_vertex()` with an automatic key.  The
coordinates passed by the source only position the merged vertex and never
influence control flow, so they are not carried. -/
def addVertexAuto (m : QMesh) : QMesh × Nat :=
  ({ m with vertexList := m.vertexList ++ [m.vertexCounter],
            vertexCounter := m.vertexCounter + 1 },
   m.vertexCounter)

/-- Replace the first occurrence of `vkey` in a face cycle
(`face_vertices.index(vkey)` followed by assignment); `none` marks a raised
`ValueError`. -/
def replaceFirst (c : List Nat) (vkey w : Nat) : Option (List Nat) :=
  match pyIndex c vkey with
  | none => none
  | some i => some (c.set i w)

/-- One face rewrite of the vertex-merging loop of `face_strip_collapse`
(face_strip_operations.py lines 85-91): delete the face and re-add it under
the same key with `vkey` replaced by `w`. -/
def rewriteOneFace (m : QMesh) (vkey w f : Nat) : Option QMesh :=
  match faceCycle m f with
  | none => none
  | some c =>
    match replaceFirst c vkey w with
    | none => none
    | some c' =>
      match deleteFace m f with
      | none => none
      | some m1 => some (addFaceKeyed m1 c' f)

/-- The `for fkey in mesh.vertex_faces(vkey)` rewrite loop. -/
def rewriteFacesLoop (m : QMesh) (vkey w : Nat) : List Nat → Option QMesh
  | [] => some m
  | f :: rest =>
    match rewriteOneFace m vkey w f with
    | none => none
    | some m' => rewriteFacesLoop m' vkey w rest

/-- The face keys around a vertex (`mesh.vertex_faces(vkey)`). -/
def vertexFaceKeys (m : QMesh) (vkey : Nat) : List Nat :=
  (m.faceList.filter (fun fp => decide (vkey ∈ fp.2))).map Prod.fst

/-- The vertex-merging loop of `face_strip_collapse`
(face_strip_operations.py lines 72-91): per collapse edge, add a merged
vertex and relink the faces still incident to either endpoint.  (The
boundary test of the source only chooses the merged vertex's coordinates.) -/
def collapseMergeLoop (m : QMesh) : List (Nat × Nat) → Option QMesh
  | [] => some m
  | (u, v) :: rest => do
    let r := addVertexAuto m
    let m2 ← rewriteFacesLoop r.1 u r.2 (vertexFaceKeys r.1 u)
    let m3 ← rewriteFacesLoop m2 v r.2 (vertexFaceKeys m2 v)
    collapseMergeLoop m3 rest

/-- `face_strip_collapse(cls, mesh, u, v)` (face_strip_operations.py lines
29-98).  The edge grouping is imported under the name `dual_edge_polylines`,
which the repository ships as `dual_edge_groups`.  The final weld and
rebuild are bound to a local name only and discarded, so the caller-visible
mesh is the state after the merge loop; the function returns `0`. -/
def faceStripCollapse (m : QMesh) (u v : Nat) : Option (QMesh × Option Nat) :=
  if !isQuadmesh m then some (m, none)
  else if decide (halfedgeFace m u v = none) && decide (halfedgeFace m v u = none) then
    some (m, none)
  else
    match dualEdgeGroups m with
    | none => none
    | some (gs, _) =>
      match egGet gs (u, v) with
      | none => none
      | some gn =>
        let edgesToCollapse := (gs.filter (fun p => decide (p.2 = gn))).map Prod.fst
        let m1 := collapseDeleteLoop m edgesToCollapse
        match collapseMergeLoop m1 edgesToCollapse with
        | none => none
        | some m2 => some (m2, some 0)

/-- The distinct faces adjacent to a list of directed edges, in first-touch
order (the faces a collapsed dual-edge group touches). -/
def touchedFaces (m : QMesh) (es : List (Nat × Nat)) : List Nat :=
  dedupKF (es.filterMap (fun e => realFace (halfedgeFace m e.1 e.2)))

/-- The mesh with the faces whose keys are in `S` removed (the cumulative
effect of the deletion loop). -/
def filterOut (m : QMesh) (S : List Nat) : QMesh :=
  { m with faceList := m.faceList.filter (fun fp => decide (fp.1 ∉ S)) }

/-- Recursive characterisation of the faces deleted by the deletion loop
starting from the already-deleted set `S`. -/
def touchedFrom (m : QMesh) (S : List Nat) : List (Nat × Nat) → List Nat
  | [] => []
  | e :: es =>
    match realFace (halfedgeFace m e.1 e.2) with
    | some f =>
      if f ∈ S then touchedFrom m S es else f :: touchedFrom m (f :: S) es
    | none => touchedFrom m S es

/-- The polyedge-selection scan of `face_strips_merge`
(face_strip_operations.py lines 173-177): the last polyline having `(u, v)`
as a consecutive pair in either direction is kept. -/
def findLastMatch (pls : List (List Nat)) (u v : Nat) : Option (List Nat) :=
  pls.foldl
    (fun acc pl =>
      if (consecPairs pl).any (fun e => decide (e = (u, v) ∨ e = (v, u))) then some pl
      else acc)
    none

/-- The fusion loop of `face_strips_merge` (face_strip_operations.py lines
185-209): per polyedge segment, fuse the two straddling faces into one quad. -/
def mergeLoop (m : QMesh) : List (Nat × Nat) → List Nat → Option (QMesh × Option (List Nat))
  | [], acc => some (m, some acc)
  | (u, v) :: rest, acc => do
    let f1 ← realFace (halfedgeFace m u v)
    let f2 ← realFace (halfedgeFace m v u)
    let a ← faceVertexDescendant m f1 v
    let b ← faceVertexDescendant m f1 a
    let c ← faceVertexDescendant m f2 u
    let d ← faceVertexDescendant m f2 c
    let m1 ← deleteFace m f1
    let m2 ← deleteFace m1 f2
    let r := addFaceAuto m2 [a, b, c, d]
    mergeLoop r.1 rest (acc ++ [r.2])

/-- `face_strips_merge(cls, mesh, u, v)` (face_strip_operations.py lines
142-211).  The polyedge is looked up through the polyline decomposition
(the source imports it under the name `quad_mesh_polylines`, which the
repository ships as `quad_mesh_polylines_all`).  The result pairs the
caller-visible mesh with the returned value (`some none` is Python's
`None` failure signal); `none` marks a raised exception. -/
def faceStripsMerge (m : QMesh) (u v : Nat) : Option (QMesh × Option (List Nat)) :=
  if !isQuadmesh m then some (m, none)
  else if isEdgeOnBoundary m u v then some (m, none)
  else
    match quadMeshPolylinesAll m with
    | none => none
    | some polylines =>
      match findLastMatch polylines u v with
      | none => none
      | some polyedge =>
        if polyedge.any (fun vk => isVertexSingular m vk) then some (m, none)
        else mergeLoop m (consecPairs polyedge) []

/-- Well-formedness of a quad mesh for the strip-partition theorem: every
face is a duplicate-free 4-cycle over registered vertices, face keys are
distinct, and no directed halfedge belongs to two faces. -/
def wfQuad (m : QMesh) : Prop :=
  (∀ fp ∈ m.faceList, fp.2.length = 4 ∧ fp.2.Nodup) ∧
  (∀ fp ∈ m.faceList, ∀ y ∈ fp.2, y ∈ m.vertexList) ∧
  (m.faceList.map Prod.fst).Nodup ∧
  m.faceList.Pairwise (fun p q => ∀ e ∈ cyclePairs p.2, e ∉ cyclePairs q.2)

instance (m : QMesh) : Decidable (wfQuad m) := by
  unfold wfQuad
  infer_instance

/-- The strip-walk step: the opposite edge of the face ahead, endpoint
order swapped (the edge appended by `collect_strip`). -/
def nextEdge (m : QMesh) (e : Nat × Nat) : Option (Nat × Nat) :=
  match faceOppositeEdge m e.1 e.2 with
  | some (w, x) => some (x, w)
  | none => none

/-- Iterates of the strip-walk step. -/
def iterNext (m : QMesh) : Nat → (Nat × Nat) → Option (Nat × Nat)
  | 0, e => some e
  | k + 1, e => (iterNext m k e).bind (nextEdge m)

/-- Direction-agnostic membership of a directed edge in a list. -/
def pmMem (g : Nat × Nat) (l : List (Nat × Nat)) : Prop :=
  g ∈ l ∨ swapE g ∈ l

/-- Consecutive entries of the list are linked by the strip-walk step. -/
def isOrbitList (m : QMesh) (l : List (Nat × Nat)) : Prop :=
  ∀ (i : Nat) (h : i + 1 < l.length),
    nextEdge m (l.get ⟨i, Nat.lt_of_succ_lt h⟩) = some (l.get ⟨i + 1, h⟩)

/-- Direction-agnostic closure of a list of directed edges under the
strip-walk step. -/
def pmClosed (m : QMesh) (l : List (Nat × Nat)) : Prop :=
  ∀ g g', pmMem g l → nextEdge m g = some g' → pmMem g' l

/-- Pairwise direction-agnostic distinctness of a list of directed edges. -/
def pmNodup (l : List (Nat × Nat)) : Prop :=
  l.Pairwise (fun p q => q ≠ p ∧ q ≠ swapE p)

/-- Invariant of the `collect_strip` walk: the list is a nonempty chain of
strip-walk steps, its head does not reappear, and it walks along mesh
edges. -/
def stripInv (m : QMesh) (l : List (Nat × Nat)) : Prop :=
  l ≠ [] ∧ l.Chain' (fun a b => nextEdge m a = some b) ∧
  l.headD (0, 0) ∉ l.tail ∧ ∀ g ∈ l, pmMem g (edgeList m)

/-- The two ways the `collect_strip` walk can be complete: closed back onto
its head, or stopped at the boundary on both ends. -/
def stripTerm (m : QMesh) (l : List (Nat × Nat)) : Prop :=
  nextEdge m (l.getLastD (0, 0)) = some (l.headD (0, 0)) ∨
  (halfedgeIsNoneOrAbsent m (l.getLastD (0, 0)).1 (l.getLastD (0, 0)).2 = true ∧
   halfedgeIsNoneOrAbsent m (l.headD (0, 0)).2 (l.headD (0, 0)).1 = true)

/-- The boundary-adjacent vertices collected by `mesh_polylines_boundary`
(polyline_extraction.py lines 36-43): both endpoints of every
boundary-facing halfedge, as the ascending list a CPython-2 set of small
integers iterates. -/
def bdVertices (m : QMesh) : List Nat :=
  sortAsc (dedupKF ((sortAsc m.vertexList).flatMap (fun u =>
    (vertexNeighbors m u).flatMap (fun v =>
      if halfedgeFace m u v = some none then [u, v] else []))))

/-- The first boundary-facing outgoing halfedge at `u` in dict order (the
inner `for nbr, fkey in ...: if fkey is None` scan of
`mesh_polylines_boundary`). -/
def bdNext (m : QMesh) (u : Nat) : Option Nat :=
  (vertexNeighbors m u).find? (fun v => decide (halfedgeFace m u v = some none))

/-- The inner `while 1` loop of `mesh_polylines_boundary`: follow the
boundary-facing halfedge from the last vertex, stop when the polyline
closes, remove the appended vertex from the worklist otherwise.  Outer
`none` marks fuel exhaustion, `some none` a raised `ValueError` (removing
an absent vertex). -/
def mpbInner (m : QMesh) : Nat → List Nat → List Nat →
    Option (Option (List Nat × List Nat))
  | 0, _, _ => none
  | fuel + 1, vert, boundary =>
    match bdNext m (boundary.getLastD 0) with
    | some nbr =>
      if (boundary ++ [nbr]).headD 0 = (boundary ++ [nbr]).getLastD 0 then
        some (some (boundary ++ [nbr], vert))
      else if nbr ∈ vert then mpbInner m fuel (vert.erase nbr) (boundary ++ [nbr])
      else some none
    | none =>
      if boundary.headD 0 = boundary.getLastD 0 then some (some (boundary, vert))
      else if boundary.getLastD 0 ∈ vert then
        mpbInner m fuel (vert.erase (boundary.getLastD 0)) boundary
      else some none

/-- The outer `while len(vertices) > 0` loop of `mesh_polylines_boundary`:
pop the last unvisited boundary vertex and trace its boundary polyline. -/
def mpbOuter (m : QMesh) : Nat → List Nat → List (List Nat) →
    Option (Option (List (List Nat)))
  | _, [], acc => some (some acc)
  | 0, _ :: _, _ => none
  | fuel + 1, v0 :: vs, acc =>
    match mpbInner m ((v0 :: vs).dropLast.length + 1) ((v0 :: vs).dropLast)
        [(v0 :: vs).getLastD 0] with
    | none => none
    | some none => some none
    | some (some (boundary, vertAfter)) =>
      mpbOuter m fuel vertAfter (acc ++ [boundary])

/-- `mesh_polylines_boundary` (polyline_extraction.py), with every loop
given fuel bounded by the number of boundary-adjacent vertices. -/
def meshPolylinesBoundary (m : QMesh) : Option (Option (List (List Nat))) :=
  mpbOuter m (bdVertices m).length (bdVertices m) []

section ConcreteMeshes

/-- The single quad face `v0-v1-v2-v3-v0` of the specification scenario. -/
def singleQuad : QMesh :=
  ⟨[0, 1, 2, 3], [(0, [0, 1, 2, 3])], 4, 1, []⟩

/-- A 2×2 grid of quads (3×3 vertices), with one interior regular vertex `4`. -/
def grid2x2 : QMesh :=
  ⟨[0, 1, 2, 3, 4, 5, 6, 7, 8],
   [(0, [0, 1, 4, 3]), (1, [1, 2, 5, 4]), (2, [3, 4, 7, 6]), (3, [4, 5, 8, 7])],
   9, 4, []⟩

/-- An annulus of four quads: outer boundary square `0-1-2-3`, inner boundary
square `4-5-6-7`; every vertex has degree 3 and lies on the boundary. -/
def annulus : QMesh :=
  ⟨[0, 1, 2, 3, 4, 5, 6, 7],
   [(0, [0, 1, 5, 4]), (1, [1, 2, 6, 5]), (2, [2, 3, 7, 6]), (3, [3, 0, 4, 7])],
   8, 4, []⟩

/-- Three quads sharing an interior vertex `0` of degree 3: vertex `0` is an
interior singularity; every other vertex is a regular boundary vertex. -/
def cornerMesh : QMesh :=
  ⟨[0, 1, 2, 3, 4, 5, 6],
   [(0, [0, 1, 2, 3]), (1, [0, 3, 4, 5]), (2, [0, 5, 6, 1])],
   7, 3, []⟩

/-- The edge-group table that `dual_edge_groups` computes for the 2×2 grid
(checked by evaluation in the C3 witness). -/
def DEGgrid : List ((Nat × Nat) × Nat) :=
  [((0, 1), 1), ((1, 0), 1), ((4, 3), 1), ((3, 4), 1), ((1, 4), 2), ((4, 1), 2),
   ((3, 0), 2), ((0, 3), 2), ((1, 2), 3), ((2, 1), 3), ((5, 4), 3), ((4, 5), 3),
   ((2, 5), 2), ((5, 2), 2), ((7, 6), 1), ((6, 7), 1), ((4, 7), 4), ((7, 4), 4),
   ((6, 3), 4), ((3, 6), 4), ((8, 7), 3), ((7, 8), 3), ((5, 8), 4), ((8, 5), 4)]

end ConcreteMeshes

/-! ## Theorems -/

/-! ### Library lemmas for index search and Python indexing -/

theorem pyIndexAux_shift (x : Nat) (l : List Nat) (j : Nat) :
    pyIndexAux x l j = (pyIndexAux x l 0).map (· + j) := by
  induction l generalizing j with
  | nil => simp [pyIndexAux]
  | cons a t ih =>
    by_cases h : a = x
    · simp [pyIndexAux, h]
    · rw [pyIndexAux, if_neg h, pyIndexAux, if_neg h, ih (j + 1), ih 1, Option.map_map]
      congr 1
      funext i
      simp only [Function.comp_apply]
      omega

theorem pyIndex_cons (x a : Nat) (t : List Nat) :
    pyIndex (a :: t) x =
      if a = x then some 0 else (pyIndex t x).map (· + 1) := by
  rw [pyIndex, pyIndexAux]
  by_cases h : a = x
  · simp [h]
  · simp [h, pyIndexAux_shift x t 1, pyIndex]

theorem pyIndex_lt_length {l : List Nat} {x i : Nat} (h : pyIndex l x = some i) :
    i < l.length := by
  induction l generalizing i with
  | nil => simp [pyIndex, pyIndexAux] at h
  | cons a t ih =>
    rw [pyIndex_cons] at h
    by_cases ha : a = x
    · simp [ha] at h
      simp only [List.length_cons]
      omega
    · rw [if_neg ha] at h
      obtain ⟨i', hi', rfl⟩ := Option.map_eq_some'.mp h
      have := ih hi'
      simp only [List.length_cons]
      omega

theorem pyIndex_get {l : List Nat} {x i : Nat} (h : pyIndex l x = some i) :
    l.get? i = some x := by
  induction l generalizing i with
  | nil => simp [pyIndex, pyIndexAux] at h
  | cons a t ih =>
    rw [pyIndex_cons] at h
    by_cases ha : a = x
    · simp [ha] at h
      simp [← h, ha]
    · rw [if_neg ha] at h
      obtain ⟨i', hi', rfl⟩ := Option.map_eq_some'.mp h
      simpa using ih hi'

theorem pyIndex_of_mem {l : List Nat} {x : Nat} (h : x ∈ l) :
    ∃ i, pyIndex l x = some i := by
  induction l with
  | nil => simp at h
  | cons a t ih =>
    rw [pyIndex_cons]
    by_cases ha : a = x
    · exact ⟨0, by simp [ha]⟩
    · have hx : x ∈ t := by
        rcases List.mem_cons.mp h with h1 | h1
        · exact absurd h1.symm ha
        · exact h1
      obtain ⟨i, hi⟩ := ih hx
      exact ⟨i + 1, by simp [ha, hi]⟩

theorem pyIndex_nodup_get {l : List Nat} (hnd : l.Nodup) {i : Nat} (hi : i < l.length) :
    pyIndex l (l.get ⟨i, hi⟩) = some i := by
  induction l generalizing i with
  | nil => simp at hi
  | cons a t ih =>
    rw [pyIndex_cons]
    cases i with
    | zero => simp
    | succ i' =>
      have hne : a ≠ (a :: t).get ⟨i' + 1, hi⟩ := by
        intro hcontra
        have hmem : (a :: t).get ⟨i' + 1, hi⟩ ∈ t := by
          simpa using List.get_mem t ⟨i', by simpa using hi⟩
        exact (List.nodup_cons.mp hnd).1 (hcontra ▸ hmem)
      rw [if_neg hne]
      have := ih (List.nodup_cons.mp hnd).2 (i := i') (by simpa using hi)
      simp only [List.get_cons_succ] at hne ⊢
      rw [this]
      rfl

theorem pythonIdx_neg2 {α : Type} (l : List α) (i : Nat) (hi : i < l.length)
    (h2 : 2 ≤ l.length) :
    pythonIdx l ((i : Int) - 2) = l.get? ((i + l.length - 2) % l.length) := by
  rcases Nat.lt_or_ge i 2 with hlt | hge
  · rw [pythonIdx, if_neg (by omega), if_pos (by omega)]
    have hmod : (i + l.length - 2) % l.length = l.length - (2 - i) := by
      rw [show i + l.length - 2 = l.length - (2 - i) from by omega]
      exact Nat.mod_eq_of_lt (by omega)
    rw [hmod]
    congr 1
    omega
  · rw [pythonIdx, if_pos (by omega)]
    have hmod : (i + l.length - 2) % l.length = i - 2 := by
      rw [show i + l.length - 2 = (i - 2) + l.length from by omega, Nat.add_mod_right]
      exact Nat.mod_eq_of_lt (by omega)
    rw [hmod]
    congr 1
    omega

/-- Claim C5: for every mesh and adjacent pair `(u, v)`,
`vertex_opposite_vertex(u, v)` returns `None` if `v` is singular; if `v` is
on the boundary it returns `None` when `u` is not on the boundary and
otherwise returns the other boundary neighbor of `v` (distinct from `u`);
if `v` is interior regular it returns the neighbor at rotational offset
`-2` from `u` in `v`'s cyclically ordered neighbor list. -/
theorem C5_vertex_opposite_vertex_cases (m : QMesh) (u v : Nat) :
    (isVertexSingular m v = true → vertexOppositeVertex m u v = some none) ∧
    (isVertexSingular m v = false → isVertexOnBoundary m v = true →
      isVertexOnBoundary m u = false → vertexOppositeVertex m u v = some none) ∧
    (∀ w, isVertexSingular m v = false → isVertexOnBoundary m v = true →
      isVertexOnBoundary m u = true → boundaryCandidates m u v = [w] →
      vertexOppositeVertex m u v = some (some w) ∧
        w ∈ vertexNeighbors m v ∧ w ≠ u ∧ isVertexOnBoundary m w = true) ∧
    (∀ nbrs i w, isVertexSingular m v = false → isVertexOnBoundary m v = false →
      orderedVertexNeighbors m v = some nbrs → pyIndex nbrs u = some i →
      2 ≤ nbrs.length →
      nbrs.get? ((i + nbrs.length - 2) % nbrs.length) = some w →
      vertexOppositeVertex m u v = some (some w)) := by
  refine ⟨?_, ?_, ?_, ?_⟩
  · intro hs
    simp [vertexOppositeVertex, hs]
  · intro hs hbv hbu
    simp [vertexOppositeVertex, hs, hbv, hbu]
  · intro w hs hbv hbu hcand
    have hwmem : w ∈ boundaryCandidates m u v := by
      rw [hcand]
      exact List.mem_singleton.mpr rfl
    have hw := List.mem_filter.mp hwmem
    refine ⟨?_, hw.1, ?_, ?_⟩
    · simp [vertexOppositeVertex, hs, hbv, hbu, hcand]
    · have := hw.2
      simp only [Bool.and_eq_true, decide_eq_true_eq] at this
      exact this.1
    · have := hw.2
      simp only [Bool.and_eq_true, decide_eq_true_eq] at this
      exact this.2
  · intro nbrs i w hs hbv hord hidx hlen hget
    have hi : i < nbrs.length := pyIndex_lt_length hidx
    simp only [vertexOppositeVertex, hs, hbv, Bool.false_eq_true, if_false, hord,
      hidx, pythonIdx_neg2 nbrs i hi hlen, hget]

/-- Witness for C5 on concrete inputs: the interior-regular case on the
2×2 grid and the singular case on the single quad. -/
theorem C5_vertex_opposite_vertex_cases_witness :
    vertexOppositeVertex grid2x2 1 4 = some (some 7) ∧
    vertexOppositeVertex singleQuad 1 0 = some none :=
  ⟨(C5_vertex_opposite_vertex_cases grid2x2 1 4).2.2.2 [1, 3, 7, 5] 0 7
      (by decide) (by decide) (by decide) (by decide) (by decide) (by decide),
    (C5_vertex_opposite_vertex_cases singleQuad 1 0).1 (by decide)⟩

/-- Claim C9: for every interior vertex `v` of degree 4 with a duplicate-free
ordered neighbor cycle, and every neighbor `u` of `v`, applying
`vertex_opposite_vertex` twice returns to the start:
`vertex_opposite_vertex(vertex_opposite_vertex(u, v), v) == u`. -/
theorem C9_vertex_opposite_vertex_involution (m : QMesh) (u v : Nat)
    (nbrs : List Nat)
    (hbv : isVertexOnBoundary m v = false)
    (hord : orderedVertexNeighbors m v = some nbrs)
    (hlen : nbrs.length = 4) (hnd : nbrs.Nodup) (hu : u ∈ nbrs)
    (hdeg : vertexDegree m v = 4) :
    ∃ w, vertexOppositeVertex m u v = some (some w) ∧
      vertexOppositeVertex m w v = some (some u) := by
  have hs : isVertexSingular m v = false := by
    simp [isVertexSingular, hbv, hdeg]
  obtain ⟨i, hidx⟩ := pyIndex_of_mem hu
  have hi : i < nbrs.length := pyIndex_lt_length hidx
  have hj : (i + 2) % 4 < nbrs.length := by
    rw [hlen]
    exact Nat.mod_lt _ (by omega)
  set w := nbrs.get ⟨(i + 2) % 4, hj⟩ with hw
  have hgetw : nbrs.get? ((i + nbrs.length - 2) % nbrs.length) = some w := by
    rw [hlen, show i + 4 - 2 = i + 2 from by omega]
    rw [List.get?_eq_get hj]
  refine ⟨w, ?_, ?_⟩
  · exact (C5_vertex_opposite_vertex_cases m u v).2.2.2 nbrs i w hs hbv hord hidx
      (by omega) hgetw
  · have hidxw : pyIndex nbrs w = some ((i + 2) % 4) := pyIndex_nodup_get hnd hj
    have hgetu : nbrs.get? (((i + 2) % 4 + nbrs.length - 2) % nbrs.length) = some u := by
      have hilt : i < 4 := by omega
      have harith : ((i + 2) % 4 + nbrs.length - 2) % nbrs.length = i := by
        rw [hlen, show (i + 2) % 4 + 4 - 2 = (i + 2) % 4 + 2 from by omega,
          Nat.mod_add_mod, show i + 2 + 2 = i + 4 from by omega,
          Nat.add_mod_right]
        exact Nat.mod_eq_of_lt hilt
      rw [harith]
      exact pyIndex_get hidx
    exact (C5_vertex_opposite_vertex_cases m w v).2.2.2 nbrs ((i + 2) % 4) u hs hbv
      hord hidxw (by omega) hgetu

/-- Witness for C9 at the center vertex of the 2×2 grid. -/
theorem C9_vertex_opposite_vertex_involution_witness :
    ∃ w, vertexOppositeVertex grid2x2 3 4 = some (some w) ∧
      vertexOppositeVertex grid2x2 w 4 = some (some 3) :=
  C9_vertex_opposite_vertex_involution grid2x2 3 4 [1, 3, 7, 5]
    (by decide) (by decide) (by decide) (by decide) (by decide) (by decide)

/-- Length of a consecutive integer enumeration. -/
theorem intSeq_length (start : Int) (n : Nat) : (intSeq start n).length = n := by
  induction n generalizing start with
  | zero => rfl
  | succ n ih => simp [intSeq, ih]

/-- Invariant of the `collect_strips` worklist loop: the strip counter
advances by the number of collected strips and the table records the
consecutive ids following the entry counter. -/
theorem collectStripsLoop_ids (m : QMesh) :
    ∀ (fuel : Nat) (edges : List (Nat × Nat)) (s : Int)
      (tbl : List (Int × List (Nat × Nat))) (k : Int)
      (table : List (Int × List (Nat × Nat))),
      collectStripsLoop m fuel edges s tbl = some (k, table) →
      ∃ n : Nat, k = s + n ∧
        table.map Prod.fst = tbl.map Prod.fst ++ intSeq (s + 1) n := by
  intro fuel
  induction fuel with
  | zero =>
    intro edges s tbl k table h
    cases edges with
    | nil =>
      simp only [collectStripsLoop, Option.some.injEq, Prod.mk.injEq] at h
      obtain ⟨rfl, rfl⟩ := h
      exact ⟨0, by simp, by simp [intSeq]⟩
    | cons e es => simp [collectStripsLoop] at h
  | succ fuel ih =>
    intro edges s tbl k table h
    cases edges with
    | nil =>
      simp only [collectStripsLoop, Option.some.injEq, Prod.mk.injEq] at h
      obtain ⟨rfl, rfl⟩ := h
      exact ⟨0, by simp, by simp [intSeq]⟩
    | cons e es =>
      rw [collectStripsLoop] at h
      rcases hcs : collectStrip m ((e :: es).getLastD (0, 0)).1
          ((e :: es).getLastD (0, 0)).2 with _ | se
      · rw [hcs] at h
        simp at h
      · rw [hcs] at h
        simp only at h
        obtain ⟨n', hk, hmap⟩ := ih _ _ _ _ _ h
        refine ⟨n' + 1, by push_cast at hk ⊢; omega, ?_⟩
        rw [hmap, List.map_append, intSeq]
        simp

/-- Claim C10: for every mesh with at least one edge, the integer returned by
`collect_strips()` equals the number of stored strips minus one, the stored
strip ids being the consecutive integers `0..k`; on a mesh with no edges it
returns `-1` and the strip table is empty. -/
theorem C10_collect_strips_return_value (m : QMesh) (k : Int)
    (table : List (Int × List (Nat × Nat)))
    (h : collectStrips m = some (k, table)) :
    (edgeList m ≠ [] →
      table.map Prod.fst = intSeq 0 table.length ∧
      k = (table.length : Int) - 1) ∧
    (edgeList m = [] → k = -1 ∧ table = []) := by
  obtain ⟨n, hk, hmap⟩ := collectStripsLoop_ids m _ _ _ _ _ _ h
  have hlen : table.length = n := by
    have h1 := congrArg List.length hmap
    rwa [List.length_map, List.map_nil, List.nil_append, intSeq_length] at h1
  constructor
  · intro _
    constructor
    · rw [hmap, hlen]
      norm_num
    · rw [hk, hlen]
      omega
  · intro hE
    have hnn : notNoneEdges m = [] := by
      rw [notNoneEdges, hE]
      rfl
    rw [collectStrips, hnn] at h
    simp only [List.length_nil, collectStripsLoop, Option.some.injEq,
      Prod.mk.injEq] at h
    exact ⟨h.1.symm, h.2.symm⟩

/-- Witness for C10 on the 2×2 grid (four strips, ids 0..3, return value 3). -/
theorem C10_collect_strips_return_value_witness :
    collectStrips grid2x2 =
      some (3, [(0, [(1, 2), (4, 5), (7, 8)]), (1, [(0, 1), (3, 4), (6, 7)]),
                (2, [(6, 3), (7, 4), (8, 5)]), (3, [(3, 0), (4, 1), (5, 2)])]) ∧
    ([(0, [(1, 2), (4, 5), (7, 8)]), (1, [(0, 1), (3, 4), (6, 7)]),
      (2, [(6, 3), (7, 4), (8, 5)]),
      (3, [(3, 0), (4, 1), (5, 2)])].map
        (Prod.fst (α := Int) (β := List (Nat × Nat))) =
      intSeq 0 4 ∧
     (3 : Int) = (4 : Int) - 1) := by
  refine ⟨by decide, ?_⟩
  have := (C10_collect_strips_return_value grid2x2 3
    [(0, [(1, 2), (4, 5), (7, 8)]), (1, [(0, 1), (3, 4), (6, 7)]),
     (2, [(6, 3), (7, 4), (8, 5)]), (3, [(3, 0), (4, 1), (5, 2)])]
    (by decide)).1 (by decide)
  simpa using this

/-- Claim C6: for the mesh consisting of the single quad face with vertex
cycle `v0-v1-v2-v3-v0`, `is_quadmesh()` is true; every vertex has degree 2
and `is_vertex_singular` reports every vertex singular; and after
`collect_strips()` the strip table contains exactly 2 strips, each holding
exactly 2 edges that are opposite boundary edges of the face. -/
theorem C6_single_quad_scenario :
    isQuadmesh singleQuad = true ∧
    (∀ v ∈ singleQuad.vertexList,
      vertexDegree singleQuad v = 2 ∧ isVertexSingular singleQuad v = true) ∧
    ∃ k table, collectStrips singleQuad = some (k, table) ∧ table.length = 2 ∧
      ∀ st ∈ table, ∃ e1 e2, st.2 = [e1, e2] ∧
        isEdgeOnBoundary singleQuad e1.1 e1.2 = true ∧
        isEdgeOnBoundary singleQuad e2.1 e2.2 = true ∧
        faceOppositeEdge singleQuad e1.1 e1.2 = some (e2.2, e2.1) := by
  refine ⟨by decide, by decide, 1, [(0, [(0, 1), (3, 2)]), (1, [(3, 0), (2, 1)])],
    by decide, by decide, ?_⟩
  intro st hst
  fin_cases hst
  · exact ⟨(0, 1), (3, 2), by decide, by decide, by decide, by decide⟩
  · exact ⟨(3, 0), (2, 1), by decide, by decide, by decide, by decide⟩

/-- Claim C2 counterexample: on the four-quad annulus the polyedges returned
by `polyedges()` do not partition the edge set — the edge `(0, 1)` is
covered by nine consecutive vertex pairs across the returned polyedges. -/
theorem C2_polyedges_partition_counterexample : ¬ polyedgesPartition annulus := by
  rintro ⟨pes, hpes, hall⟩
  have hconc : polyedges annulus =
      some [[6, 7, 3, 0, 1, 2, 3, 0, 1], [5, 6, 2, 1, 0, 3, 2, 1, 0],
            [4, 7, 3, 0, 1, 2, 3, 0, 1], [4, 5, 1, 0, 3, 2, 1, 0, 3],
            [0, 4, 5, 1, 0]] := by decide
  rw [hconc] at hpes
  obtain rfl := Option.some.inj hpes
  have h01 := hall (0, 1) (by decide)
  revert h01
  decide

/-! ### Coverage of the polyedge worklist loop -/

theorem consecPairs_cons₂ (a b : Nat) (l : List Nat) :
    consecPairs (a :: b :: l) = (a, b) :: consecPairs (b :: l) := rfl

/-- Appending one vertex extends the pair list by at most one final pair. -/
theorem consecPairs_append_one : ∀ (l : List Nat) (w : Nat),
    consecPairs (l ++ [w]) =
      consecPairs l ++ (l.getLast?.map (fun a => (a, w))).toList
  | [], w => rfl
  | [a], w => rfl
  | a :: b :: t, w => by
    rw [List.cons_append, List.cons_append, consecPairs_cons₂,
      ← List.cons_append, consecPairs_append_one (b :: t) w, consecPairs_cons₂]
    simp

/-- The pair list of a reversed polyedge is the reversed, endpoint-swapped
pair list. -/
theorem consecPairs_reverse : ∀ l : List Nat,
    consecPairs l.reverse = ((consecPairs l).map swapE).reverse
  | [] => rfl
  | [a] => rfl
  | a :: b :: t => by
    have ih := consecPairs_reverse (b :: t)
    rw [show (a :: b :: t).reverse = (b :: t).reverse ++ [a] from by simp,
      consecPairs_append_one, ih, consecPairs_cons₂]
    simp [swapE]

theorem pmCount_append (e : Nat × Nat) (l₁ l₂ : List (Nat × Nat)) :
    pmCount e (l₁ ++ l₂) = pmCount e l₁ + pmCount e l₂ :=
  List.countP_append _ _ _

theorem pmCount_swap_pred (e g : Nat × Nat) :
    (decide (swapE g = e ∨ swapE g = swapE e)) = (decide (g = e ∨ g = swapE e)) := by
  rcases e with ⟨e1, e2⟩
  rcases g with ⟨g1, g2⟩
  simp only [swapE, Prod.mk.injEq, decide_eq_decide]
  constructor
  · rintro (⟨h1, h2⟩ | ⟨h1, h2⟩)
    · right; exact ⟨h2, h1⟩
    · left; exact ⟨h2, h1⟩
  · rintro (⟨h1, h2⟩ | ⟨h1, h2⟩)
    · right; exact ⟨h2, h1⟩
    · left; exact ⟨h2, h1⟩

theorem pmCount_map_swap (e : Nat × Nat) (l : List (Nat × Nat)) :
    pmCount e (l.map swapE) = pmCount e l := by
  rw [pmCount, List.countP_map]
  rw [pmCount]
  congr 1
  funext g
  simp only [Function.comp_apply]
  exact pmCount_swap_pred e g

theorem pmCount_reverse (e : Nat × Nat) (l : List (Nat × Nat)) :
    pmCount e l.reverse = pmCount e l :=
  List.countP_reverse _ _

theorem pmCount_consecPairs_reverse (e : Nat × Nat) (l : List Nat) :
    pmCount e (consecPairs l.reverse) = pmCount e (consecPairs l) := by
  rw [consecPairs_reverse, pmCount_reverse, pmCount_map_swap]

theorem pmCount_consecPairs_append_le (e : Nat × Nat) (l : List Nat) (w : Nat) :
    pmCount e (consecPairs l) ≤ pmCount e (consecPairs (l ++ [w])) := by
  rw [consecPairs_append_one, pmCount_append]
  omega

/-- Every pair covered by the starting polyedge stays covered by the final
polyedge of the `polyedge` loop. -/
theorem polyedgeLoop_covers (m : QMesh) :
    ∀ (fuel : Nat) (pe out : List Nat) (e : Nat × Nat),
      polyedgeLoop m fuel pe = some out →
      1 ≤ pmCount e (consecPairs pe) → 1 ≤ pmCount e (consecPairs out) := by
  intro fuel
  induction fuel with
  | zero =>
    intro pe out e h hc
    simp only [polyedgeLoop, Option.some.injEq] at h
    rwa [← h]
  | succ fuel ih =>
    intro pe out e h hc
    rw [polyedgeLoop] at h
    repeat' split at h
    all_goals first
      | exact Option.noConfusion h
      | (obtain rfl := Option.some.inj h; exact hc)
      | (obtain rfl := Option.some.inj h; rwa [pmCount_consecPairs_reverse])
      | exact ih _ _ e h (le_trans hc (pmCount_consecPairs_append_le e pe _))
      | exact ih _ _ e h
          (le_trans (by rwa [pmCount_consecPairs_reverse])
            (pmCount_consecPairs_append_le e pe.reverse _))

/-- The polyedge traced from an edge covers that edge. -/
theorem polyedge_covers (m : QMesh) (u v : Nat) (out : List Nat)
    (h : polyedge m u v = some out) :
    1 ≤ pmCount (u, v) (consecPairs out) := by
  refine polyedgeLoop_covers m _ _ _ _ h ?_
  simp [consecPairs, pmCount, List.countP_cons]

/-- An edge deleted by the covered-edge removal loop is covered by the
removing polyedge. -/
theorem removeCovered_removed_is_covered :
    ∀ (cov : List (Nat × Nat)) (es : List (Nat × Nat)) (x : Nat × Nat),
      x ∈ es → x ∉ removeCovered cov es → 1 ≤ pmCount x cov := by
  intro cov
  induction cov with
  | nil =>
    intro es x hin hout
    exact absurd hin hout
  | cons c cov' ih =>
    intro es x hin hout
    rw [removeCovered, List.foldl_cons] at hout
    by_cases hx : x ∈ (if c ∈ es then es.erase c
        else if (c.2, c.1) ∈ es then es.erase (c.2, c.1) else es)
    · have h2 := ih _ x hx hout
      rw [pmCount, List.countP_cons]
      rw [pmCount] at h2
      exact le_trans h2 (Nat.le_add_right _ _)
    · have hxc : x = c ∨ x = swapE c := by
        by_cases hc1 : c ∈ es
        · rw [if_pos hc1] at hx
          by_cases hxe : x = c
          · exact Or.inl hxe
          · exact absurd ((List.mem_erase_of_ne hxe).mpr hin) hx
        · rw [if_neg hc1] at hx
          by_cases hc2 : (c.2, c.1) ∈ es
          · rw [if_pos hc2] at hx
            by_cases hxe : x = (c.2, c.1)
            · exact Or.inr hxe
            · exact absurd ((List.mem_erase_of_ne hxe).mpr hin) hx
          · rw [if_neg hc2] at hx
            exact absurd hin hx
      rw [pmCount, List.countP_cons]
      have hct : (decide (c = x ∨ c = swapE x)) = true := by
        rcases hxc with rfl | rfl
        · simp
        · simp [swapE]
      rw [hct]
      simp

/-- Accumulated polyedges survive into the final result of the worklist
loop, and every worklist edge ends up covered by some returned polyedge. -/
theorem polyedgesLoop_covers (m : QMesh) :
    ∀ (fuel : Nat) (edges : List (Nat × Nat)) (acc pes : List (List Nat)),
      polyedgesLoop m fuel edges acc = some pes →
      (∀ p ∈ acc, p ∈ pes) ∧
      (∀ e ∈ edges, ∃ pe ∈ pes, 1 ≤ pmCount e (consecPairs pe)) := by
  intro fuel
  induction fuel with
  | zero =>
    intro edges acc pes h
    cases edges with
    | nil =>
      simp only [polyedgesLoop, Option.some.injEq] at h
      exact ⟨fun p hp => h ▸ hp, by simp⟩
    | cons e es => simp [polyedgesLoop] at h
  | succ fuel ih =>
    intro edges acc pes h
    cases edges with
    | nil =>
      simp only [polyedgesLoop, Option.some.injEq] at h
      exact ⟨fun p hp => h ▸ hp, by simp⟩
    | cons e0 es =>
      rw [polyedgesLoop] at h
      rcases hpe : polyedge m ((e0 :: es).getLastD (0, 0)).1
          ((e0 :: es).getLastD (0, 0)).2 with _ | pe0
      · rw [hpe] at h
        exact absurd h (by simp)
      rw [hpe] at h
      simp only at h
      obtain ⟨hacc, hcov⟩ := ih _ _ _ h
      have hpe0 : pe0 ∈ pes := hacc pe0 (by simp)
      refine ⟨fun p hp => hacc p (by simp [hp]), ?_⟩
      intro e he
      have hsplit : e ∈ (e0 :: es).dropLast ∨ e = (e0 :: es).getLastD (0, 0) := by
        have hne : (e0 :: es) ≠ [] := by simp
        have hdec := List.dropLast_append_getLast hne
        rw [← hdec] at he
        rcases List.mem_append.mp he with h1 | h1
        · exact Or.inl h1
        · right
          have hmem := List.mem_singleton.mp h1
          rw [hmem, List.getLastD_eq_getLast?, List.getLast?_eq_getLast _ hne]
          rfl
      rcases hsplit with hrest | hlast
      · by_cases hrem : e ∈ removeCovered (consecPairs pe0) (e0 :: es).dropLast
        · exact hcov e hrem
        · exact ⟨pe0, hpe0,
            removeCovered_removed_is_covered (consecPairs pe0) _ e hrest hrem⟩
      · refine ⟨pe0, hpe0, ?_⟩
        have := polyedge_covers m _ _ _ hpe
        rw [← hlast] at this
        exact this

/-- Claim C2 amended: the list returned by `polyedges()` covers the
undirected edge set — every edge of the mesh is covered,
direction-agnostically, by at least one consecutive vertex pair of at least
one returned polyedge (but possibly by several, see the counterexample). -/
theorem C2_polyedges_cover_all_edges (m : QMesh) (pes : List (List Nat))
    (h : polyedges m = some pes) :
    ∀ e ∈ edgeList m, ∃ pe ∈ pes, 1 ≤ pmCount e (consecPairs pe) :=
  (polyedgesLoop_covers m _ _ _ _ h).2

/-- Witness for the amended C2 on the 2×2 grid. -/
theorem C2_polyedges_cover_all_edges_witness :
    ∃ pe ∈ [[6, 7, 8], [2, 5, 8], [1, 4, 7], [3, 4, 5], [0, 3, 6], [0, 1, 2]],
      1 ≤ pmCount (0, 1) (consecPairs pe) :=
  C2_polyedges_cover_all_edges grid2x2
    [[6, 7, 8], [2, 5, 8], [1, 4, 7], [3, 4, 5], [0, 3, 6], [0, 1, 2]]
    (by decide) (0, 1) (by decide)

/-! ### Round-trip export/rebuild -/

theorem keyIndex_inj {m : QMesh} {a u i : Nat}
    (ha : keyIndex m a = some i) (hu : keyIndex m u = some i) : a = u := by
  have h1 := pyIndex_get ha
  have h2 := pyIndex_get hu
  rw [h1] at h2
  exact Option.some.inj h2

theorem reindexCycle_map {m : QMesh} :
    ∀ {c : List Nat}, (∀ v ∈ c, ∃ i, keyIndex m v = some i) →
      reindexCycle m c = some (c.map (fun v => (keyIndex m v).getD 0)) := by
  intro c
  induction c with
  | nil => intro _; rfl
  | cons v rest ih =>
    intro hall
    obtain ⟨i, hi⟩ := hall v (by simp)
    have hrest := ih (fun w hw => hall w (by simp [hw]))
    rw [reindexCycle, hi, hrest]
    simp [hi]

theorem cyclePairs_map (f : Nat → Nat) (c : List Nat) :
    cyclePairs (c.map f) = (cyclePairs c).map (Prod.map f f) := by
  rw [cyclePairs, cyclePairs, ← List.map_rotate, List.zip_map]

theorem mem_cyclePairs_map_iff {m : QMesh} {c : List Nat} {u v iu iv : Nat}
    (hcv : ∀ x ∈ c, ∃ j, keyIndex m x = some j)
    (hiu : keyIndex m u = some iu) (hiv : keyIndex m v = some iv) :
    (iu, iv) ∈ cyclePairs (c.map (fun x => (keyIndex m x).getD 0)) ↔
      (u, v) ∈ cyclePairs c := by
  rw [cyclePairs_map]
  constructor
  · intro h
    obtain ⟨⟨a, b⟩, hab, heq⟩ := List.mem_map.mp h
    have hmem := List.mem_zip hab
    have hac : a ∈ c := hmem.1
    have hbc : b ∈ c := (List.mem_rotate).mp hmem.2
    obtain ⟨ja, hja⟩ := hcv a hac
    obtain ⟨jb, hjb⟩ := hcv b hbc
    simp only [Prod.map, Prod.mk.injEq] at heq
    have hA : keyIndex m a = some iu := by
      rw [hja]
      rw [hja] at heq
      simp only [Option.getD_some] at heq
      rw [heq.1]
    have hB : keyIndex m b = some iv := by
      rw [hjb]
      rw [hjb] at heq
      simp only [Option.getD_some] at heq
      rw [heq.2]
    rwa [keyIndex_inj hA hiu, keyIndex_inj hB hiv] at hab
  · intro h
    apply List.mem_map.mpr
    refine ⟨(u, v), h, ?_⟩
    simp [Prod.map, hiu, hiv]

theorem toFacesNoKeys_length {m : QMesh} :
    ∀ {l : List (Nat × List Nat)} {fs : List (List Nat)},
      toFacesNoKeys m l = some fs → fs.length = l.length := by
  intro l
  induction l with
  | nil =>
    intro fs h
    simp only [toFacesNoKeys, Option.some.injEq] at h
    simp [← h]
  | cons fp rest ih =>
    intro fs h
    rw [toFacesNoKeys] at h
    rcases h1 : reindexCycle m fp.2 with _ | c
    · rw [h1] at h
      exact Option.noConfusion h
    rcases h2 : toFacesNoKeys m rest with _ | t
    · rw [h1, h2] at h
      exact Option.noConfusion h
    rw [h1, h2] at h
    obtain rfl := Option.some.inj h
    simp [ih h2]

theorem toFacesNoKeys_get {m : QMesh} :
    ∀ {l : List (Nat × List Nat)} {fs : List (List Nat)},
      toFacesNoKeys m l = some fs →
      ∀ (j : Nat) (h1 : j < l.length) (h2 : j < fs.length),
        reindexCycle m (l.get ⟨j, h1⟩).2 = some (fs.get ⟨j, h2⟩) := by
  intro l
  induction l with
  | nil =>
    intro fs h j h1 h2
    simp at h1
  | cons fp rest ih =>
    intro fs h j h1 h2
    rw [toFacesNoKeys] at h
    rcases hc : reindexCycle m fp.2 with _ | c
    · rw [hc] at h
      exact Option.noConfusion h
    rcases ht : toFacesNoKeys m rest with _ | t
    · rw [hc, ht] at h
      exact Option.noConfusion h
    rw [hc, ht] at h
    obtain rfl := Option.some.inj h
    cases j with
    | zero => simpa using hc
    | succ j' =>
      have := ih ht j' (by simpa using h1) (by simpa using h2)
      simpa using this

/-- Two `find?` searches over positionally equivalent predicates either both
fail or both succeed at the same position. -/
theorem find?_pointwise {α β : Type} (P : α → Bool) (Q : β → Bool) :
    ∀ (l₁ : List α) (l₂ : List β), l₁.length = l₂.length →
      (∀ (j : Nat) (h1 : j < l₁.length) (h2 : j < l₂.length),
        P (l₁.get ⟨j, h1⟩) = Q (l₂.get ⟨j, h2⟩)) →
      (l₁.find? P = none ∧ l₂.find? Q = none) ∨
      (∃ (j : Nat) (h1 : j < l₁.length) (h2 : j < l₂.length),
        l₁.find? P = some (l₁.get ⟨j, h1⟩) ∧ l₂.find? Q = some (l₂.get ⟨j, h2⟩)) := by
  intro l₁
  induction l₁ with
  | nil =>
    intro l₂ hlen hpt
    cases l₂ with
    | nil => exact Or.inl ⟨rfl, rfl⟩
    | cons b t₂ => simp at hlen
  | cons a t ih =>
    intro l₂ hlen hpt
    cases l₂ with
    | nil => simp at hlen
    | cons b t₂ =>
      have h0 : P a = Q b := by simpa using hpt 0 (by simp) (by simp)
      by_cases hPa : P a = true
      · refine Or.inr ⟨0, by simp, by simp, ?_, ?_⟩
        · simpa using List.find?_cons_of_pos t hPa
        · have hQ : Q b = true := h0 ▸ hPa
          simpa using List.find?_cons_of_pos t₂ hQ
      · have hQb : ¬ Q b = true := fun hq => hPa (h0 ▸ hq)
        have hlen' : t.length = t₂.length := by simpa using hlen
        have hpt' : ∀ (j : Nat) (h1 : j < t.length) (h2 : j < t₂.length),
            P (t.get ⟨j, h1⟩) = Q (t₂.get ⟨j, h2⟩) := by
          intro j h1 h2
          simpa using hpt (j + 1) (by simpa using Nat.succ_lt_succ h1)
            (by simpa using Nat.succ_lt_succ h2)
        rcases ih t₂ hlen' hpt' with ⟨hh1, hh2⟩ | ⟨j, hj1, hj2, hh1, hh2⟩
        · refine Or.inl ⟨?_, ?_⟩
          · rw [List.find?_cons_of_neg t (by simpa using hPa)]
            exact hh1
          · rw [List.find?_cons_of_neg t₂ (by simpa using hQb)]
            exact hh2
        · refine Or.inr ⟨j + 1, by simpa using Nat.succ_lt_succ hj1,
            by simpa using Nat.succ_lt_succ hj2, ?_, ?_⟩
          · rw [List.find?_cons_of_neg t (by simpa using hPa)]
            simpa using hh1
          · rw [List.find?_cons_of_neg t₂ (by simpa using hQb)]
            simpa using hh2

/-- Two `any` searches over positionally equivalent predicates agree. -/
theorem any_pointwise {α β : Type} (P : α → Bool) (Q : β → Bool) :
    ∀ (l₁ : List α) (l₂ : List β), l₁.length = l₂.length →
      (∀ (j : Nat) (h1 : j < l₁.length) (h2 : j < l₂.length),
        P (l₁.get ⟨j, h1⟩) = Q (l₂.get ⟨j, h2⟩)) →
      l₁.any P = l₂.any Q := by
  intro l₁
  induction l₁ with
  | nil =>
    intro l₂ hlen hpt
    cases l₂ with
    | nil => rfl
    | cons b t₂ => simp at hlen
  | cons a t ih =>
    intro l₂ hlen hpt
    cases l₂ with
    | nil => simp at hlen
    | cons b t₂ =>
      have h0 : P a = Q b := by simpa using hpt 0 (by simp) (by simp)
      have hlen' : t.length = t₂.length := by simpa using hlen
      have hpt' : ∀ (j : Nat) (h1 : j < t.length) (h2 : j < t₂.length),
          P (t.get ⟨j, h1⟩) = Q (t₂.get ⟨j, h2⟩) := by
        intro j h1 h2
        simpa using hpt (j + 1) (by simpa using Nat.succ_lt_succ h1)
          (by simpa using Nat.succ_lt_succ h2)
      simp only [List.any_cons, h0, ih t₂ hlen' hpt']

/-- Claim C4: for every quad mesh and edge `(u, v)`, if the polyedge through
`(u, v)` passes through any singular vertex, or if `(u, v)` is a boundary
edge, then `face_strips_merge(cls, mesh, u, v)` returns the failure signal
`None` and leaves the mesh's vertex, face, and halfedge data and the strip
index exactly unchanged (the returned state is the input state, so the
derived halfedge relation and the `strip` field are untouched). -/
theorem C4_face_strips_merge_failure_no_mutation (m : QMesh) (u v : Nat)
    (hq : isQuadmesh m = true) :
    (isEdgeOnBoundary m u v = true → faceStripsMerge m u v = some (m, none)) ∧
    (∀ pls pe, isEdgeOnBoundary m u v = false →
      quadMeshPolylinesAll m = some pls →
      findLastMatch pls u v = some pe →
      pe.any (fun vk => isVertexSingular m vk) = true →
      faceStripsMerge m u v = some (m, none)) := by
  constructor
  · intro hb
    simp [faceStripsMerge, hq, hb]
  · intro pls pe hb hp hf hs
    simp [faceStripsMerge, hq, hb, hp, hf, hs]

/-- Witness for C4: the boundary-edge branch on the 2×2 grid and the
singular-polyedge branch on the three-quad corner mesh. -/
theorem C4_face_strips_merge_failure_no_mutation_witness :
    faceStripsMerge grid2x2 0 1 = some (grid2x2, none) ∧
    faceStripsMerge cornerMesh 0 1 = some (cornerMesh, none) :=
  ⟨(C4_face_strips_merge_failure_no_mutation grid2x2 0 1 (by decide)).1 (by decide),
   (C4_face_strips_merge_failure_no_mutation cornerMesh 0 1 (by decide)).2
     [[4, 5, 6], [2, 3, 4], [2, 1, 6], [0, 5], [0, 3], [0, 1]] [0, 1]
     (by decide) (by decide) (by decide) (by decide)⟩

/-- Claim C7: exporting with `to_vertices_and_faces(keep_keys=False)` and
rebuilding with `from_vertices_and_faces` yields a mesh isomorphic to the
original: the key-to-rank map is a bijection between the vertex keys and
`0..n-1`, the rebuilt face cycles are the original cycles under that map
(position by position), and the halfedge-to-face adjacency of the rebuilt
mesh is the original adjacency under the vertex and face bijections. -/
theorem C7_round_trip (m : QMesh) (nv : Nat) (faces' : List (List Nat))
    (hnd : (sortAsc m.vertexList).Nodup)
    (hfk : (m.faceList.map Prod.fst).Nodup)
    (hfv : ∀ fp ∈ m.faceList, ∀ v ∈ fp.2, v ∈ sortAsc m.vertexList)
    (h : toVerticesAndFacesNoKeys m = some (nv, faces')) :
    (∀ a u i, keyIndex m a = some i → keyIndex m u = some i → a = u) ∧
    (∀ v ∈ sortAsc m.vertexList, ∃ i, i < nv ∧ keyIndex m v = some i) ∧
    (∀ i, i < nv → ∃ v ∈ sortAsc m.vertexList, keyIndex m v = some i) ∧
    faces'.length = m.faceList.length ∧
    (∀ (j : Nat) (h1 : j < m.faceList.length) (h2 : j < faces'.length),
      faces'.get ⟨j, h2⟩ =
        (m.faceList.get ⟨j, h1⟩).2.map (fun v => (keyIndex m v).getD 0)) ∧
    (∀ u v iu iv, keyIndex m u = some iu → keyIndex m v = some iv →
      (halfedgeFace m u v = none →
        halfedgeFace (fromVerticesAndFaces nv faces') iu iv = none) ∧
      (halfedgeFace m u v = some none →
        halfedgeFace (fromVerticesAndFaces nv faces') iu iv = some none) ∧
      (∀ f j, halfedgeFace m u v = some (some f) → faceKeyPos m f = some j →
        halfedgeFace (fromVerticesAndFaces nv faces') iu iv = some (some j))) := by
  have hunpack : toFacesNoKeys m m.faceList = some faces' ∧
      nv = (sortAsc m.vertexList).length := by
    rw [toVerticesAndFacesNoKeys] at h
    rcases ht : toFacesNoKeys m m.faceList with _ | fs
    · rw [ht] at h
      exact Option.noConfusion h
    · rw [ht] at h
      simp only [Option.map_some', Option.some.injEq, Prod.mk.injEq] at h
      exact ⟨by rw [h.2], h.1.symm⟩
  obtain ⟨hfaces, hnv⟩ := hunpack
  have hflen : faces'.length = m.faceList.length := toFacesNoKeys_length hfaces
  have hget : ∀ (j : Nat) (h1 : j < m.faceList.length) (h2 : j < faces'.length),
      faces'.get ⟨j, h2⟩ =
        (m.faceList.get ⟨j, h1⟩).2.map (fun v => (keyIndex m v).getD 0) := by
    intro j h1 h2
    have hg := toFacesNoKeys_get hfaces j h1 h2
    have hallc : ∀ x ∈ (m.faceList.get ⟨j, h1⟩).2, ∃ jj, keyIndex m x = some jj :=
      fun x hx => pyIndex_of_mem (hfv _ (List.get_mem _ _ _) x hx)
    rw [reindexCycle_map hallc] at hg
    exact (Option.some.inj hg).symm
  refine ⟨fun a u i ha hu => keyIndex_inj ha hu, ?_, ?_, hflen, hget, ?_⟩
  · intro v hv
    obtain ⟨i, hi⟩ := pyIndex_of_mem hv
    exact ⟨i, by rw [hnv]; exact pyIndex_lt_length hi, hi⟩
  · intro i hi
    rw [hnv] at hi
    exact ⟨(sortAsc m.vertexList).get ⟨i, hi⟩, List.get_mem _ _ _,
      pyIndex_nodup_get hnd hi⟩
  · intro u v iu iv hiu hiv
    have hfl' : (fromVerticesAndFaces nv faces').faceList = faces'.enum := rfl
    have hlen_enum : m.faceList.length = faces'.enum.length := by
      rw [List.enum_length, hflen]
    have hpt : ∀ (j : Nat) (h1 : j < m.faceList.length) (h2 : j < faces'.enum.length),
        (fun fp => decide ((u, v) ∈ cyclePairs fp.2)) (m.faceList.get ⟨j, h1⟩) =
        (fun fp => decide ((iu, iv) ∈ cyclePairs fp.2)) (faces'.enum.get ⟨j, h2⟩) := by
      intro j h1 h2
      have h2' : j < faces'.length := by rwa [List.enum_length] at h2
      have henum : (faces'.enum.get ⟨j, h2⟩).2 = faces'.get ⟨j, h2'⟩ := by
        simp [List.get_enum]
      have hallc : ∀ x ∈ (m.faceList.get ⟨j, h1⟩).2, ∃ jj, keyIndex m x = some jj :=
        fun x hx => pyIndex_of_mem (hfv _ (List.get_mem _ _ _) x hx)
      simp only []
      rw [henum, hget j h1 h2']
      exact (decide_eq_decide.mpr (mem_cyclePairs_map_iff hallc hiu hiv)).symm
    have hptr : ∀ (j : Nat) (h1 : j < m.faceList.length) (h2 : j < faces'.enum.length),
        (fun fp => decide ((v, u) ∈ cyclePairs fp.2)) (m.faceList.get ⟨j, h1⟩) =
        (fun fp => decide ((iv, iu) ∈ cyclePairs fp.2)) (faces'.enum.get ⟨j, h2⟩) := by
      intro j h1 h2
      have h2' : j < faces'.length := by rwa [List.enum_length] at h2
      have henum : (faces'.enum.get ⟨j, h2⟩).2 = faces'.get ⟨j, h2'⟩ := by
        simp [List.get_enum]
      have hallc : ∀ x ∈ (m.faceList.get ⟨j, h1⟩).2, ∃ jj, keyIndex m x = some jj :=
        fun x hx => pyIndex_of_mem (hfv _ (List.get_mem _ _ _) x hx)
      simp only []
      rw [henum, hget j h1 h2']
      exact (decide_eq_decide.mpr (mem_cyclePairs_map_iff hallc hiv hiu)).symm
    have hany := any_pointwise (fun fp => decide ((v, u) ∈ cyclePairs fp.2))
      (fun fp => decide ((iv, iu) ∈ cyclePairs fp.2)) m.faceList faces'.enum
      hlen_enum hptr
    rcases find?_pointwise (fun fp => decide ((u, v) ∈ cyclePairs fp.2))
        (fun fp => decide ((iu, iv) ∈ cyclePairs fp.2)) m.faceList faces'.enum
        hlen_enum hpt with ⟨hf1, hf2⟩ | ⟨j, hj1, hj2, hf1, hf2⟩
    · refine ⟨?_, ?_, ?_⟩
      · intro hnone
        simp only [halfedgeFace, hf1] at hnone
        by_cases hA : m.faceList.any (fun fp => decide ((v, u) ∈ cyclePairs fp.2)) = true
        · rw [if_pos hA] at hnone
          exact Option.noConfusion hnone
        · simp only [halfedgeFace, hfl', hf2]
          rw [if_neg (by rw [← hany]; exact hA)]
      · intro hsn
        simp only [halfedgeFace, hf1] at hsn
        by_cases hA : m.faceList.any (fun fp => decide ((v, u) ∈ cyclePairs fp.2)) = true
        · simp only [halfedgeFace, hfl', hf2]
          rw [if_pos (by rw [← hany]; exact hA)]
        · rw [if_neg hA] at hsn
          exact Option.noConfusion hsn
      · intro f j₀ hss _
        simp only [halfedgeFace, hf1] at hss
        by_cases hA : m.faceList.any (fun fp => decide ((v, u) ∈ cyclePairs fp.2)) = true
        · rw [if_pos hA] at hss
          exact Option.noConfusion (Option.some.inj hss)
        · rw [if_neg hA] at hss
          exact Option.noConfusion hss
    · have hss : halfedgeFace m u v = some (some (m.faceList.get ⟨j, hj1⟩).1) := by
        simp only [halfedgeFace, hf1]
      have hss' : halfedgeFace (fromVerticesAndFaces nv faces') iu iv =
          some (some j) := by
        simp only [halfedgeFace, hfl', hf2]
        simp [List.get_enum]
      refine ⟨?_, ?_, ?_⟩
      · intro hnone
        rw [hss] at hnone
        exact Option.noConfusion hnone
      · intro hsn
        rw [hss] at hsn
        exact Option.noConfusion (Option.some.inj hsn)
      · intro f j₀ hf hpos
        rw [hss] at hf
        have hfj : (m.faceList.get ⟨j, hj1⟩).1 = f :=
          Option.some.inj (Option.some.inj hf)
        have hjm : j < (m.faceList.map Prod.fst).length := by simpa using hj1
        have hkey := pyIndex_nodup_get hfk hjm
        have he : (m.faceList.map Prod.fst).get ⟨j, hjm⟩ = f := by
          rw [List.get_map]
          exact hfj
        rw [he] at hkey
        have hj0 : j = j₀ := Option.some.inj (hkey.symm.trans hpos)
        rw [← hj0]
        exact hss'

/-- Witness for C7 on the 2×2 grid: the rebuilt mesh reproduces the
adjacency of the halfedge `(1, 4)` (face 0) under the identity reindexing. -/
theorem C7_round_trip_witness :
    halfedgeFace
      (fromVerticesAndFaces 9 [[0, 1, 4, 3], [1, 2, 5, 4], [3, 4, 7, 6], [4, 5, 8, 7]])
      1 4 = some (some 0) :=
  ((C7_round_trip grid2x2 9 [[0, 1, 4, 3], [1, 2, 5, 4], [3, 4, 7, 6], [4, 5, 8, 7]]
      (by decide) (by decide) (by decide) (by decide)).2.2.2.2.2
    1 4 1 4 (by decide) (by decide)).2.2 0 0 (by decide) (by decide)

/-! ### Face-strip collapse: counting and quadness preservation -/

theorem realFace_eq_some {o : Option (Option Nat)} {f : Nat} :
    realFace o = some f ↔ o = some (some f) := by
  cases o with
  | none => simp [realFace]
  | some o' =>
    cases o' with
    | none => simp [realFace]
    | some g => simp [realFace]

theorem length_le_one_mem_eq {α : Type} {l : List α} (h : l.length ≤ 1)
    {a b : α} (ha : a ∈ l) (hb : b ∈ l) : a = b := by
  cases l with
  | nil => simp at ha
  | cons x t =>
    cases t with
    | nil =>
      obtain rfl := List.mem_singleton.mp ha
      obtain rfl := List.mem_singleton.mp hb
      rfl
    | cons y t' => simp at h

theorem find?_filter_none {α : Type} {p q : α → Bool} {l : List α}
    (h : l.find? p = none) : (l.filter q).find? p = none := by
  rw [List.find?_eq_none] at h ⊢
  intro x hx
  exact h x (List.mem_of_mem_filter hx)

theorem find?_filter_some {α : Type} {p q : α → Bool} {l : List α} {a : α}
    (h : l.find? p = some a) (hq : q a = true) :
    (l.filter q).find? p = some a := by
  induction l with
  | nil => simp at h
  | cons x t ih =>
    by_cases hpx : p x = true
    · rw [List.find?_cons_of_pos t hpx] at h
      obtain rfl := Option.some.inj h
      rw [List.filter_cons, if_pos hq, List.find?_cons_of_pos _ hpx]
    · rw [List.find?_cons_of_neg t (by simpa using hpx)] at h
      rw [List.filter_cons]
      by_cases hqx : q x = true
      · rw [if_pos hqx, List.find?_cons_of_neg _ (by simpa using hpx)]
        exact ih h
      · rw [if_neg hqx]
        exact ih h

theorem find?_filter_dropped {α : Type} {p q : α → Bool} {l : List α} {a : α}
    (hU : (l.filter p).length ≤ 1)
    (h : l.find? p = some a) (hq : q a = false) :
    (l.filter q).find? p = none := by
  rw [List.find?_eq_none]
  intro b hb hpb
  have hbl : b ∈ l := List.mem_of_mem_filter hb
  have hal : a ∈ l := List.mem_of_find?_eq_some h
  have hpa : p a = true := List.find?_some h
  have hba : b = a :=
    length_le_one_mem_eq hU (List.mem_filter.mpr ⟨hbl, hpb⟩)
      (List.mem_filter.mpr ⟨hal, hpa⟩)
  rw [hba] at hb
  have := (List.mem_filter.mp hb).2
  rw [hq] at this
  exact Bool.noConfusion this

theorem mapFst_filterP {l : List (Nat × List Nat)} {q : Nat → Bool} :
    (l.filter (fun fp => q fp.1)).map Prod.fst = (l.map Prod.fst).filter q := by
  induction l with
  | nil => rfl
  | cons fp t ih =>
    rw [List.filter_cons, List.map_cons, List.filter_cons]
    by_cases h : q fp.1 = true
    · rw [if_pos h, if_pos h, List.map_cons, ih]
    · rw [if_neg h, if_neg h, ih]

theorem dedupKFAux_mem {x : Nat} :
    ∀ {l seen : List Nat}, x ∈ dedupKFAux seen l ↔ x ∈ l ∧ x ∉ seen := by
  intro l
  induction l with
  | nil => intro seen; simp [dedupKFAux]
  | cons a t ih =>
    intro seen
    rw [dedupKFAux]
    by_cases ha : a ∈ seen
    · rw [if_pos ha, ih]
      constructor
      · rintro ⟨h1, h2⟩
        exact ⟨by simp [h1], h2⟩
      · rintro ⟨h1, h2⟩
        rcases List.mem_cons.mp h1 with rfl | h1
        · exact absurd ha h2
        · exact ⟨h1, h2⟩
    · rw [if_neg ha]
      constructor
      · intro hx
        rcases List.mem_cons.mp hx with rfl | hx
        · exact ⟨by simp, ha⟩
        · have := ih.mp hx
          refine ⟨by simp [this.1], ?_⟩
          intro hc
          exact this.2 (by simp [hc])
      · rintro ⟨h1, h2⟩
        rcases List.mem_cons.mp h1 with rfl | h1
        · simp
        · by_cases hxa : x = a
          · simp [hxa]
          · refine List.mem_cons.mpr (Or.inr (ih.mpr ⟨h1, ?_⟩))
            intro hc
            rcases List.mem_cons.mp hc with h | h
            · exact hxa h
            · exact h2 h

theorem dedupKFAux_nodup : ∀ (l seen : List Nat), (dedupKFAux seen l).Nodup := by
  intro l
  induction l with
  | nil => intro seen; simp [dedupKFAux]
  | cons a t ih =>
    intro seen
    rw [dedupKFAux]
    by_cases ha : a ∈ seen
    · rw [if_pos ha]
      exact ih seen
    · rw [if_neg ha]
      refine List.nodup_cons.mpr ⟨?_, ih (a :: seen)⟩
      intro hc
      exact (dedupKFAux_mem.mp hc).2 (by simp)

theorem dedupKF_mem {x : Nat} {l : List Nat} : x ∈ dedupKF l ↔ x ∈ l := by
  rw [dedupKF, dedupKFAux_mem]
  simp

theorem dedupKF_nodup (l : List Nat) : (dedupKF l).Nodup :=
  dedupKFAux_nodup l []

theorem find?_key_of_nodup {l : List (Nat × List Nat)}
    (hnd : (l.map Prod.fst).Nodup) {fp : Nat × List Nat} (hfp : fp ∈ l) :
    l.find? (fun q => decide (q.1 = fp.1)) = some fp := by
  induction l with
  | nil => simp at hfp
  | cons x t ih =>
    rcases List.mem_cons.mp hfp with rfl | hfp'
    · rw [List.find?_cons_of_pos _ (by simp)]
    · by_cases hx : x.1 = fp.1
      · exfalso
        have : fp.1 ∈ t.map Prod.fst := List.mem_map.mpr ⟨fp, hfp', rfl⟩
        rw [List.map_cons] at hnd
        exact (List.nodup_cons.mp hnd).1 (hx ▸ this)
      · rw [List.find?_cons_of_neg _ (by simpa using hx)]
        exact ih (by rw [List.map_cons] at hnd; exact (List.nodup_cons.mp hnd).2) hfp'

theorem filter_not_mem_length :
    ∀ (l : List (Nat × List Nat)) (T : List Nat),
      (l.map Prod.fst).Nodup → T.Nodup → (∀ t ∈ T, t ∈ l.map Prod.fst) →
      (l.filter (fun fp => decide (fp.1 ∉ T))).length + T.length = l.length := by
  intro l
  induction l with
  | nil =>
    intro T _ _ hsub
    have : T = [] := List.eq_nil_iff_forall_not_mem.mpr (fun t ht => by
      have := hsub t ht
      simp at this)
    simp [this]
  | cons fp t ih =>
    intro T hk hTnd hsub
    rw [List.map_cons, List.nodup_cons] at hk
    rw [List.filter_cons]
    by_cases hmem : fp.1 ∈ T
    · rw [if_neg (by simpa using hmem)]
      have hcongr : t.filter (fun q => decide (q.1 ∉ T)) =
          t.filter (fun q => decide (q.1 ∉ T.erase fp.1)) := by
        apply List.filter_congr
        intro q hq
        have hqne : q.1 ≠ fp.1 := by
          intro hc
          exact hk.1 (hc ▸ List.mem_map.mpr ⟨q, hq, rfl⟩)
        simp only [decide_eq_decide]
        constructor
        · intro hnot hc
          exact hnot (List.mem_of_mem_erase hc)
        · intro hnot hc
          exact hnot ((List.Nodup.mem_erase_iff hTnd).mpr ⟨hqne, hc⟩)
      have hsub' : ∀ s ∈ T.erase fp.1, s ∈ t.map Prod.fst := by
        intro s hs
        have hsT := List.mem_of_mem_erase hs
        have hsne : s ≠ fp.1 := ((List.Nodup.mem_erase_iff hTnd).mp hs).1
        have := hsub s hsT
        rw [List.map_cons] at this
        rcases List.mem_cons.mp this with h | h
        · exact absurd h hsne
        · exact h
      have hlen := ih (T.erase fp.1) hk.2 (hTnd.erase _) hsub'
      rw [hcongr]
      have hTerase : (T.erase fp.1).length = T.length - 1 :=
        List.length_erase_of_mem hmem
      have hT1 : 1 ≤ T.length := List.length_pos.mpr
        (List.ne_nil_of_mem hmem)
      simp only [List.length_cons]
      omega
    · rw [if_pos (by simpa using hmem)]
      have hsub' : ∀ s ∈ T, s ∈ t.map Prod.fst := by
        intro s hs
        have := hsub s hs
        rw [List.map_cons] at this
        rcases List.mem_cons.mp this with h | h
        · exact absurd (h ▸ hs) hmem
        · exact h
      have hlen := ih T hk.2 hTnd hsub'
      simp only [List.length_cons]
      omega

theorem realFace_halfedgeFace (m : QMesh) (a b : Nat) :
    realFace (halfedgeFace m a b) =
      (m.faceList.find? (fun fp => decide ((a, b) ∈ cyclePairs fp.2))).map Prod.fst := by
  rw [halfedgeFace]
  rcases h : m.faceList.find? (fun fp => decide ((a, b) ∈ cyclePairs fp.2)) with _ | fp
  · by_cases hA : m.faceList.any (fun fp => decide ((b, a) ∈ cyclePairs fp.2)) = true
    · simp [h, hA, realFace]
    · simp [h, hA, realFace]
  · simp [h, realFace]

theorem filterOut_faceList (m : QMesh) (S : List Nat) :
    (filterOut m S).faceList = m.faceList.filter (fun fp => decide (fp.1 ∉ S)) := rfl

theorem heF_filterOut_keep {m : QMesh} {S : List Nat} {a b f : Nat}
    (hU : (m.faceList.filter (fun fp => decide ((a, b) ∈ cyclePairs fp.2))).length ≤ 1)
    (h : realFace (halfedgeFace m a b) = some f) (hfS : f ∉ S) :
    realFace (halfedgeFace (filterOut m S) a b) = some f := by
  rw [realFace_halfedgeFace] at h ⊢
  obtain ⟨fp, hfp, hf⟩ := Option.map_eq_some'.mp h
  rw [filterOut_faceList,
    find?_filter_some hfp (by simp only [decide_eq_true_eq]; rw [hf]; exact hfS),
    Option.map_some', hf]

theorem heF_filterOut_drop {m : QMesh} {S : List Nat} {a b f : Nat}
    (hU : (m.faceList.filter (fun fp => decide ((a, b) ∈ cyclePairs fp.2))).length ≤ 1)
    (h : realFace (halfedgeFace m a b) = some f) (hfS : f ∈ S) :
    realFace (halfedgeFace (filterOut m S) a b) = none := by
  rw [realFace_halfedgeFace] at h ⊢
  obtain ⟨fp, hfp, hf⟩ := Option.map_eq_some'.mp h
  rw [filterOut_faceList,
    find?_filter_dropped hU hfp
      (by simp only [decide_eq_false_iff_not]; rw [hf]; simpa using hfS)]
  rfl

theorem heF_filterOut_none {m : QMesh} {S : List Nat} {a b : Nat}
    (h : realFace (halfedgeFace m a b) = none) :
    realFace (halfedgeFace (filterOut m S) a b) = none := by
  rw [realFace_halfedgeFace] at h ⊢
  rcases hf : m.faceList.find? (fun fp => decide ((a, b) ∈ cyclePairs fp.2)) with _ | fp
  · rw [filterOut_faceList, find?_filter_none hf]
    rfl
  · rw [hf] at h
    exact Option.noConfusion h

theorem filterOut_congr {m : QMesh} {S₁ S₂ : List Nat}
    (h : ∀ x, x ∈ S₁ ↔ x ∈ S₂) : filterOut m S₁ = filterOut m S₂ := by
  rw [filterOut, filterOut]
  congr 1
  apply List.filter_congr
  intro fp _
  simp only [decide_eq_decide]
  rw [h fp.1]

theorem filterOut_nil (m : QMesh) : filterOut m [] = m := by
  rw [filterOut]
  have : m.faceList.filter (fun fp => decide (fp.1 ∉ ([] : List Nat))) = m.faceList := by
    apply List.filter_eq_self.mpr
    intro fp _
    simp
  rw [this]

theorem filterOut_step (m : QMesh) (S : List Nat) (f : Nat) :
    { filterOut m S with
      faceList := (filterOut m S).faceList.filter (fun fp => decide (fp.1 ≠ f)) } =
      filterOut m (f :: S) := by
  rw [filterOut, filterOut]
  simp only [List.filter_filter]
  congr 1
  apply List.filter_congr
  intro fp _
  by_cases h1 : fp.1 ∈ S <;> by_cases h2 : fp.1 = f <;> simp [h1, h2]

theorem collapseDeleteLoop_spec (m : QMesh) :
    ∀ (es : List (Nat × Nat)) (S : List Nat),
      (∀ e ∈ es,
        (m.faceList.filter (fun fp => decide ((e.1, e.2) ∈ cyclePairs fp.2))).length ≤ 1) →
      collapseDeleteLoop (filterOut m S) es = filterOut m (S ++ touchedFrom m S es) := by
  intro es
  induction es with
  | nil =>
    intro S _
    rw [collapseDeleteLoop, touchedFrom, List.append_nil]
  | cons e es ih =>
    intro S hU
    have hUe := hU e (by simp)
    have hUes : ∀ e' ∈ es,
        (m.faceList.filter (fun fp => decide ((e'.1, e'.2) ∈ cyclePairs fp.2))).length ≤ 1 :=
      fun e' he' => hU e' (by simp [he'])
    rw [collapseDeleteLoop, touchedFrom]
    rcases hre : realFace (halfedgeFace m e.1 e.2) with _ | f
    · have hre' := heF_filterOut_none (S := S) hre
      simp only [hre]
      rcases hx : halfedgeFace (filterOut m S) e.1 e.2 with _ | of
      · simp only [hx]
        exact ih S hUes
      · rcases of with _ | g
        · simp only [hx]
          exact ih S hUes
        · rw [hx] at hre'
          simp [realFace] at hre'
    · simp only [hre]
      by_cases hfS : f ∈ S
      · have hre' := heF_filterOut_drop hUe hre hfS
        rw [if_pos hfS]
        rcases hx : halfedgeFace (filterOut m S) e.1 e.2 with _ | of
        · simp only [hx]
          exact ih S hUes
        · rcases of with _ | g
          · simp only [hx]
            exact ih S hUes
          · rw [hx] at hre'
            simp [realFace] at hre'
      · have hre' := heF_filterOut_keep hUe hre hfS
        rw [if_neg hfS]
        rw [realFace_eq_some] at hre'
        simp only [hre']
        rw [filterOut_step m S f, ih (f :: S) hUes]
        apply filterOut_congr
        intro x
        simp
        tauto

theorem touchedFrom_eq_dedupAux (m : QMesh) :
    ∀ (es : List (Nat × Nat)) (S : List Nat),
      touchedFrom m S es =
        dedupKFAux S (es.filterMap (fun e => realFace (halfedgeFace m e.1 e.2))) := by
  intro es
  induction es with
  | nil => intro S; rfl
  | cons e es ih =>
    intro S
    rw [touchedFrom, List.filterMap_cons]
    rcases hre : realFace (halfedgeFace m e.1 e.2) with _ | f
    · simp only [hre]
      exact ih S
    · simp only [hre, dedupKFAux]
      by_cases hfS : f ∈ S
      · rw [if_pos hfS, if_pos hfS]
        exact ih S
      · rw [if_neg hfS, if_neg hfS, ih (f :: S)]

theorem collapseDeleteLoop_eq (m : QMesh) (es : List (Nat × Nat))
    (hU : ∀ e ∈ es,
      (m.faceList.filter (fun fp => decide ((e.1, e.2) ∈ cyclePairs fp.2))).length ≤ 1) :
    collapseDeleteLoop m es = filterOut m (touchedFaces m es) := by
  have h := collapseDeleteLoop_spec m es [] hU
  rw [filterOut_nil] at h
  rw [h, touchedFrom_eq_dedupAux]
  rfl

theorem touchedFaces_nodup (m : QMesh) (es : List (Nat × Nat)) :
    (touchedFaces m es).Nodup :=
  dedupKF_nodup _

theorem touchedFaces_subset_keys (m : QMesh) (es : List (Nat × Nat)) :
    ∀ f ∈ touchedFaces m es, f ∈ m.faceList.map Prod.fst := by
  intro f hf
  have hf' := dedupKF_mem.mp hf
  obtain ⟨e, _, hre⟩ := List.mem_filterMap.mp hf'
  rw [realFace_halfedgeFace] at hre
  obtain ⟨fp, hfp, hfst⟩ := Option.map_eq_some'.mp hre
  exact hfst ▸ List.mem_map.mpr ⟨fp, List.mem_of_find?_eq_some hfp, rfl⟩

theorem touchedFaces_mem {m : QMesh} {es : List (Nat × Nat)} {e : Nat × Nat}
    {f : Nat} (he : e ∈ es) (hre : realFace (halfedgeFace m e.1 e.2) = some f) :
    f ∈ touchedFaces m es := by
  apply dedupKF_mem.mpr
  exact List.mem_filterMap.mpr ⟨e, he, hre⟩

theorem collapseDeleteLoop_length (m : QMesh) (es : List (Nat × Nat))
    (hk : (m.faceList.map Prod.fst).Nodup)
    (hU : ∀ e ∈ es,
      (m.faceList.filter (fun fp => decide ((e.1, e.2) ∈ cyclePairs fp.2))).length ≤ 1) :
    (collapseDeleteLoop m es).faceList.length + (touchedFaces m es).length =
      m.faceList.length := by
  rw [collapseDeleteLoop_eq m es hU, filterOut_faceList]
  exact filter_not_mem_length m.faceList (touchedFaces m es) hk
    (touchedFaces_nodup m es) (touchedFaces_subset_keys m es)

theorem vertexFaceKeys_sound (m : QMesh) (v : Nat) :
    ∀ f ∈ vertexFaceKeys m v, ∃ fp ∈ m.faceList, fp.1 = f ∧ v ∈ fp.2 := by
  intro f hf
  obtain ⟨fp, hfp, hfst⟩ := List.mem_map.mp hf
  have := List.mem_filter.mp hfp
  exact ⟨fp, this.1, hfst, by simpa using this.2⟩

theorem vertexFaceKeys_nodup {m : QMesh} (hk : (m.faceList.map Prod.fst).Nodup)
    (v : Nat) : (vertexFaceKeys m v).Nodup :=
  ((List.filter_sublist m.faceList).map Prod.fst).nodup hk

theorem rewriteOneFace_spec {m : QMesh} {vkey w f : Nat}
    (hk : (m.faceList.map Prod.fst).Nodup)
    (hex : ∃ fp ∈ m.faceList, fp.1 = f ∧ vkey ∈ fp.2) :
    ∃ m', rewriteOneFace m vkey w f = some m' ∧
      m'.faceList.length = m.faceList.length ∧
      (m'.faceList.map Prod.fst).Nodup ∧
      (∀ fp' ∈ m.faceList, fp'.1 ≠ f → fp' ∈ m'.faceList) ∧
      (∀ fp' ∈ m'.faceList, ∃ fp ∈ m.faceList, fp'.2.length = fp.2.length) := by
  obtain ⟨fp, hfpmem, hfpk, hvk⟩ := hex
  subst hfpk
  have hfind := find?_key_of_nodup hk hfpmem
  have hfc : faceCycle m fp.1 = some fp.2 := by
    rw [faceCycle, hfind]
    rfl
  obtain ⟨i, hidx⟩ := pyIndex_of_mem hvk
  have hany : m.faceList.any (fun q => decide (q.1 = fp.1)) = true :=
    List.any_eq_true.mpr ⟨fp, hfpmem, by simp⟩
  have hdel : deleteFace m fp.1 =
      some { m with faceList := m.faceList.filter (fun q => decide (q.1 ≠ fp.1)) } := by
    rw [deleteFace, if_pos hany]
  refine ⟨addFaceKeyed
      { m with faceList := m.faceList.filter (fun q => decide (q.1 ≠ fp.1)) }
      (fp.2.set i w) fp.1, ?_, ?_, ?_, ?_, ?_⟩
  · simp only [rewriteOneFace, hfc, replaceFirst, hidx, hdel]
  · -- length: the filtered list is one shorter, the append restores it
    have hlen := filter_not_mem_length m.faceList [fp.1] hk (by simp)
      (by
        intro t ht
        obtain rfl := List.mem_singleton.mp ht
        exact List.mem_map.mpr ⟨fp, hfpmem, rfl⟩)
    have hcongr : m.faceList.filter (fun q => decide (q.1 ∉ [fp.1])) =
        m.faceList.filter (fun q => decide (q.1 ≠ fp.1)) := by
      apply List.filter_congr
      intro q _
      simp
    rw [hcongr] at hlen
    simp only [addFaceKeyed, List.length_append, List.length_singleton]
    simp only [List.length_singleton] at hlen
    omega
  · simp only [addFaceKeyed, List.map_append]
    rw [List.nodup_append]
    refine ⟨?_, by simp, ?_⟩
    · exact ((List.filter_sublist m.faceList).map Prod.fst).nodup hk
    · intro a ha hb
      simp only [List.map_cons, List.map_nil, List.mem_singleton] at hb
      obtain ⟨q, hq, hqa⟩ := List.mem_map.mp ha
      have := (List.mem_filter.mp hq).2
      rw [hqa] at this
      simp [hb] at this
  · intro fp' hfp' hne
    simp only [addFaceKeyed, List.mem_append]
    exact Or.inl (List.mem_filter.mpr ⟨hfp', by simpa using hne⟩)
  · intro fp' hfp'
    simp only [addFaceKeyed, List.mem_append] at hfp'
    rcases hfp' with h | h
    · exact ⟨fp', List.mem_of_mem_filter h, rfl⟩
    · simp only [List.mem_singleton] at h
      refine ⟨fp, hfpmem, ?_⟩
      rw [h]
      simp

theorem rewriteFacesLoop_spec {vkey w : Nat} :
    ∀ (fkeys : List Nat) (m : QMesh),
      (m.faceList.map Prod.fst).Nodup → fkeys.Nodup →
      (∀ f ∈ fkeys, ∃ fp ∈ m.faceList, fp.1 = f ∧ vkey ∈ fp.2) →
      ∃ m', rewriteFacesLoop m vkey w fkeys = some m' ∧
        m'.faceList.length = m.faceList.length ∧
        (m'.faceList.map Prod.fst).Nodup ∧
        (∀ fp' ∈ m'.faceList, ∃ fp ∈ m.faceList, fp'.2.length = fp.2.length) := by
  intro fkeys
  induction fkeys with
  | nil =>
    intro m hk _ _
    exact ⟨m, rfl, rfl, hk, fun fp' h => ⟨fp', h, rfl⟩⟩
  | cons f rest ih =>
    intro m hk hnd hex
    obtain ⟨m1, h1, hlen1, hk1, hpres1, hsz1⟩ :=
      rewriteOneFace_spec (w := w) hk (hex f (by simp))
    have hex1 : ∀ f' ∈ rest, ∃ fp ∈ m1.faceList, fp.1 = f' ∧ vkey ∈ fp.2 := by
      intro f' hf'
      obtain ⟨fp, hfp, hfk, hv⟩ := hex f' (by simp [hf'])
      have hne : fp.1 ≠ f := by
        rw [hfk]
        intro hc
        exact (List.nodup_cons.mp hnd).1 (hc ▸ hf')
      exact ⟨fp, hpres1 fp hfp hne, hfk, hv⟩
    obtain ⟨m', h2, hlen2, hk2, hsz2⟩ :=
      ih m1 hk1 (List.nodup_cons.mp hnd).2 hex1
    refine ⟨m', ?_, by rw [hlen2, hlen1], hk2, ?_⟩
    · simp only [rewriteFacesLoop, h1, h2]
    · intro fp' hfp'
      obtain ⟨fp1, hfp1, hsz⟩ := hsz2 fp' hfp'
      obtain ⟨fp0, hfp0, hsz'⟩ := hsz1 fp1 hfp1
      exact ⟨fp0, hfp0, hsz.trans hsz'⟩

theorem collapseMergeLoop_spec :
    ∀ (es : List (Nat × Nat)) (m : QMesh),
      (m.faceList.map Prod.fst).Nodup →
      ∃ m', collapseMergeLoop m es = some m' ∧
        m'.faceList.length = m.faceList.length ∧
        (m'.faceList.map Prod.fst).Nodup ∧
        (∀ fp' ∈ m'.faceList, ∃ fp ∈ m.faceList, fp'.2.length = fp.2.length) := by
  intro es
  induction es with
  | nil =>
    intro m hk
    exact ⟨m, rfl, rfl, hk, fun fp' h => ⟨fp', h, rfl⟩⟩
  | cons e es ih =>
    intro m hk
    rcases e with ⟨u, v⟩
    have hfl : (addVertexAuto m).1.faceList = m.faceList := rfl
    obtain ⟨m2, h2, hlen2, hk2, hsz2⟩ := rewriteFacesLoop_spec
      (vertexFaceKeys (addVertexAuto m).1 u) (addVertexAuto m).1
      (by rw [hfl]; exact hk)
      (vertexFaceKeys_nodup (by rw [hfl]; exact hk) u)
      (vertexFaceKeys_sound _ u)
    obtain ⟨m3, h3, hlen3, hk3, hsz3⟩ := rewriteFacesLoop_spec
      (vertexFaceKeys m2 v) m2 hk2 (vertexFaceKeys_nodup hk2 v)
      (vertexFaceKeys_sound _ v)
    obtain ⟨m', h4, hlen4, hk4, hsz4⟩ := ih m3 hk3
    refine ⟨m', ?_, ?_, hk4, ?_⟩
    · rw [collapseMergeLoop]
      simp only [Option.bind_eq_bind]
      rw [h2, Option.some_bind, h3, Option.some_bind, h4]
    · rw [hlen4, hlen3, hlen2, hfl]
    · intro fp' hfp'
      obtain ⟨fp3, hfp3, hs4⟩ := hsz4 fp' hfp'
      obtain ⟨fp2, hfp2, hs3⟩ := hsz3 fp3 hfp3
      obtain ⟨fp1, hfp1, hs2⟩ := hsz2 fp2 hfp2
      rw [hfl] at hfp1
      exact ⟨fp1, hfp1, by omega⟩

/-- Claim C3: for every quad mesh in which `(u, v)` is an edge and the
collapsed strip is not the entire mesh, `face_strip_collapse(cls, mesh, u, v)`
strictly decreases the mesh's face count by exactly the number of faces
touched by the edges of the dual-edge group containing `(u, v)`, and the
resulting mesh still satisfies `is_quadmesh()`. -/
theorem C3_face_strip_collapse_count_and_quadness (m : QMesh) (u v f0 : Nat)
    (gs : List ((Nat × Nat) × Nat)) (mg gn : Nat)
    (hq : isQuadmesh m = true)
    (hk : (m.faceList.map Prod.fst).Nodup)
    (hedge : realFace (halfedgeFace m u v) = some f0)
    (hdg : dualEdgeGroups m = some (gs, mg))
    (hgn : egGet gs (u, v) = some gn)
    (hU : ∀ e ∈ (gs.filter (fun p => decide (p.2 = gn))).map Prod.fst,
      (m.faceList.filter (fun fp => decide ((e.1, e.2) ∈ cyclePairs fp.2))).length ≤ 1)
    (hnotall :
      (touchedFaces m ((gs.filter (fun p => decide (p.2 = gn))).map Prod.fst)).length <
        m.faceList.length) :
    ∃ m2, faceStripCollapse m u v = some (m2, some 0) ∧
      m2.faceList.length +
        (touchedFaces m ((gs.filter (fun p => decide (p.2 = gn))).map Prod.fst)).length =
        m.faceList.length ∧
      1 ≤ (touchedFaces m ((gs.filter (fun p => decide (p.2 = gn))).map Prod.fst)).length ∧
      m2.faceList.length < m.faceList.length ∧
      isQuadmesh m2 = true := by
  have hdel := collapseDeleteLoop_eq m
    ((gs.filter (fun p => decide (p.2 = gn))).map Prod.fst) hU
  have hdlen := collapseDeleteLoop_length m
    ((gs.filter (fun p => decide (p.2 = gn))).map Prod.fst) hk hU
  have hk1 : ((collapseDeleteLoop m
      ((gs.filter (fun p => decide (p.2 = gn))).map Prod.fst)).faceList.map
        Prod.fst).Nodup := by
    rw [hdel, filterOut_faceList]
    exact ((List.filter_sublist _).map _).nodup hk
  obtain ⟨m2, hm2, hmlen, hk2, hsz⟩ := collapseMergeLoop_spec
    ((gs.filter (fun p => decide (p.2 = gn))).map Prod.fst) _ hk1
  have hcond : (decide (halfedgeFace m u v = none) &&
      decide (halfedgeFace m v u = none)) = false := by
    rw [realFace_eq_some.mp hedge]
    simp
  have huv : (u, v) ∈ (gs.filter (fun p => decide (p.2 = gn))).map Prod.fst := by
    obtain ⟨p, hp, hp2⟩ := Option.map_eq_some'.mp hgn
    have hp1 : p.1 = (u, v) := by simpa using List.find?_some hp
    refine List.mem_map.mpr ⟨p, List.mem_filter.mpr
      ⟨List.mem_of_find?_eq_some hp, by simp [hp2]⟩, hp1⟩
  have hf0 : f0 ∈ touchedFaces m
      ((gs.filter (fun p => decide (p.2 = gn))).map Prod.fst) :=
    touchedFaces_mem huv hedge
  have hT1 : 1 ≤ (touchedFaces m
      ((gs.filter (fun p => decide (p.2 = gn))).map Prod.fst)).length :=
    List.length_pos.mpr (List.ne_nil_of_mem hf0)
  have hq4 : ∀ fp ∈ m.faceList, fp.2.length = 4 := by
    intro fp hfp
    have := (List.all_eq_true.mp hq) fp hfp
    simpa using this
  refine ⟨m2, ?_, by omega, hT1, by omega, ?_⟩
  · simp only [faceStripCollapse, hq, Bool.not_true, Bool.false_eq_true,
      if_false, hcond, hdg, hgn, hm2]
  · rw [isQuadmesh, List.all_eq_true]
    intro fp' hfp'
    obtain ⟨fp1, hfp1, hsz1⟩ := hsz fp' hfp'
    rw [hdel, filterOut_faceList] at hfp1
    have hfp1m := List.mem_of_mem_filter hfp1
    simp [hsz1, hq4 fp1 hfp1m]

/-- Witness for C3: collapsing the strip of edge `(1, 4)` on the 2×2 grid
(the horizontal two-quad strip, touching faces 0 and 1). -/
theorem C3_face_strip_collapse_count_and_quadness_witness :
    ∃ m2, faceStripCollapse grid2x2 1 4 = some (m2, some 0) ∧
      m2.faceList.length +
        (touchedFaces grid2x2
          (((DEGgrid.filter (fun p => decide (p.2 = 2))).map Prod.fst))).length =
        grid2x2.faceList.length ∧
      1 ≤ (touchedFaces grid2x2
          (((DEGgrid.filter (fun p => decide (p.2 = 2))).map Prod.fst))).length ∧
      m2.faceList.length < grid2x2.faceList.length ∧
      isQuadmesh m2 = true :=
  C3_face_strip_collapse_count_and_quadness grid2x2 1 4 0 DEGgrid 4 2
    (by decide) (by decide) (by decide) (by decide) (by decide) (by decide)
    (by decide)

/-! ### Strip partition: direction-agnostic edge bookkeeping -/

theorem swapE_swapE (e : Nat × Nat) : swapE (swapE e) = e := rfl

theorem swapE_inj {e g : Nat × Nat} (h : swapE e = swapE g) : e = g := by
  have h2 := congrArg swapE h
  rwa [swapE_swapE, swapE_swapE] at h2

theorem pmMem_swap {g : Nat × Nat} {l : List (Nat × Nat)} :
    pmMem (swapE g) l ↔ pmMem g l := by
  simp only [pmMem, swapE_swapE]
  exact or_comm

theorem pmMem_subset {l₁ l₂ : List (Nat × Nat)} (hsub : ∀ x ∈ l₁, x ∈ l₂)
    {g : Nat × Nat} (h : pmMem g l₁) : pmMem g l₂ := by
  rcases h with h | h
  · exact Or.inl (hsub _ h)
  · exact Or.inr (hsub _ h)

theorem pmMem_congr_class {x y : Nat × Nat} (hxy : y = x ∨ y = swapE x)
    {l : List (Nat × Nat)} : pmMem y l ↔ pmMem x l := by
  rcases hxy with rfl | rfl
  · exact Iff.rfl
  · exact pmMem_swap

theorem mem_insertAsc {x a : Nat} : ∀ {l : List Nat},
    x ∈ insertAsc a l ↔ x = a ∨ x ∈ l := by
  intro l
  induction l with
  | nil => simp [insertAsc]
  | cons b t ih =>
    by_cases hab : a ≤ b
    · simp [insertAsc, hab]
    · simp only [insertAsc, if_neg hab, List.mem_cons, ih]
      tauto

theorem mem_sortAsc {x : Nat} : ∀ {l : List Nat}, x ∈ sortAsc l ↔ x ∈ l := by
  intro l
  induction l with
  | nil => simp [sortAsc]
  | cons b t ih =>
    show x ∈ insertAsc b (sortAsc t) ↔ _
    rw [mem_insertAsc, ih]
    simp

theorem undirDedupAux_pmMem {x : Nat × Nat} :
    ∀ (l seen : List (Nat × Nat)), x ∈ l →
      pmMem x (undirDedupAux seen l) ∨ pmMem x seen := by
  intro l
  induction l with
  | nil => intro seen hx; cases hx
  | cons e rest ih =>
    intro seen hx
    obtain ⟨u, v⟩ := e
    rw [List.mem_cons] at hx
    by_cases hs : (u, v) ∈ seen ∨ (v, u) ∈ seen
    · rw [undirDedupAux, if_pos hs]
      rcases hx with rfl | hx
      · rcases hs with hs | hs
        · exact Or.inr (Or.inl hs)
        · exact Or.inr (Or.inr hs)
      · exact ih seen hx
    · rw [undirDedupAux, if_neg hs]
      rcases hx with rfl | hx
      · exact Or.inl (Or.inl (List.mem_cons_self _ _))
      · rcases ih ((u, v) :: seen) hx with h | h
        · exact Or.inl (pmMem_subset (fun y hy => List.mem_cons_of_mem _ hy) h)
        · rcases h with h | h
          · rcases List.mem_cons.1 h with rfl | h
            · exact Or.inl (Or.inl (List.mem_cons_self _ _))
            · exact Or.inr (Or.inl h)
          · rcases List.mem_cons.1 h with h | h
            · exact Or.inl (Or.inr (h ▸ List.mem_cons_self _ _))
            · exact Or.inr (Or.inr h)

theorem undirDedup_pmMem {x : Nat × Nat} {l : List (Nat × Nat)} (hx : x ∈ l) :
    pmMem x (undirDedup l) := by
  rcases undirDedupAux_pmMem l [] hx with h | h
  · exact h
  · rcases h with h | h <;> cases h

theorem undirDedupAux_pmNodup :
    ∀ (l seen : List (Nat × Nat)),
      pmNodup (undirDedupAux seen l) ∧
      ∀ x ∈ undirDedupAux seen l, x ∉ seen ∧ swapE x ∉ seen := by
  intro l
  induction l with
  | nil => intro seen; exact ⟨List.Pairwise.nil, by intro x hx; cases hx⟩
  | cons e rest ih =>
    intro seen
    obtain ⟨u, v⟩ := e
    by_cases hs : (u, v) ∈ seen ∨ (v, u) ∈ seen
    · rw [undirDedupAux, if_pos hs]
      exact ih seen
    · rw [undirDedupAux, if_neg hs]
      push_neg at hs
      obtain ⟨hnd, hout⟩ := ih ((u, v) :: seen)
      refine ⟨List.Pairwise.cons ?_ hnd, ?_⟩
      · intro q hq
        obtain ⟨hq1, hq2⟩ := hout q hq
        constructor
        · intro hqe; exact hq1 (hqe ▸ List.mem_cons_self _ _)
        · intro hqe
          apply hq2
          rw [hqe]
          exact List.mem_cons_self _ _
      · intro x hx
        rcases List.mem_cons.1 hx with rfl | hx
        · exact ⟨hs.1, hs.2⟩
        · obtain ⟨h1, h2⟩ := hout x hx
          exact ⟨fun h => h1 (List.mem_cons_of_mem _ h),
            fun h => h2 (List.mem_cons_of_mem _ h)⟩

theorem edgeList_pmNodup (m : QMesh) : pmNodup (edgeList m) :=
  (undirDedupAux_pmNodup _ []).1

theorem mem_of_cyclePairs {a b : Nat} {c : List Nat}
    (h : (a, b) ∈ cyclePairs c) : a ∈ c ∧ b ∈ c := by
  unfold cyclePairs at h
  obtain ⟨h1, h2⟩ := List.of_mem_zip h
  exact ⟨h1, (List.mem_rotate).1 h2⟩

theorem cyclePairs_pmMem_edgeList {m : QMesh} {fp : Nat × List Nat}
    {a b : Nat} (wfv : ∀ fp ∈ m.faceList, ∀ y ∈ fp.2, y ∈ m.vertexList)
    (hfp : fp ∈ m.faceList) (hab : (a, b) ∈ cyclePairs fp.2) :
    pmMem (a, b) (edgeList m) := by
  obtain ⟨ha, hb⟩ := mem_of_cyclePairs hab
  have haV : a ∈ sortAsc m.vertexList := mem_sortAsc.2 (wfv _ hfp _ ha)
  have hbn : b ∈ vertexNeighbors m a := by
    unfold vertexNeighbors
    rw [mem_sortAsc, dedupKF_mem]
    refine List.mem_filterMap.2 ⟨(a, b), ?_, by simp⟩
    exact List.mem_flatMap.2 ⟨fp, hfp, hab⟩
  apply undirDedup_pmMem
  exact List.mem_flatMap.2 ⟨a, haV, List.mem_map.2 ⟨b, hbn, rfl⟩⟩

theorem pm_card_le :
    ∀ (l E : List (Nat × Nat)), pmNodup l → pmNodup E →
      (∀ g ∈ l, pmMem g E) → l.length ≤ E.length := by
  intro l
  induction l with
  | nil => intro E _ _ _; exact Nat.zero_le _
  | cons g l' ih =>
    intro E hl hE hmem
    have hgE : pmMem g E := hmem g (List.mem_cons_self _ _)
    obtain ⟨y, hyE, hy⟩ : ∃ y, y ∈ E ∧ (y = g ∨ y = swapE g) := by
      rcases hgE with h | h
      · exact ⟨g, h, Or.inl rfl⟩
      · exact ⟨swapE g, h, Or.inr rfl⟩
    have hhead : ∀ q ∈ l', q ≠ g ∧ q ≠ swapE g := (List.pairwise_cons.1 hl).1
    have htail : pmNodup l' := (List.pairwise_cons.1 hl).2
    have hE' : pmNodup (E.erase y) := List.Pairwise.sublist (List.erase_sublist _ _) hE
    have hmem' : ∀ g' ∈ l', pmMem g' (E.erase y) := by
      intro g' hg'
      have hg'E : pmMem g' E := hmem g' (List.mem_cons_of_mem _ hg')
      obtain ⟨y', hy'E, hy'⟩ : ∃ y', y' ∈ E ∧ (y' = g' ∨ y' = swapE g') := by
        rcases hg'E with h | h
        · exact ⟨g', h, Or.inl rfl⟩
        · exact ⟨swapE g', h, Or.inr rfl⟩
      have hyy : y' ≠ y := by
        intro he
        have : g' = g ∨ g' = swapE g := by
          rcases hy' with rfl | hy' <;> rcases hy with hy | hy
          · exact Or.inl (he.trans hy)
          · exact Or.inr (he.trans hy)
          · have h3 : swapE g' = g := hy'.symm.trans (he.trans hy)
            refine Or.inr ?_
            rw [← h3, swapE_swapE]
          · exact Or.inl (swapE_inj (hy'.symm.trans (he.trans hy)))
        rcases this with h | h
        · exact (hhead g' hg').1 h
        · exact (hhead g' hg').2 h
      have hy'mem : y' ∈ E.erase y := List.mem_erase_of_ne hyy |>.2 hy'E
      rcases hy' with rfl | hy'
      · exact Or.inl hy'mem
      · exact Or.inr (hy' ▸ hy'mem)
    have hlen : l'.length ≤ (E.erase y).length := ih _ htail hE' hmem'
    have hEy : (E.erase y).length = E.length - 1 := List.length_erase_of_mem hyE
    have hpos : 1 ≤ E.length := List.length_pos_of_mem hyE
    simp only [List.length_cons]
    omega

/-! ### Strip partition: the walk step inside one quad face -/

theorem find?_pm_unique {L : List (Nat × List Nat)}
    (hpw : L.Pairwise (fun p q => ∀ e ∈ cyclePairs p.2, e ∉ cyclePairs q.2))
    {fp : Nat × List Nat} (hfp : fp ∈ L) {g : Nat × Nat}
    (hg : g ∈ cyclePairs fp.2) :
    L.find? (fun q => decide (g ∈ cyclePairs q.2)) = some fp := by
  induction L with
  | nil => cases hfp
  | cons z t ih =>
    obtain ⟨hz, ht⟩ := List.pairwise_cons.1 hpw
    rcases List.mem_cons.1 hfp with rfl | hfp'
    · rw [List.find?_cons_of_pos _ (by simpa using hg)]
    · rw [List.find?_cons_of_neg _ (by
        simp only [decide_eq_true_eq]
        intro hgz
        exact hz fp hfp' g hgz hg)]
      exact ih ht hfp'

theorem halfedgeFace_some_elim {m : QMesh} {u v f : Nat}
    (h : halfedgeFace m u v = some (some f)) :
    ∃ fp ∈ m.faceList, fp.1 = f ∧ (u, v) ∈ cyclePairs fp.2 := by
  unfold halfedgeFace at h
  cases hf : m.faceList.find? (fun fp => decide ((u, v) ∈ cyclePairs fp.2)) with
  | none =>
    rw [hf] at h
    by_cases hb : m.faceList.any (fun fp => decide ((v, u) ∈ cyclePairs fp.2)) = true
    · rw [if_pos hb] at h
      exact absurd h (by simp)
    · rw [if_neg hb] at h
      exact absurd h (by simp)
  | some fp =>
    rw [hf] at h
    refine ⟨fp, List.mem_of_find?_eq_some hf, ?_, ?_⟩
    · exact Option.some.inj (Option.some.inj h)
    · have hp := List.find?_some hf
      exact of_decide_eq_true hp

theorem halfedgeFace_of_wf {m : QMesh}
    (hpw : m.faceList.Pairwise (fun p q => ∀ e ∈ cyclePairs p.2, e ∉ cyclePairs q.2))
    {fp : Nat × List Nat} (hfp : fp ∈ m.faceList) {a b : Nat}
    (hab : (a, b) ∈ cyclePairs fp.2) :
    halfedgeFace m a b = some (some fp.1) := by
  unfold halfedgeFace
  rw [find?_pm_unique hpw hfp hab]

theorem cyclePairs_four (a b c2 d : Nat) :
    cyclePairs [a, b, c2, d] = [(a, b), (b, c2), (c2, d), (d, a)] := rfl

theorem cycleNext_four_0 (a b c2 d : Nat) :
    cycleNext [a, b, c2, d] a = some b := by
  simp [cycleNext, pyIndex, pyIndexAux]

theorem cycleNext_four_1 {a b : Nat} (c2 d : Nat) (hab : a ≠ b) :
    cycleNext [a, b, c2, d] b = some c2 := by
  simp [cycleNext, pyIndex, pyIndexAux, hab]

theorem cycleNext_four_2 {a b c2 : Nat} (d : Nat) (hac : a ≠ c2) (hbc : b ≠ c2) :
    cycleNext [a, b, c2, d] c2 = some d := by
  simp [cycleNext, pyIndex, pyIndexAux, hac, hbc]

theorem cycleNext_four_3 {a b c2 d : Nat} (had : a ≠ d) (hbd : b ≠ d)
    (hcd : c2 ≠ d) : cycleNext [a, b, c2, d] d = some a := by
  simp [cycleNext, pyIndex, pyIndexAux, had, hbd, hcd]

theorem length_four_shape {c : List Nat} (h : c.length = 4) :
    ∃ a b c2 d, c = [a, b, c2, d] := by
  rcases c with _ | ⟨a, c⟩
  · simp at h
  rcases c with _ | ⟨b, c⟩
  · simp at h
  rcases c with _ | ⟨c2, c⟩
  · simp at h
  rcases c with _ | ⟨d, c⟩
  · simp at h
  rcases c with _ | ⟨x5, c⟩
  · exact ⟨a, b, c2, d, rfl⟩
  · simp only [List.length_cons] at h
    omega

theorem faceOppositeEdge_props {m : QMesh} (wf : wfQuad m) {u v f : Nat}
    (hhe : halfedgeFace m u v = some (some f)) :
    ∃ w x, faceOppositeEdge m u v = some (w, x) ∧
      halfedgeFace m w x = some (some f) ∧
      faceOppositeEdge m w x = some (u, v) ∧
      (w, x) ≠ (u, v) ∧ (w, x) ≠ (v, u) ∧ u ≠ v ∧ w ≠ x ∧
      ∃ fp ∈ m.faceList, (u, v) ∈ cyclePairs fp.2 ∧ (w, x) ∈ cyclePairs fp.2 := by
  obtain ⟨fp, hfp, hf1, huv0⟩ := halfedgeFace_some_elim hhe
  obtain ⟨hlen, hnd⟩ := wf.1 fp hfp
  obtain ⟨a, b, c2, d, hsh⟩ := length_four_shape hlen
  have huv := huv0
  rw [hsh, cyclePairs_four] at huv
  rw [hsh] at hnd
  simp only [List.nodup_cons, List.mem_cons, List.mem_singleton,
    List.not_mem_nil, or_false, not_or, not_false_iff, List.nodup_nil,
    and_true] at hnd
  obtain ⟨⟨hab, hac, had⟩, ⟨hbc, hbd⟩, hcd⟩ := hnd
  have hcyc : faceCycle m f = some [a, b, c2, d] := by
    unfold faceCycle
    rw [← hf1, find?_key_of_nodup wf.2.2.1 hfp, Option.map_some', hsh]
  have hhof : ∀ p q : Nat, (p, q) ∈ cyclePairs [a, b, c2, d] →
      halfedgeFace m p q = some (some f) := by
    intro p q hpq
    have h2 := halfedgeFace_of_wf wf.2.2.2 hfp (hsh ▸ hpq)
    rwa [hf1] at h2
  simp only [List.mem_cons, List.not_mem_nil, or_false] at huv
  rcases huv with hcase | hcase | hcase | hcase <;>
    (rw [Prod.mk.injEq] at hcase; obtain ⟨hu, hv⟩ := hcase; subst u; subst v)
  · -- (u, v) = (a, b): opposite is (c2, d)
    have hhe2 : halfedgeFace m c2 d = some (some f) :=
      hhof c2 d (by rw [cyclePairs_four]; simp)
    refine ⟨c2, d, ?_, hhe2, ?_, ?_, ?_, hab, hcd, fp, hfp, huv0,
      by rw [hsh, cyclePairs_four]; simp⟩
    · simp only [faceOppositeEdge, hhe, faceVertexDescendant, hcyc,
        Option.some_bind, cycleNext_four_1 c2 d hab, cycleNext_four_2 d hac hbc]
    · simp only [faceOppositeEdge, hhe2, faceVertexDescendant, hcyc,
        Option.some_bind, cycleNext_four_3 had hbd hcd, cycleNext_four_0]
    · simp [Ne.symm hac]
    · simp [Ne.symm hbc]
  · -- (u, v) = (b, c2): opposite is (d, a)
    have hhe2 : halfedgeFace m d a = some (some f) :=
      hhof d a (by rw [cyclePairs_four]; simp)
    refine ⟨d, a, ?_, hhe2, ?_, ?_, ?_, hbc, Ne.symm had, fp, hfp, huv0,
      by rw [hsh, cyclePairs_four]; simp⟩
    · simp only [faceOppositeEdge, hhe, faceVertexDescendant, hcyc,
        Option.some_bind, cycleNext_four_2 d hac hbc, cycleNext_four_3 had hbd hcd]
    · simp only [faceOppositeEdge, hhe2, faceVertexDescendant, hcyc,
        Option.some_bind, cycleNext_four_0, cycleNext_four_1 c2 d hab]
    · simp [Ne.symm hbd]
    · simp [Ne.symm hcd]
  · -- (u, v) = (c2, d): opposite is (a, b)
    have hhe2 : halfedgeFace m a b = some (some f) :=
      hhof a b (by rw [cyclePairs_four]; simp)
    refine ⟨a, b, ?_, hhe2, ?_, ?_, ?_, hcd, hab, fp, hfp, huv0,
      by rw [hsh, cyclePairs_four]; simp⟩
    · simp only [faceOppositeEdge, hhe, faceVertexDescendant, hcyc,
        Option.some_bind, cycleNext_four_3 had hbd hcd, cycleNext_four_0]
    · simp only [faceOppositeEdge, hhe2, faceVertexDescendant, hcyc,
        Option.some_bind, cycleNext_four_1 c2 d hab, cycleNext_four_2 d hac hbc]
    · simp [hac]
    · simp [had]
  · -- (u, v) = (d, a): opposite is (b, c2)
    have hhe2 : halfedgeFace m b c2 = some (some f) :=
      hhof b c2 (by rw [cyclePairs_four]; simp)
    refine ⟨b, c2, ?_, hhe2, ?_, ?_, ?_, Ne.symm had, hbc, fp, hfp, huv0,
      by rw [hsh, cyclePairs_four]; simp⟩
    · simp only [faceOppositeEdge, hhe, faceVertexDescendant, hcyc,
        Option.some_bind, cycleNext_four_0, cycleNext_four_1 c2 d hab]
    · simp only [faceOppositeEdge, hhe2, faceVertexDescendant, hcyc,
        Option.some_bind, cycleNext_four_2 d hac hbc, cycleNext_four_3 had hbd hcd]
    · simp [hbd]
    · simp [Ne.symm hab]

/-! ### Strip partition: orbits of the walk step -/

theorem nextEdge_some_elim {m : QMesh} {e e' : Nat × Nat}
    (h : nextEdge m e = some e') :
    ∃ w x, faceOppositeEdge m e.1 e.2 = some (w, x) ∧ e' = (x, w) := by
  unfold nextEdge at h
  cases hfo : faceOppositeEdge m e.1 e.2 with
  | none =>
    rw [hfo] at h
    cases h
  | some wx =>
    obtain ⟨w, x⟩ := wx
    rw [hfo] at h
    exact ⟨w, x, rfl, (Option.some.inj h).symm⟩

theorem nextEdge_of_faceOpposite {m : QMesh} {e : Nat × Nat} {w x : Nat}
    (h : faceOppositeEdge m e.1 e.2 = some (w, x)) :
    nextEdge m e = some (x, w) := by
  unfold nextEdge
  rw [h]

theorem faceOppositeEdge_he {m : QMesh} {u v w x : Nat}
    (h : faceOppositeEdge m u v = some (w, x)) :
    ∃ f, halfedgeFace m u v = some (some f) := by
  unfold faceOppositeEdge at h
  cases hh : halfedgeFace m u v with
  | none => rw [hh] at h; cases h
  | some o =>
    cases o with
    | none => rw [hh] at h; cases h
    | some f => exact ⟨f, rfl⟩

theorem nextEdge_props {m : QMesh} (wf : wfQuad m) {e e' : Nat × Nat}
    (h : nextEdge m e = some e') :
    nextEdge m (swapE e') = some (swapE e) ∧
    e' ≠ e ∧ e' ≠ swapE e ∧ e.1 ≠ e.2 ∧ e'.1 ≠ e'.2 ∧
    pmMem e (edgeList m) ∧ pmMem e' (edgeList m) := by
  obtain ⟨w, x, hfo, rfl⟩ := nextEdge_some_elim h
  obtain ⟨f, hhe⟩ := faceOppositeEdge_he hfo
  obtain ⟨w', x', hop, hhe2, hop2, hne1, hne2, huv, hwx, fp, hfp, hm1, hm2⟩ :=
    faceOppositeEdge_props wf hhe
  rw [hfo] at hop
  obtain ⟨rfl, rfl⟩ : w = w' ∧ x = x' := by
    have h2 := Option.some.inj hop
    rw [Prod.mk.injEq] at h2
    exact h2
  refine ⟨?_, ?_, ?_, huv, Ne.symm hwx, ?_, ?_⟩
  · show nextEdge m (w, x) = some (e.2, e.1)
    have := nextEdge_of_faceOpposite (e := (w, x)) hop2
    simpa using this
  · intro hq
    apply hne2
    rw [← hq]
  · intro hq
    apply hne1
    have h2 := congrArg swapE hq
    rw [swapE_swapE] at h2
    simp only [swapE] at h2
    exact h2.trans (Prod.mk.eta).symm
  · have h3 := cyclePairs_pmMem_edgeList wf.2.1 hfp hm1
    simpa using h3
  · have h3 := cyclePairs_pmMem_edgeList wf.2.1 hfp hm2
    exact pmMem_swap.1 (by simpa [swapE] using h3)

theorem nextEdge_inj {m : QMesh} (wf : wfQuad m) {e₁ e₂ g : Nat × Nat}
    (h₁ : nextEdge m e₁ = some g) (h₂ : nextEdge m e₂ = some g) : e₁ = e₂ := by
  have p₁ := (nextEdge_props wf h₁).1
  have p₂ := (nextEdge_props wf h₂).1
  rw [p₁] at p₂
  exact swapE_inj (Option.some.inj p₂)

theorem noneOrAbsent_nextEdge {m : QMesh} {e : Nat × Nat}
    (h : halfedgeIsNoneOrAbsent m e.1 e.2 = true) : nextEdge m e = none := by
  unfold halfedgeIsNoneOrAbsent at h
  unfold nextEdge faceOppositeEdge
  cases hh : halfedgeFace m e.1 e.2 with
  | none => simp
  | some o =>
    cases o with
    | none => simp
    | some f =>
      rw [hh] at h
      cases h

theorem iterNext_succ_elim {m : QMesh} {s g : Nat × Nat} {k : Nat}
    (h : iterNext m (k + 1) s = some g) :
    ∃ g', iterNext m k s = some g' ∧ nextEdge m g' = some g := by
  unfold iterNext at h
  cases hk : iterNext m k s with
  | none => rw [hk] at h; cases h
  | some g' =>
    rw [hk] at h
    exact ⟨g', rfl, h⟩

theorem iter_pm_distinct {m : QMesh} (wf : wfQuad m) {s : Nat × Nat} {K : Nat}
    (hnc : ∀ i, 0 < i → i ≤ K → iterNext m i s ≠ some s) :
    ∀ k, k ≤ K → ∀ j, j < k → ∀ gj gk, iterNext m j s = some gj →
      iterNext m k s = some gk → gk ≠ gj ∧ gk ≠ swapE gj := by
  intro k
  induction k using Nat.strong_induction_on with
  | _ k ih =>
    intro hkK j hjk gj gk hj hk
    by_contra hcon
    push_neg at hcon
    have hcol : gk = gj ∨ gk = swapE gj := by
      by_cases h1 : gk = gj
      · exact Or.inl h1
      · exact Or.inr (hcon h1)
    obtain ⟨k', rfl⟩ : ∃ k', k = k' + 1 := ⟨k - 1, by omega⟩
    obtain ⟨gk', hk', hstep⟩ := iterNext_succ_elim hk
    rcases hcol with hdir | hflip
    · -- directed collision
      cases j with
      | zero =>
        have hgj : gj = s :=
          (Option.some.inj (show some s = some gj from hj)).symm
        exact hnc (k' + 1) (by omega) hkK (by rw [hk, hdir, hgj])
      | succ j' =>
        obtain ⟨gj', hj', hstepj⟩ := iterNext_succ_elim hj
        have hgg : gj' = gk' := nextEdge_inj wf hstepj (hdir ▸ hstep)
        have := ih k' (by omega) (by omega) j' (by omega) gj' gk' hj' hk'
        exact this.1 (hgg.symm)
    · -- flipped collision
      by_cases hjk' : j = k'
      · subst hjk'
        have hgg : gj = gk' := by
          rw [hj] at hk'
          exact Option.some.inj hk'
        subst hgg
        have hprops := nextEdge_props wf hstep
        exact hprops.2.2.1 (by rw [hflip])
      · -- j < k'
        have hjlt : j < k' := by omega
        have hF2 := (nextEdge_props wf hstep).1
        rw [hflip, swapE_swapE] at hF2
        -- hF2 : nextEdge m gj = some (swapE gk')
        have hj1 : iterNext m (j + 1) s = some (swapE gk') := by
          unfold iterNext
          rw [hj, Option.some_bind, hF2]
        by_cases hj1k : j + 1 = k'
        · rw [hj1k] at hj1
          rw [hj1] at hk'
          have hq : gk' = swapE gk' := (Option.some.inj hk').symm
          have hne := (nextEdge_props wf hstep).2.2.2.1
          exact hne (congrArg Prod.fst hq)
        · have := ih k' (by omega) (by omega) (j + 1) (by omega)
            (swapE gk') gk' hj1 hk'
          exact this.2 (by rw [swapE_swapE])

theorem headD_eq_get {α : Type} (d : α) :
    ∀ (l : List α) (h : 0 < l.length), l.headD d = l.get ⟨0, h⟩ := by
  intro l h
  cases l with
  | nil => simp at h
  | cons a t => rfl

theorem get_mem_tail {α : Type} (l : List α) (i : Nat) (h : i < l.length)
    (hpos : 0 < i) : l.get ⟨i, h⟩ ∈ l.tail := by
  cases l with
  | nil => simp at h
  | cons a t =>
    cases i with
    | zero => omega
    | succ j =>
      show t.get ⟨j, _⟩ ∈ t
      exact List.get_mem _ _ _

theorem chain'_isOrbitList {m : QMesh} {l : List (Nat × Nat)}
    (h : l.Chain' (fun a b => nextEdge m a = some b)) : isOrbitList m l := by
  unfold isOrbitList
  intro i hi
  exact List.chain'_iff_get.1 h i (by omega)

theorem isOrbitList_iter {m : QMesh} {l : List (Nat × Nat)}
    (ho : isOrbitList m l) :
    ∀ (i : Nat) (h : i < l.length),
      iterNext m i (l.headD (0, 0)) = some (l.get ⟨i, h⟩) := by
  intro i
  induction i with
  | zero =>
    intro h
    show some (l.headD (0, 0)) = _
    rw [headD_eq_get (0, 0) l h]
  | succ i ih =>
    intro h
    have hi : i < l.length := by omega
    show (iterNext m i (l.headD (0, 0))).bind (nextEdge m) = _
    rw [ih hi, Option.some_bind]
    exact ho i h

theorem orbit_list_pm_nodup {m : QMesh} (wf : wfQuad m)
    {l : List (Nat × Nat)} (hc : l.Chain' (fun a b => nextEdge m a = some b))
    (hnh : l.headD (0, 0) ∉ l.tail) : pmNodup l := by
  have ho := chain'_isOrbitList hc
  rcases hl : l with _ | ⟨a, t⟩
  · exact List.Pairwise.nil
  rw [← hl]
  have hlen : 0 < l.length := by rw [hl]; simp
  have hnc : ∀ i, 0 < i → i ≤ l.length - 1 →
      iterNext m i (l.headD (0, 0)) ≠ some (l.headD (0, 0)) := by
    intro i hi hiK heq
    have hilt : i < l.length := by omega
    rw [isOrbitList_iter ho i hilt] at heq
    have hgi : l.get ⟨i, hilt⟩ = l.headD (0, 0) := Option.some.inj heq
    exact hnh (hgi ▸ get_mem_tail l i hilt hi)
  unfold pmNodup
  rw [List.pairwise_iff_get]
  intro i j hij
  have hd := iter_pm_distinct wf hnc j.val (by omega) i.val hij _ _
    (isOrbitList_iter ho i.val i.isLt) (isOrbitList_iter ho j.val j.isLt)
  exact hd

theorem pmCount_eq_zero {e : Nat × Nat} {l : List (Nat × Nat)} :
    pmCount e l = 0 ↔ ¬ pmMem e l := by
  unfold pmCount pmMem
  rw [List.countP_eq_zero]
  constructor
  · intro h hm
    rcases hm with hm | hm
    · exact h e hm (by simp)
    · exact h (swapE e) hm (by simp)
  · intro h g hg
    simp only [decide_eq_true_eq]
    intro hor
    apply h
    rcases hor with rfl | rfl
    · exact Or.inl hg
    · exact Or.inr hg

theorem pmCount_one {e : Nat × Nat} :
    ∀ {l : List (Nat × Nat)}, pmNodup l → pmMem e l → pmCount e l = 1 := by
  intro l
  induction l with
  | nil =>
    intro _ hm
    rcases hm with hm | hm <;> cases hm
  | cons a t ih =>
    intro hnd hm
    obtain ⟨hhead, htail⟩ := List.pairwise_cons.1 hnd
    by_cases hp : a = e ∨ a = swapE e
    · have hc : t.countP (fun g => decide (g = e ∨ g = swapE e)) = 0 := by
        rw [List.countP_eq_zero]
        intro g hg
        simp only [decide_eq_true_eq]
        intro hor
        obtain ⟨h1, h2⟩ := hhead g hg
        rcases hor with hge | hge <;> rcases hp with hae | hae
        · exact h1 (hge.trans hae.symm)
        · refine h2 ?_
          rw [hae, swapE_swapE, ← hge]
        · refine h2 ?_
          rw [hae]
          exact hge
        · exact h1 (hge.trans (by rw [hae]))
      show (a :: t).countP _ = 1
      rw [List.countP_cons, hc]
      simp [hp]
    · have hmt : pmMem e t := by
        rcases hm with hm | hm <;> rcases List.mem_cons.1 hm with h | h
        · exact absurd (Or.inl h.symm) hp
        · exact Or.inl h
        · exact absurd (Or.inr h.symm) hp
        · exact Or.inr h
      have hrec := ih htail hmt
      show (a :: t).countP _ = 1
      rw [List.countP_cons]
      unfold pmCount at hrec
      rw [hrec]
      simp [hp]

theorem countP_erase_of_neg {α : Type} [BEq α] [LawfulBEq α] {p : α → Bool}
    {y : α} (hy : ¬ p y = true) :
    ∀ l : List α, (l.erase y).countP p = l.countP p := by
  intro l
  induction l with
  | nil => rfl
  | cons a t ih =>
    by_cases hay : a = y
    · subst hay
      rw [List.erase_cons_head, List.countP_cons, if_neg hy, Nat.add_zero]
    · rw [List.erase_cons_tail (by simpa using hay), List.countP_cons,
        List.countP_cons, ih]

/-! ### Strip partition: the collect loop walks one whole strip -/

theorem getLastD_append_one {α : Type} (z : α) :
    ∀ (l : List α) (d : α), (l ++ [z]).getLastD d = z := by
  intro l
  induction l with
  | nil => intro d; rfl
  | cons a t ih =>
    intro d
    rw [List.cons_append, List.getLastD_cons]
    exact ih a

theorem getLast?_getLastD {α : Type} (d : α) :
    ∀ l : List α, l ≠ [] → l.getLast? = some (l.getLastD d) := by
  intro l
  induction l with
  | nil => intro h; exact absurd rfl h
  | cons a t ih =>
    intro _
    cases t with
    | nil => rfl
    | cons b t2 =>
      show (a :: b :: t2).getLast? = some ((b :: t2).getLastD a)
      rw [List.getLast?_cons_cons]
      exact ih (by simp)

theorem getLastD_mem {α : Type} (d : α) :
    ∀ l : List α, l ≠ [] → l.getLastD d ∈ l := by
  intro l
  induction l with
  | nil => intro h; exact absurd rfl h
  | cons a t ih =>
    intro _
    rw [List.getLastD_cons]
    cases t with
    | nil => simp [List.getLastD]
    | cons b t2 => exact List.mem_cons_of_mem _ (ih (by simp))

theorem headD_append_left {α : Type} (d : α) {l : List α} (h : l ≠ [])
    (l₂ : List α) : (l ++ l₂).headD d = l.headD d := by
  cases l with
  | nil => exact absurd rfl h
  | cons a t => rfl

theorem tail_append_left {α : Type} {l : List α} (h : l ≠ [])
    (l₂ : List α) : (l ++ l₂).tail = l.tail ++ l₂ := by
  cases l with
  | nil => exact absurd rfl h
  | cons a t => rfl

theorem chain'_append_singleton {m : QMesh} {l : List (Nat × Nat)}
    {z : Nat × Nat} (hl : l ≠ [])
    (hc : l.Chain' (fun a b => nextEdge m a = some b))
    (hz : nextEdge m (l.getLastD (0, 0)) = some z) :
    (l ++ [z]).Chain' (fun a b => nextEdge m a = some b) := by
  rw [List.chain'_append]
  refine ⟨hc, List.chain'_singleton z, ?_⟩
  intro x hx y hy
  rw [getLast?_getLastD (0, 0) l hl] at hx
  have hx2 : some (l.getLastD (0, 0)) = some x := hx
  have hy2 : some z = some y := hy
  rw [← Option.some.inj hx2, ← Option.some.inj hy2]
  exact hz

theorem mem_map_swapE {x : Nat × Nat} {L : List (Nat × Nat)} :
    x ∈ L.map swapE ↔ swapE x ∈ L := by
  constructor
  · intro h
    obtain ⟨y, hy, hyx⟩ := List.mem_map.1 h
    rw [← hyx, swapE_swapE]
    exact hy
  · intro h
    exact List.mem_map.2 ⟨swapE x, h, swapE_swapE x⟩

theorem pmMem_revFlip {g : Nat × Nat} {l : List (Nat × Nat)} :
    pmMem g (l.reverse.map swapE) ↔ pmMem g l := by
  unfold pmMem
  rw [mem_map_swapE, mem_map_swapE, List.mem_reverse, List.mem_reverse,
    swapE_swapE]
  exact or_comm

theorem pmNodup_nodup {l : List (Nat × Nat)} (h : pmNodup l) : l.Nodup := by
  refine List.Pairwise.imp ?_ h
  intro a b hab
  exact hab.1.symm

theorem revFlip_nodup {l : List (Nat × Nat)} (h : l.Nodup) :
    (l.reverse.map swapE).Nodup :=
  (List.nodup_reverse.2 h).map (fun a b hab => swapE_inj hab)

theorem nodup_head_notin_tail {α : Type} (d : α) {l : List α}
    (h : l.Nodup) : l.headD d ∉ l.tail := by
  cases l with
  | nil => simp
  | cons a t =>
    show a ∉ t
    exact (List.nodup_cons.1 h).1

theorem revFlip_chain {m : QMesh} (wf : wfQuad m) {l : List (Nat × Nat)}
    (hc : l.Chain' (fun a b => nextEdge m a = some b)) :
    (l.reverse.map swapE).Chain' (fun a b => nextEdge m a = some b) := by
  rw [List.chain'_map, List.chain'_reverse]
  refine List.Chain'.imp ?_ hc
  intro a b hab
  exact (nextEdge_props wf hab).1

theorem headD_revFlip {l : List (Nat × Nat)} (hl : l ≠ []) :
    (l.reverse.map swapE).headD (0, 0) = swapE (l.getLastD (0, 0)) := by
  obtain ⟨t, z, rfl⟩ : ∃ t z, l = t ++ [z] := by
    rcases List.eq_nil_or_concat l with rfl | ⟨t, z, hlz⟩
    · exact absurd rfl hl
    · rw [List.concat_eq_append] at hlz
      exact ⟨t, z, hlz⟩
  have h1 : ((t ++ [z]).reverse.map swapE) =
      swapE z :: (t.reverse.map swapE) := by
    rw [List.reverse_append]
    rfl
  rw [h1, getLastD_append_one z t (0, 0)]
  rfl

theorem getLastD_revFlip {l : List (Nat × Nat)} (hl : l ≠ []) :
    (l.reverse.map swapE).getLastD (0, 0) = swapE (l.headD (0, 0)) := by
  obtain ⟨a, t, rfl⟩ : ∃ a t, l = a :: t := by
    cases l with
    | nil => exact absurd rfl hl
    | cons a t => exact ⟨a, t, rfl⟩
  show ((a :: t).reverse.map swapE).getLastD (0, 0) = swapE a
  have h1 : (a :: t).reverse = t.reverse ++ [a] := by
    simp [List.reverse_cons]
  rw [h1, List.map_append]
  exact getLastD_append_one _ _ _

theorem collectStripLoop_spec {m : QMesh} (wf : wfQuad m) :
    ∀ (fuel : Nat) (l out : List (Nat × Nat)),
      collectStripLoop m fuel l = some out →
      stripInv m l →
      stripInv m out ∧ (∀ g, pmMem g l → pmMem g out) ∧
        (stripTerm m out ∨ out.length = l.length + fuel) := by
  intro fuel
  induction fuel with
  | zero =>
    intro l out h hI
    obtain rfl : l = out := Option.some.inj (show some l = some out from h)
    exact ⟨hI, fun g hg => hg, Or.inr (by omega)⟩
  | succ count ih =>
    intro l out h hI
    obtain ⟨hne, hchain, hhead, hedges⟩ := hI
    rw [collectStripLoop] at h
    cases hfo : faceOppositeEdge m (l.getLastD (0, 0)).1 (l.getLastD (0, 0)).2 with
    | none =>
      simp only [hfo] at h
      exact Option.noConfusion h
    | some wx =>
      obtain ⟨w, x⟩ := wx
      simp only [hfo] at h
      have hnext : nextEdge m (l.getLastD (0, 0)) = some (x, w) := by
        unfold nextEdge
        rw [hfo]
      by_cases hcl : (x, w) = l.headD (0, 0)
      · rw [if_pos hcl] at h
        obtain rfl : l = out := Option.some.inj h
        refine ⟨⟨hne, hchain, hhead, hedges⟩, fun g hg => hg, Or.inl ?_⟩
        unfold stripTerm
        left
        rw [hnext, hcl]
      · rw [if_neg hcl] at h
        have hI' : stripInv m (l ++ [(x, w)]) := by
          refine ⟨by simp, chain'_append_singleton hne hchain hnext, ?_, ?_⟩
          · rw [headD_append_left (0, 0) hne, tail_append_left hne]
            simp only [List.mem_append, List.mem_singleton]
            rintro (hmem | hmem)
            · exact hhead hmem
            · exact hcl hmem.symm
          · intro g hg
            rcases List.mem_append.1 hg with hg | hg
            · exact hedges g hg
            · obtain rfl : g = (x, w) := by simpa using hg
              exact (nextEdge_props wf hnext).2.2.2.2.2.2
        have hfun : (fun (e : Nat × Nat) => (e.2, e.1)) = swapE := rfl
        by_cases hnoa : halfedgeIsNoneOrAbsent m x w = true
        · rw [if_pos hnoa] at h
          rw [hfun] at h
          have hpm' : pmNodup (l ++ [(x, w)]) :=
            orbit_list_pm_nodup wf hI'.2.1 hI'.2.2.1
          have hnd2 : ((l ++ [(x, w)]).reverse.map swapE).Nodup :=
            revFlip_nodup (pmNodup_nodup hpm')
          have hI2 : stripInv m ((l ++ [(x, w)]).reverse.map swapE) := by
            refine ⟨by simp, revFlip_chain wf hI'.2.1,
              nodup_head_notin_tail _ hnd2, ?_⟩
            intro g hg
            have hg2 : swapE g ∈ l ++ [(x, w)] := by
              rw [← List.mem_reverse]
              exact mem_map_swapE.1 hg
            exact pmMem_swap.1 (hI'.2.2.2 (swapE g) hg2)
          by_cases hnoa2 : halfedgeIsNoneOrAbsent m
              (((l ++ [(x, w)]).reverse.map swapE).getLastD (0, 0)).1
              (((l ++ [(x, w)]).reverse.map swapE).getLastD (0, 0)).2 = true
          · rw [if_pos hnoa2] at h
            obtain rfl : (l ++ [(x, w)]).reverse.map swapE = out :=
              Option.some.inj h
            refine ⟨hI2, ?_, Or.inl ?_⟩
            · intro g hg
              exact pmMem_revFlip.2
                (pmMem_subset (fun y hy => List.mem_append_left _ hy) hg)
            · unfold stripTerm
              right
              refine ⟨hnoa2, ?_⟩
              have hh : ((l ++ [(x, w)]).reverse.map swapE).headD (0, 0) =
                  swapE ((l ++ [(x, w)]).getLastD (0, 0)) :=
                headD_revFlip (by simp)
              rw [hh, getLastD_append_one (x, w) l (0, 0)]
              exact hnoa
          · rw [if_neg hnoa2] at h
            obtain ⟨hIo, hcov, hterm⟩ :=
              ih ((l ++ [(x, w)]).reverse.map swapE) out h hI2
            refine ⟨hIo, ?_, ?_⟩
            · intro g hg
              exact hcov g (pmMem_revFlip.2
                (pmMem_subset (fun y hy => List.mem_append_left _ hy) hg))
            · rcases hterm with ht | ht
              · exact Or.inl ht
              · right
                rw [ht]
                simp only [List.length_map, List.length_reverse,
                  List.length_append, List.length_cons, List.length_nil]
                omega
        · rw [if_neg hnoa] at h
          obtain ⟨hIo, hcov, hterm⟩ := ih (l ++ [(x, w)]) out h hI'
          refine ⟨hIo, ?_, ?_⟩
          · intro g hg
            exact hcov g (pmMem_subset (fun y hy => List.mem_append_left _ hy) hg)
          · rcases hterm with ht | ht
            · exact Or.inl ht
            · right
              rw [ht]
              simp only [List.length_append, List.length_cons, List.length_nil]
              omega

/-! ### Strip partition: a finished strip is a closed class of edges -/

theorem headD_mem {α : Type} (d : α) {l : List α} (h : l ≠ []) :
    l.headD d ∈ l := by
  cases l with
  | nil => exact absurd rfl h
  | cons a t => exact List.mem_cons_self _ _

theorem getLastD_eq_get {α : Type} (d : α) :
    ∀ (l : List α) (h : 0 < l.length),
      l.getLastD d = l.get ⟨l.length - 1, by omega⟩ := by
  intro l
  induction l with
  | nil => intro h; simp at h
  | cons a t ih =>
    intro h
    rw [List.getLastD_cons]
    cases t with
    | nil => rfl
    | cons b t2 => exact ih (by simp)

theorem pmMem_get {g : Nat × Nat} {l : List (Nat × Nat)} (h : pmMem g l) :
    ∃ i, ∃ hi : i < l.length,
      l.get ⟨i, hi⟩ = g ∨ l.get ⟨i, hi⟩ = swapE g := by
  rcases h with h | h
  · obtain ⟨n, hn⟩ := List.mem_iff_get.1 h
    exact ⟨n.val, n.isLt, Or.inl hn⟩
  · obtain ⟨n, hn⟩ := List.mem_iff_get.1 h
    exact ⟨n.val, n.isLt, Or.inr hn⟩

theorem collectStrip_spec {m : QMesh} (wf : wfQuad m) {u0 v0 : Nat}
    {out : List (Nat × Nat)} (h : collectStrip m u0 v0 = some out)
    (hm : pmMem (u0, v0) (edgeList m)) :
    stripInv m out ∧ pmMem (u0, v0) out ∧ stripTerm m out ∧ pmNodup out := by
  unfold collectStrip at h
  have main : ∀ l0 : List (Nat × Nat), l0.length = 1 →
      collectStripLoop m (numberOfEdges m) l0 = some out →
      stripInv m l0 → pmMem (u0, v0) l0 →
      stripInv m out ∧ pmMem (u0, v0) out ∧ stripTerm m out ∧ pmNodup out := by
    intro l0 hl0 hloop hI0 hm0
    obtain ⟨hIo, hcov, hterm⟩ := collectStripLoop_spec wf _ _ _ hloop hI0
    have hpm : pmNodup out := orbit_list_pm_nodup wf hIo.2.1 hIo.2.2.1
    refine ⟨hIo, hcov _ hm0, ?_, hpm⟩
    rcases hterm with ht | ht
    · exact ht
    · exfalso
      have hcard : out.length ≤ (edgeList m).length :=
        pm_card_le out (edgeList m) hpm (edgeList_pmNodup m) hIo.2.2.2
      rw [ht, hl0] at hcard
      unfold numberOfEdges at hcard
      omega
  cases hh : halfedgeFace m u0 v0 with
  | none =>
    simp only [hh] at h
    exact Option.noConfusion h
  | some o =>
    cases o with
    | none =>
      simp only [hh] at h
      refine main [(v0, u0)] rfl h
        ⟨by simp, List.chain'_singleton _, by simp, ?_⟩ ?_
      · intro g hg
        obtain rfl : g = (v0, u0) := by simpa using hg
        exact pmMem_swap.2 hm
      · exact Or.inr (by simp [swapE])
    | some f =>
      simp only [hh] at h
      refine main [(u0, v0)] rfl h
        ⟨by simp, List.chain'_singleton _, by simp, ?_⟩ ?_
      · intro g hg
        obtain rfl : g = (u0, v0) := by simpa using hg
        exact hm
      · exact Or.inl (by simp)

theorem stripTerm_pmClosed {m : QMesh} (wf : wfQuad m) {l : List (Nat × Nat)}
    (hne : l ≠ []) (hchain : l.Chain' (fun a b => nextEdge m a = some b))
    (hT : stripTerm m l) : pmClosed m l := by
  have ho := chain'_isOrbitList hchain
  have hlen : 0 < l.length := List.length_pos.2 hne
  intro g g' hg hstep
  obtain ⟨i, hi, hrep⟩ := pmMem_get hg
  rcases hrep with hrep | hrep
  · by_cases hlast : i + 1 < l.length
    · have hlink := ho i hlast
      simp only [hrep] at hlink
      rw [hstep] at hlink
      left
      rw [Option.some.inj hlink]
      exact List.get_mem _ _ _
    · have hieq : i = l.length - 1 := by omega
      have hgl : l.getLastD (0, 0) = g := by
        rw [getLastD_eq_get (0, 0) l hlen, ← hrep]
        simp only [hieq]
      rcases hT with hTc | hTo
      · rw [hgl, hstep] at hTc
        left
        rw [Option.some.inj hTc]
        exact headD_mem (0, 0) hne
      · have hnone := noneOrAbsent_nextEdge (e := l.getLastD (0, 0)) hTo.1
        rw [hgl, hstep] at hnone
        exact Option.noConfusion hnone
  · by_cases hfirst : 0 < i
    · obtain ⟨j, rfl⟩ : ∃ j, i = j + 1 := ⟨i - 1, by omega⟩
      have hlink := ho j (by omega)
      have hF2 := (nextEdge_props wf hlink).1
      simp only [hrep, swapE_swapE] at hF2
      rw [hstep] at hF2
      right
      rw [Option.some.inj hF2, swapE_swapE]
      exact List.get_mem _ _ _
    · have hieq : i = 0 := by omega
      have hgh : l.headD (0, 0) = swapE g := by
        rw [headD_eq_get (0, 0) l hlen, ← hrep]
        simp only [hieq]
      rcases hT with hTc | hTo
      · have hF2 := (nextEdge_props wf hTc).1
        rw [hgh, swapE_swapE] at hF2
        rw [hstep] at hF2
        right
        rw [Option.some.inj hF2, swapE_swapE]
        exact getLastD_mem (0, 0) l hne
      · have hnone := noneOrAbsent_nextEdge (e := swapE (l.headD (0, 0))) hTo.2
        rw [hgh, swapE_swapE] at hnone
        rw [hstep] at hnone
        exact Option.noConfusion hnone

theorem pmClosed_back {m : QMesh} (wf : wfQuad m) {T : List (Nat × Nat)}
    (hC : pmClosed m T) {a b : Nat × Nat}
    (hstep : nextEdge m a = some b) (hb : pmMem b T) : pmMem a T := by
  have hF2 := (nextEdge_props wf hstep).1
  exact pmMem_swap.1 (hC (swapE b) (swapE a) (pmMem_swap.2 hb) hF2)

theorem orbit_propagate {m : QMesh} (wf : wfQuad m) {l T : List (Nat × Nat)}
    (hchain : l.Chain' (fun a b => nextEdge m a = some b)) (hC : pmClosed m T) :
    ∀ (i j : Nat) (hi : i < l.length) (hj : j < l.length),
      pmMem (l.get ⟨i, hi⟩) T → pmMem (l.get ⟨j, hj⟩) T := by
  have ho := chain'_isOrbitList hchain
  have hfwd : ∀ (d i j : Nat) (hi : i < l.length) (hj : j < l.length),
      i + d = j → pmMem (l.get ⟨i, hi⟩) T → pmMem (l.get ⟨j, hj⟩) T := by
    intro d
    induction d with
    | zero =>
      intro i j hi hj hij hm
      obtain rfl : i = j := by omega
      exact hm
    | succ d ihd =>
      intro i j hi hj hij hm
      obtain ⟨j', rfl⟩ : ∃ j', j = j' + 1 := ⟨i + d, by omega⟩
      have hj' : j' < l.length := by omega
      have hmid : pmMem (l.get ⟨j', hj'⟩) T := ihd i j' hi hj' (by omega) hm
      exact hC _ _ hmid (ho j' hj)
  have hbwd : ∀ (d i j : Nat) (hi : i < l.length) (hj : j < l.length),
      i + d = j → pmMem (l.get ⟨j, hj⟩) T → pmMem (l.get ⟨i, hi⟩) T := by
    intro d
    induction d with
    | zero =>
      intro i j hi hj hij hm
      obtain rfl : i = j := by omega
      exact hm
    | succ d ihd =>
      intro i j hi hj hij hm
      obtain ⟨j', rfl⟩ : ∃ j', j = j' + 1 := ⟨i + d, by omega⟩
      have hj' : j' < l.length := by omega
      refine ihd i j' hi hj' (by omega) ?_
      exact pmClosed_back wf hC (ho j' hj) hm
  intro i j hi hj hm
  by_cases hij : i ≤ j
  · exact hfwd (j - i) i j hi hj (by omega) hm
  · exact hbwd (i - j) j i hj hi (by omega) hm

theorem strip_disjoint {m : QMesh} (wf : wfQuad m) {S T : List (Nat × Nat)}
    (hchain : S.Chain' (fun a b => nextEdge m a = some b)) (hCT : pmClosed m T)
    {s : Nat × Nat} (hs : pmMem s S) (hns : ¬ pmMem s T) :
    ∀ g, pmMem g S → ¬ pmMem g T := by
  intro g hgS hgT
  apply hns
  obtain ⟨i, hi, hirep⟩ := pmMem_get hs
  obtain ⟨j, hj, hjrep⟩ := pmMem_get hgS
  have hjT : pmMem (S.get ⟨j, hj⟩) T := by
    rcases hjrep with h | h
    · rw [h]; exact hgT
    · rw [h]; exact pmMem_swap.2 hgT
  have hiT := orbit_propagate wf hchain hCT j i hj hi hjT
  rcases hirep with h | h
  · rw [h] at hiT; exact hiT
  · rw [h] at hiT; exact pmMem_swap.1 hiT

/-! ### Strip partition: the worklist bookkeeping -/

theorem removeCovered_cons (s : Nat × Nat) (c es : List (Nat × Nat)) :
    removeCovered (s :: c) es =
      removeCovered c
        (if s ∈ es then es.erase s
         else if (s.2, s.1) ∈ es then es.erase (s.2, s.1) else es) := rfl

theorem removeCovered_sublist :
    ∀ (c es : List (Nat × Nat)), (removeCovered c es).Sublist es := by
  intro c
  induction c with
  | nil => intro es; exact List.Sublist.refl es
  | cons s c' ih =>
    intro es
    rw [removeCovered_cons]
    refine (ih _).trans ?_
    split
    · exact List.erase_sublist _ _
    · split
      · exact List.erase_sublist _ _
      · exact List.Sublist.refl es

theorem pmNodup_not_both :
    ∀ (es : List (Nat × Nat)) (s : Nat × Nat), pmNodup es → s ∈ es →
      swapE s ∈ es → s = swapE s := by
  intro es
  induction es with
  | nil => intro s _ hs _; cases hs
  | cons a t ih =>
    intro s hnd hs hsw
    obtain ⟨hhead, htail⟩ := List.pairwise_cons.1 hnd
    rcases List.mem_cons.1 hs with hsa | hs'
    · rcases List.mem_cons.1 hsw with hswa | hsw'
      · exact hsa.trans hswa.symm
      · exact absurd (by rw [hsa]) (hhead _ hsw').2
    · rcases List.mem_cons.1 hsw with hswa | hsw'
      · exact absurd (by rw [← hswa, swapE_swapE]) (hhead _ hs').2
      · exact ih s htail hs' hsw'

theorem removeCovered_pm_disjoint :
    ∀ (c es : List (Nat × Nat)), pmNodup es →
      ∀ x ∈ removeCovered c es, ¬ pmMem x c := by
  intro c
  induction c with
  | nil =>
    intro es _ x _ hmem
    rcases hmem with h | h <;> cases h
  | cons s c' ih =>
    intro es hnd x hx hmem
    rw [removeCovered_cons] at hx
    have hsub : (if s ∈ es then es.erase s
        else if (s.2, s.1) ∈ es then es.erase (s.2, s.1) else es).Sublist es := by
      split
      · exact List.erase_sublist _ _
      · split
        · exact List.erase_sublist _ _
        · exact List.Sublist.refl es
    have hnd1 : pmNodup (if s ∈ es then es.erase s
        else if (s.2, s.1) ∈ es then es.erase (s.2, s.1) else es) :=
      List.Pairwise.sublist hsub hnd
    have hx1 : x ∈ (if s ∈ es then es.erase s
        else if (s.2, s.1) ∈ es then es.erase (s.2, s.1) else es) :=
      (removeCovered_sublist c' _).subset hx
    have hnodup : es.Nodup := pmNodup_nodup hnd
    rcases hmem with hmem | hmem
    · rcases List.mem_cons.1 hmem with hxs | hxc
      · -- x = s survived the removal of s's class
        subst hxs
        split at hx1
        · exact (hnodup.mem_erase_iff.1 hx1).1 rfl
        · split at hx1
          · next hs1 _ =>
            exact hs1 ((List.erase_sublist _ _).subset hx1)
          · next hs1 hs2 => exact hs1 hx1
      · exact ih _ hnd1 x hx (Or.inl hxc)
    · rcases List.mem_cons.1 hmem with hxs | hxc
      · -- swapE x = s
        have hxval : x = swapE s := by
          rw [← hxs, swapE_swapE]
        split at hx1
        · next hsin =>
          -- es.erase s: x = swapE s ∈ es, s ∈ es: both classes present
          have hxes : x ∈ es := (List.erase_sublist _ _).subset hx1
          have hxes2 : swapE s ∈ es := by
            rw [← hxval]
            exact hxes
          have hboth : s = swapE s := pmNodup_not_both es s hnd hsin hxes2
          have hxeq : x = s := by rw [hxval, ← hboth]
          rw [hxeq] at hx1
          exact (hnodup.mem_erase_iff.1 hx1).1 rfl
        · split at hx1
          · -- es.erase (s.2, s.1) with (s.2, s.1) = swapE s
            have hx2 : x ≠ (s.2, s.1) := (hnodup.mem_erase_iff.1 hx1).1
            exact hx2 hxval
          · next hs1 hs2 =>
            apply hs2
            have hx3 : swapE s ∈ es := by
              rw [← hxval]
              exact hx1
            exact hx3
      · exact ih _ hnd1 x hx (Or.inr hxc)

theorem removeCovered_pmCount_of_not {e₀ : Nat × Nat} :
    ∀ (c es : List (Nat × Nat)), ¬ pmMem e₀ c →
      pmCount e₀ (removeCovered c es) = pmCount e₀ es := by
  intro c
  induction c with
  | nil => intro es _; rfl
  | cons s c' ih =>
    intro es hnm
    have hnm' : ¬ pmMem e₀ c' := by
      intro hc
      apply hnm
      rcases hc with hc | hc
      · exact Or.inl (List.mem_cons_of_mem _ hc)
      · exact Or.inr (List.mem_cons_of_mem _ hc)
    have hns : e₀ ≠ s ∧ swapE e₀ ≠ s := by
      constructor <;> intro he <;> apply hnm
      · exact Or.inl (by rw [he]; exact List.mem_cons_self _ _)
      · exact Or.inr (by rw [he]; exact List.mem_cons_self _ _)
    rw [removeCovered_cons, ih _ hnm']
    unfold pmCount
    split
    · apply countP_erase_of_neg
      simp only [decide_eq_true_eq]
      push_neg
      exact ⟨fun hh => hns.1 hh.symm, fun hh => hns.2 hh.symm⟩
    · split
      · apply countP_erase_of_neg
        simp only [decide_eq_true_eq]
        push_neg
        constructor
        · intro hh
          apply hns.2
          have hh' : swapE s = e₀ := hh
          rw [← hh', swapE_swapE]
        · intro hh
          apply hns.1
          have hh' : swapE s = swapE e₀ := hh
          exact (swapE_inj hh').symm
      · rfl

theorem removeCovered_pmCount_zero {e₀ : Nat × Nat}
    {c es : List (Nat × Nat)} (hnd : pmNodup es) (hm : pmMem e₀ c) :
    pmCount e₀ (removeCovered c es) = 0 := by
  rw [pmCount_eq_zero]
  intro hmem
  rcases hmem with h | h
  · exact removeCovered_pm_disjoint c es hnd e₀ h hm
  · exact removeCovered_pm_disjoint c es hnd (swapE e₀) h (pmMem_swap.2 hm)

theorem orient_cases (m : QMesh) (e : Nat × Nat) :
    (match halfedgeFace m e.1 e.2 with
     | some (some _) => (e.1, e.2)
     | _ => (e.2, e.1)) = e ∨
    (match halfedgeFace m e.1 e.2 with
     | some (some _) => (e.1, e.2)
     | _ => (e.2, e.1)) = swapE e := by
  cases halfedgeFace m e.1 e.2 with
  | none => right; rfl
  | some o =>
    cases o with
    | none => right; rfl
    | some f => left; exact Prod.mk.eta

theorem notNoneEdges_pmMem {m : QMesh} {g : Nat × Nat}
    (hg : g ∈ notNoneEdges m) : pmMem g (edgeList m) := by
  unfold notNoneEdges at hg
  obtain ⟨e, he, heq⟩ := List.mem_map.1 hg
  have hc2 : g = e ∨ g = swapE e := by
    rw [← heq]
    exact orient_cases m e
  exact (pmMem_congr_class hc2).2 (Or.inl he)

theorem notNoneEdges_pmNodup (m : QMesh) : pmNodup (notNoneEdges m) := by
  unfold notNoneEdges pmNodup
  rw [List.pairwise_map]
  refine List.Pairwise.imp ?_ (edgeList_pmNodup m)
  intro a b hab
  have hca := orient_cases m a
  have hcb := orient_cases m b
  constructor
  · intro he
    rcases hcb with h1 | h1 <;> rcases hca with h2 | h2
    · exact hab.1 (h1.symm.trans (he.trans h2))
    · exact hab.2 (h1.symm.trans (he.trans h2))
    · apply hab.2
      have h3 : swapE b = a := h1.symm.trans (he.trans h2)
      rw [← h3, swapE_swapE]
    · exact hab.1 (swapE_inj (h1.symm.trans (he.trans h2)))
  · intro he
    rcases hcb with h1 | h1 <;> rcases hca with h2 | h2
    · exact hab.2 (h1.symm.trans (he.trans (congrArg swapE h2)))
    · apply hab.1
      have h3 : b = swapE (swapE a) := h1.symm.trans (he.trans (congrArg swapE h2))
      rwa [swapE_swapE] at h3
    · apply hab.1
      have h3 : swapE b = swapE a := h1.symm.trans (he.trans (congrArg swapE h2))
      exact swapE_inj h3
    · apply hab.2
      have h3 : swapE b = swapE (swapE a) :=
        h1.symm.trans (he.trans (congrArg swapE h2))
      rw [swapE_swapE] at h3
      rw [← h3, swapE_swapE]

theorem pmCount_notNoneEdges_one {m : QMesh} {e₀ : Nat × Nat}
    (he : e₀ ∈ edgeList m) : pmCount e₀ (notNoneEdges m) = 1 := by
  apply pmCount_one (notNoneEdges_pmNodup m)
  have hmem : (match halfedgeFace m e₀.1 e₀.2 with
      | some (some _) => (e₀.1, e₀.2)
      | _ => (e₀.2, e₀.1)) ∈ notNoneEdges m := List.mem_map_of_mem _ he
  rcases orient_cases m e₀ with hc | hc
  · rw [hc] at hmem
    exact Or.inl hmem
  · rw [hc] at hmem
    exact Or.inr hmem

theorem dropLast_getLastD {α : Type} :
    ∀ (l : List α) (d : α), l ≠ [] → l.dropLast ++ [l.getLastD d] = l := by
  intro l
  induction l with
  | nil => intro d h; exact absurd rfl h
  | cons a t ih =>
    intro d _
    cases t with
    | nil => rfl
    | cons b t2 =>
      rw [List.getLastD_cons]
      have h2 : (a :: b :: t2).dropLast = a :: (b :: t2).dropLast := rfl
      rw [h2, List.cons_append, ih a (by simp)]

theorem collectStripsLoop_partition {m : QMesh} (wf : wfQuad m)
    {e₀ : Nat × Nat} (he₀ : e₀ ∈ edgeList m) :
    ∀ (fuel : Nat) (work : List (Nat × Nat)) (k : Int)
      (table : List (Int × List (Nat × Nat)))
      (res : Int × List (Int × List (Nat × Nat))),
      collectStripsLoop m fuel work k table = some res →
      (∀ g ∈ work, pmMem g (edgeList m)) →
      pmNodup work →
      (∀ st ∈ table, st.2 ≠ [] ∧
        st.2.Chain' (fun a b => nextEdge m a = some b) ∧ pmClosed m st.2 ∧
        pmNodup st.2) →
      (∀ g ∈ work, ∀ st ∈ table, ¬ pmMem g st.2) →
      (table.map (fun st => pmCount e₀ st.2)).sum + pmCount e₀ work = 1 →
      (res.2.map (fun st => pmCount e₀ st.2)).sum = 1 := by
  intro fuel
  induction fuel with
  | zero =>
    intro work k table res h hW hN hT hD hsum
    cases work with
    | nil =>
      obtain rfl : (k, table) = res := Option.some.inj h
      simpa [pmCount] using hsum
    | cons w0 ws => exact Option.noConfusion h
  | succ fuel ih =>
    intro work k table res h hW hN hT hD hsum
    cases work with
    | nil =>
      obtain rfl : (k, table) = res := Option.some.inj h
      simpa [pmCount] using hsum
    | cons w0 ws =>
      rw [collectStripsLoop] at h
      cases hcs : collectStrip m ((w0 :: ws).getLastD (0, 0)).1
          ((w0 :: ws).getLastD (0, 0)).2 with
      | none =>
        simp only [hcs] at h
        exact Option.noConfusion h
      | some S =>
        simp only [hcs] at h
        set e := (w0 :: ws).getLastD (0, 0) with he_def
        have heW : e ∈ w0 :: ws := by
          rw [he_def]
          exact getLastD_mem (0, 0) _ (by simp)
        have heM : pmMem e (edgeList m) := hW e heW
        have heM' : pmMem (e.1, e.2) (edgeList m) := by
          rw [Prod.mk.eta]
          exact heM
        obtain ⟨hIS, hcovS, hTS, hpmS⟩ := collectStrip_spec wf hcs heM'
        have heS : pmMem e S := by
          rw [← Prod.mk.eta (p := e)]
          exact hcovS
        obtain ⟨hSne, hSchain, hShead, hSedges⟩ := hIS
        have hSclosed : pmClosed m S := stripTerm_pmClosed wf hSne hSchain hTS
        have hdec : (w0 :: ws).dropLast ++ [e] = w0 :: ws := by
          rw [he_def]
          exact dropLast_getLastD _ _ (by simp)
        have hsubRest : ((w0 :: ws).dropLast).Sublist (w0 :: ws) :=
          List.dropLast_sublist _
        have hNrest : pmNodup ((w0 :: ws).dropLast) :=
          List.Pairwise.sublist hsubRest hN
        have hsubW : (removeCovered S ((w0 :: ws).dropLast)).Sublist
            ((w0 :: ws).dropLast) := removeCovered_sublist S _
        have hW' : ∀ g ∈ removeCovered S ((w0 :: ws).dropLast),
            pmMem g (edgeList m) := by
          intro g hg
          exact hW g (hsubRest.subset (hsubW.subset hg))
        have hN' : pmNodup (removeCovered S ((w0 :: ws).dropLast)) :=
          List.Pairwise.sublist hsubW hNrest
        have hT' : ∀ st ∈ table ++ [(k + 1, S)], st.2 ≠ [] ∧
            st.2.Chain' (fun a b => nextEdge m a = some b) ∧ pmClosed m st.2 ∧
            pmNodup st.2 := by
          intro st hst
          rcases List.mem_append.1 hst with hst | hst
          · exact hT st hst
          · obtain rfl : st = (k + 1, S) := by simpa using hst
            exact ⟨hSne, hSchain, hSclosed, hpmS⟩
        have hD' : ∀ g ∈ removeCovered S ((w0 :: ws).dropLast),
            ∀ st ∈ table ++ [(k + 1, S)], ¬ pmMem g st.2 := by
          intro g hg st hst
          rcases List.mem_append.1 hst with hst | hst
          · exact hD g (hsubRest.subset (hsubW.subset hg)) st hst
          · obtain rfl : st = (k + 1, S) := by simpa using hst
            exact removeCovered_pm_disjoint S _ hNrest g hg
        have h0 : pmCount e₀ ((w0 :: ws).dropLast) + pmCount e₀ [e] =
            pmCount e₀ (w0 :: ws) := by
          rw [← pmCount_append, hdec]
        have h5 : (([(k + 1, S)]).map (fun st => pmCount e₀ st.2)).sum =
            pmCount e₀ S := by simp
        have hsum' : ((table ++ [(k + 1, S)]).map
              (fun st => pmCount e₀ st.2)).sum +
            pmCount e₀ (removeCovered S ((w0 :: ws).dropLast)) = 1 := by
          rw [List.map_append, List.sum_append, h5]
          by_cases hclass : pmMem e₀ S
          · have htz : ∀ st ∈ table, pmCount e₀ st.2 = 0 := by
              intro st hst
              rw [pmCount_eq_zero]
              have hdisj := strip_disjoint wf hSchain (hT st hst).2.2.1 heS
                (hD e heW st hst)
              exact hdisj e₀ hclass
            have hts : (table.map (fun st => pmCount e₀ st.2)).sum = 0 := by
              apply List.sum_eq_zero
              intro q hq
              obtain ⟨st, hst, rfl⟩ := List.mem_map.1 hq
              exact htz st hst
            have hcnt_new : pmCount e₀ S = 1 := pmCount_one hpmS hclass
            have hwork' : pmCount e₀ (removeCovered S ((w0 :: ws).dropLast)) = 0 :=
              removeCovered_pmCount_zero hNrest hclass
            rw [hts, hcnt_new, hwork']
          · have hcS : pmCount e₀ S = 0 := pmCount_eq_zero.2 hclass
            have hce : pmCount e₀ [e] = 0 := by
              rw [pmCount_eq_zero]
              intro hmm0
              apply hclass
              rcases hmm0 with hmm0 | hmm0
              · have h6 : e₀ = e := by simpa using hmm0
                rw [h6]
                exact heS
              · have h6 : swapE e₀ = e := by simpa using hmm0
                apply pmMem_swap.1
                rw [h6]
                exact heS
            have hcw : pmCount e₀ (removeCovered S ((w0 :: ws).dropLast)) =
                pmCount e₀ ((w0 :: ws).dropLast) :=
              removeCovered_pmCount_of_not S _ hclass
            rw [hcS, hcw]
            omega
        exact ih _ _ _ _ h hW' hN' hT' hD' hsum'

/-- Claim C1: on a well-formed quad mesh (duplicate-free 4-cycles over
registered vertices, distinct face keys, each directed halfedge in at most
one face), a successful `collect_strips()` produces a strip table that
partitions the edge set: every mesh edge appears, as `(u, v)` or `(v, u)`,
in exactly one strip's edge list, and exactly once in that list (the
summed direction-agnostic counts over all strips equal one). -/
theorem C1_collect_strips_partition (m : QMesh) (wf : wfQuad m)
    (k : Int) (table : List (Int × List (Nat × Nat)))
    (h : collectStrips m = some (k, table)) :
    ∀ e ∈ edgeList m,
      (table.map (fun st => pmCount e st.2)).sum = 1 := by
  intro e he
  unfold collectStrips at h
  refine collectStripsLoop_partition wf he (notNoneEdges m).length
    (notNoneEdges m) (-1) [] (k, table) h ?_ ?_ ?_ ?_ ?_
  · intro g hg
    exact notNoneEdges_pmMem hg
  · exact notNoneEdges_pmNodup m
  · intro st hst
    cases hst
  · intro g _ st hst
    cases hst
  · simpa using pmCount_notNoneEdges_one he

theorem C1_collect_strips_partition_witness :
    ([((0 : Int), [(0, 1), (3, 2)]), ((1 : Int), [(3, 0), (2, 1)])].map
      (fun st => pmCount (0, 1) st.2)).sum = 1 :=
  C1_collect_strips_partition singleQuad (by decide) 1
    [(0, [(0, 1), (3, 2)]), (1, [(3, 0), (2, 1)])] (by decide) (0, 1)
    (by decide)

/-! ### Boundary polylines: bounded termination -/

theorem mpbInner_ne_none (m : QMesh) :
    ∀ (fuel : Nat) (vert boundary : List Nat), vert.length < fuel →
      mpbInner m fuel vert boundary ≠ none := by
  intro fuel
  induction fuel with
  | zero => intro vert boundary h; omega
  | succ fuel ih =>
    intro vert boundary h
    rw [mpbInner]
    cases hn : bdNext m (boundary.getLastD 0) with
    | some nbr =>
      simp only [hn]
      by_cases hcl : (boundary ++ [nbr]).headD 0 = (boundary ++ [nbr]).getLastD 0
      · rw [if_pos hcl]
        exact fun hc => Option.noConfusion hc
      · rw [if_neg hcl]
        by_cases hv : nbr ∈ vert
        · rw [if_pos hv]
          apply ih
          rw [List.length_erase_of_mem hv]
          have hp := List.length_pos_of_mem hv
          omega
        · rw [if_neg hv]
          exact fun hc => Option.noConfusion hc
    | none =>
      simp only [hn]
      by_cases hcl : boundary.headD 0 = boundary.getLastD 0
      · rw [if_pos hcl]
        exact fun hc => Option.noConfusion hc
      · rw [if_neg hcl]
        by_cases hv : boundary.getLastD 0 ∈ vert
        · rw [if_pos hv]
          apply ih
          rw [List.length_erase_of_mem hv]
          have hp := List.length_pos_of_mem hv
          omega
        · rw [if_neg hv]
          exact fun hc => Option.noConfusion hc

theorem mpbInner_sub (m : QMesh) :
    ∀ (fuel : Nat) (vert boundary bd va : List Nat),
      mpbInner m fuel vert boundary = some (some (bd, va)) → va.Sublist vert := by
  intro fuel
  induction fuel with
  | zero => intro vert boundary bd va h; exact Option.noConfusion h
  | succ fuel ih =>
    intro vert boundary bd va h
    rw [mpbInner] at h
    cases hn : bdNext m (boundary.getLastD 0) with
    | some nbr =>
      simp only [hn] at h
      by_cases hcl : (boundary ++ [nbr]).headD 0 = (boundary ++ [nbr]).getLastD 0
      · rw [if_pos hcl] at h
        have h2 := Option.some.inj (Option.some.inj h)
        rw [Prod.mk.injEq] at h2
        rw [← h2.2]
      · rw [if_neg hcl] at h
        by_cases hv : nbr ∈ vert
        · rw [if_pos hv] at h
          exact (ih _ _ _ _ h).trans (List.erase_sublist _ _)
        · rw [if_neg hv] at h
          exact Option.noConfusion (Option.some.inj h)
    | none =>
      simp only [hn] at h
      by_cases hcl : boundary.headD 0 = boundary.getLastD 0
      · rw [if_pos hcl] at h
        have h2 := Option.some.inj (Option.some.inj h)
        rw [Prod.mk.injEq] at h2
        rw [← h2.2]
      · rw [if_neg hcl] at h
        by_cases hv : boundary.getLastD 0 ∈ vert
        · rw [if_pos hv] at h
          exact (ih _ _ _ _ h).trans (List.erase_sublist _ _)
        · rw [if_neg hv] at h
          exact Option.noConfusion (Option.some.inj h)

theorem mpbOuter_ne_none (m : QMesh) :
    ∀ (fuel : Nat) (vert : List Nat) (acc : List (List Nat)),
      vert.length ≤ fuel → mpbOuter m fuel vert acc ≠ none := by
  intro fuel
  induction fuel with
  | zero =>
    intro vert acc h
    cases vert with
    | nil =>
      rw [mpbOuter]
      exact fun hc => Option.noConfusion hc
    | cons v0 vs =>
      simp only [List.length_cons] at h
      omega
  | succ fuel ih =>
    intro vert acc h
    cases vert with
    | nil =>
      rw [mpbOuter]
      exact fun hc => Option.noConfusion hc
    | cons v0 vs =>
      rw [mpbOuter]
      cases hrun : mpbInner m ((v0 :: vs).dropLast.length + 1) ((v0 :: vs).dropLast)
          [(v0 :: vs).getLastD 0] with
      | none =>
        exact absurd hrun (mpbInner_ne_none m _ _ _ (Nat.lt_succ_self _))
      | some r =>
        cases r with
        | none => exact fun hc => Option.noConfusion hc
        | some p =>
          obtain ⟨bdp, vap⟩ := p
          apply ih
          have hs := (mpbInner_sub m _ _ _ _ _ hrun).length_le
          have hdl : ((v0 :: vs).dropLast).length = vs.length := by
            rw [List.length_dropLast, List.length_cons]
            omega
          simp only [List.length_cons] at h
          omega

/-! ### Boundary polylines: chain and cycle helpers -/

theorem chain'_append_one_g {α : Type} {R : α → α → Prop} (d : α)
    {l : List α} {z : α} (hl : l ≠ []) (hc : l.Chain' R)
    (hz : R (l.getLastD d) z) : (l ++ [z]).Chain' R := by
  rw [List.chain'_append]
  refine ⟨hc, List.chain'_singleton z, ?_⟩
  intro x hx y hy
  rw [getLast?_getLastD d l hl] at hx
  have hx2 : some (l.getLastD d) = some x := hx
  have hy2 : some z = some y := hy
  rw [← Option.some.inj hx2, ← Option.some.inj hy2]
  exact hz

theorem chain'_tail_pred {α : Type} {R : α → α → Prop} {l : List α}
    (hc : l.Chain' R) {v : α} (hv : v ∈ l.tail) :
    ∃ k, ∃ hk : k + 1 < l.length, l.get ⟨k + 1, hk⟩ = v ∧
      R (l.get ⟨k, by omega⟩) v := by
  cases l with
  | nil => cases hv
  | cons a t =>
    rw [List.tail_cons] at hv
    obtain ⟨⟨j, hj⟩, hget⟩ := List.mem_iff_get.1 hv
    have hk : j + 1 < (a :: t).length := by
      simp only [List.length_cons]
      omega
    refine ⟨j, hk, hget, ?_⟩
    have h2 := List.chain'_iff_get.1 hc j (by
      simp only [List.length_cons]
      omega)
    rw [← hget]
    exact h2

theorem cycle_pred_mem {α : Type} {R : α → α → Prop} (d : α) {p : List α}
    (hc : p.Chain' R) (hcl : p.headD d = p.getLastD d) (hlen : 2 ≤ p.length)
    {v : α} (hv : v ∈ p) : ∃ u ∈ p, R u v := by
  obtain ⟨⟨j, hj⟩, hget⟩ := List.mem_iff_get.1 hv
  cases j with
  | succ j' =>
    have h2 := List.chain'_iff_get.1 hc j' (by omega)
    refine ⟨p.get ⟨j', by omega⟩, List.get_mem _ _ _, ?_⟩
    rw [← hget]
    exact h2
  | zero =>
    have hlast : p.getLastD d = v := by
      rw [← hcl, headD_eq_get d p (by omega)]
      exact hget
    have h2 := List.chain'_iff_get.1 hc (p.length - 2) (by omega)
    refine ⟨p.get ⟨p.length - 2, by omega⟩, List.get_mem _ _ _, ?_⟩
    have h3 : p.get ⟨p.length - 2 + 1, by omega⟩ = v := by
      rw [← hlast, getLastD_eq_get d p (by omega)]
      simp only [show p.length - 2 + 1 = p.length - 1 from by omega]
    rw [← h3]
    exact h2

theorem chain'_consecPairs {R : Nat → Nat → Prop} :
    ∀ {l : List Nat}, l.Chain' R → ∀ pr ∈ consecPairs l, R pr.1 pr.2 := by
  intro l
  induction l with
  | nil => intro _ pr hpr; cases hpr
  | cons a t ih =>
    intro hc pr hpr
    cases t with
    | nil => cases hpr
    | cons b t2 =>
      rw [consecPairs_cons₂] at hpr
      rcases List.mem_cons.1 hpr with rfl | hpr'
      · exact (List.chain'_cons.1 hc).1
      · exact ih (List.chain'_cons.1 hc).2 pr hpr'

theorem nodup_append_one {α : Type} {l : List α} {z : α} (hnd : l.Nodup)
    (hz : z ∉ l) : (l ++ [z]).Nodup := by
  induction l with
  | nil => simp
  | cons a t ih =>
    obtain ⟨hat, htn⟩ := List.nodup_cons.1 hnd
    rw [List.cons_append, List.nodup_cons]
    constructor
    · intro hmem
      rcases List.mem_append.1 hmem with hmem | hmem
      · exact hat hmem
      · have haz : a = z := by simpa using hmem
        apply hz
        rw [← haz]
        exact List.mem_cons_self _ _
    · exact ih htn (fun hzt => hz (List.mem_cons_of_mem _ hzt))

theorem insertAsc_nodup {a : Nat} : ∀ {l : List Nat}, l.Nodup → a ∉ l →
    (insertAsc a l).Nodup := by
  intro l
  induction l with
  | nil => intro _ _; simp [insertAsc]
  | cons b t ih =>
    intro hnd hna
    obtain ⟨hbt, htn⟩ := List.nodup_cons.1 hnd
    by_cases hab : a ≤ b
    · simp only [insertAsc, if_pos hab]
      exact List.nodup_cons.2 ⟨hna, hnd⟩
    · simp only [insertAsc, if_neg hab]
      rw [List.nodup_cons]
      refine ⟨?_, ih htn (fun hat => hna (List.mem_cons_of_mem _ hat))⟩
      intro hbmem
      rw [mem_insertAsc] at hbmem
      rcases hbmem with hba | hbt2
      · apply hna
        rw [← hba]
        exact List.mem_cons_self _ _
      · exact hbt hbt2

theorem sortAsc_nodup : ∀ {l : List Nat}, l.Nodup → (sortAsc l).Nodup := by
  intro l
  induction l with
  | nil => intro _; simp [sortAsc]
  | cons a t ih =>
    intro hnd
    obtain ⟨hat, htn⟩ := List.nodup_cons.1 hnd
    show (insertAsc a (sortAsc t)).Nodup
    exact insertAsc_nodup (ih htn) (fun hmem => hat (mem_sortAsc.1 hmem))

theorem bdVertices_nodup (m : QMesh) : (bdVertices m).Nodup :=
  sortAsc_nodup (dedupKF_nodup _)

theorem mem_bdVertices {m : QMesh} {u v : Nat} (hu : u ∈ m.vertexList)
    (hv : v ∈ vertexNeighbors m u) (hnone : halfedgeFace m u v = some none) :
    u ∈ bdVertices m ∧ v ∈ bdVertices m := by
  unfold bdVertices
  constructor <;> rw [mem_sortAsc, dedupKF_mem] <;>
    refine List.mem_flatMap.2 ⟨u, mem_sortAsc.2 hu, ?_⟩ <;>
    refine List.mem_flatMap.2 ⟨v, hv, ?_⟩ <;>
    rw [if_pos hnone] <;> simp

theorem bdNext_halfedge {m : QMesh} {u w : Nat} (h : bdNext m u = some w) :
    halfedgeFace m u w = some none ∧ w ∈ vertexNeighbors m u := by
  have h2 : (vertexNeighbors m u).find?
      (fun v => decide (halfedgeFace m u v = some none)) = some w := h
  constructor
  · have h3 := List.find?_some h2
    exact of_decide_eq_true h3
  · exact List.mem_of_find?_eq_some h2

theorem bdNext_bd {m : QMesh}
    (hreg : ∀ fp ∈ m.faceList, ∀ y ∈ fp.2, y ∈ m.vertexList)
    {u w : Nat} (h : bdNext m u = some w) :
    u ∈ bdVertices m ∧ w ∈ bdVertices m := by
  obtain ⟨hpred, hmem⟩ := bdNext_halfedge h
  have hface : ∃ fp ∈ m.faceList, (w, u) ∈ cyclePairs fp.2 := by
    unfold halfedgeFace at hpred
    cases hf : m.faceList.find? (fun fp => decide ((u, w) ∈ cyclePairs fp.2)) with
    | some fp =>
      rw [hf] at hpred
      exact Option.noConfusion (Option.some.inj hpred)
    | none =>
      rw [hf] at hpred
      by_cases hb : m.faceList.any (fun fp => decide ((w, u) ∈ cyclePairs fp.2)) = true
      · obtain ⟨fp, hfp, hdec⟩ := List.any_eq_true.1 hb
        exact ⟨fp, hfp, of_decide_eq_true hdec⟩
      · rw [if_neg hb] at hpred
        exact Option.noConfusion hpred
  obtain ⟨fp, hfp, hwu⟩ := hface
  obtain ⟨hw, hu⟩ := mem_of_cyclePairs hwu
  exact mem_bdVertices (hreg fp hfp u hu) hmem hpred

/-! ### Boundary polylines: a traced loop closes onto its seed -/

theorem mpbInner_run (m : QMesh) (accV : Nat → Prop)
    (hσbd : ∀ u w : Nat, u ∈ bdVertices m → bdNext m u = some w →
      w ∈ bdVertices m)
    (h1 : ∀ v ∈ bdVertices m, (bdNext m v).isSome = true)
    (h2 : ∀ u ∈ bdVertices m, ∀ v ∈ bdVertices m,
      bdNext m u = bdNext m v → (bdNext m u).isSome = true → u = v)
    (haccbd : ∀ v, accV v → v ∈ bdVertices m)
    (haccpred : ∀ v, accV v → ∃ u, accV u ∧ bdNext m u = some v) :
    ∀ (fuel : Nat) (vert boundary : List Nat),
      vert.length < fuel →
      boundary ≠ [] →
      boundary.Chain' (fun a b => bdNext m a = some b) →
      boundary.Nodup →
      (∀ v ∈ boundary, v ∈ bdVertices m) →
      vert.Nodup →
      (∀ v ∈ vert, v ∉ boundary) →
      (∀ v ∈ vert, v ∈ bdVertices m) →
      (∀ v ∈ bdVertices m, v ∉ vert → v ∈ boundary ∨ accV v) →
      (∀ v ∈ boundary, ¬ accV v) →
      ∃ bd va, mpbInner m fuel vert boundary = some (some (bd, va)) ∧
        bd.headD 0 = bd.getLastD 0 ∧ bd ≠ [] ∧ 2 ≤ bd.length ∧
        bd.Chain' (fun a b => bdNext m a = some b) ∧
        (∀ v ∈ bd, v ∈ bdVertices m) ∧
        (∀ v ∈ bd, ¬ accV v) ∧
        va.Sublist vert ∧
        (∀ v ∈ boundary, v ∈ bd) ∧
        (∀ v ∈ va, v ∉ bd) ∧
        (∀ v ∈ bdVertices m, v ∉ va → v ∈ bd ∨ accV v) := by
  intro fuel
  induction fuel with
  | zero => intro vert boundary hf; omega
  | succ fuel ih =>
    intro vert boundary hf hbne hbch hbnd hbbd hvnd hvb hvbd hcov hbacc
    have hcur_mem : boundary.getLastD 0 ∈ boundary := getLastD_mem 0 boundary hbne
    have hcur_bd : boundary.getLastD 0 ∈ bdVertices m := hbbd _ hcur_mem
    obtain ⟨nbr, hnbr⟩ : ∃ nbr, bdNext m (boundary.getLastD 0) = some nbr := by
      have hsome := h1 _ hcur_bd
      cases hq : bdNext m (boundary.getLastD 0) with
      | none =>
        rw [hq] at hsome
        exact absurd hsome (by simp)
      | some w => exact ⟨w, rfl⟩
    have hnbr_bd : nbr ∈ bdVertices m := hσbd _ _ hcur_bd hnbr
    rw [mpbInner]
    simp only [hnbr]
    have hposb : 0 < boundary.length := List.length_pos.2 hbne
    by_cases hcl : (boundary ++ [nbr]).headD 0 = (boundary ++ [nbr]).getLastD 0
    · -- the polyline closes onto its first vertex
      rw [if_pos hcl]
      have hnbr_eq : nbr = boundary.headD 0 := by
        have hcl2 := hcl
        rw [headD_append_left 0 hbne, getLastD_append_one] at hcl2
        exact hcl2.symm
      refine ⟨boundary ++ [nbr], vert, rfl, hcl, by simp, ?_, ?_, ?_, ?_,
        List.Sublist.refl _, ?_, ?_, ?_⟩
      · simp only [List.length_append, List.length_cons, List.length_nil]
        omega
      · exact chain'_append_one_g 0 hbne hbch hnbr
      · intro v hv
        rcases List.mem_append.1 hv with hv | hv
        · exact hbbd v hv
        · have hveq : v = nbr := by simpa using hv
          rw [hveq]
          exact hnbr_bd
      · intro v hv
        rcases List.mem_append.1 hv with hv | hv
        · exact hbacc v hv
        · have hveq : v = nbr := by simpa using hv
          rw [hveq, hnbr_eq]
          exact hbacc _ (headD_mem 0 hbne)
      · intro v hv
        exact List.mem_append_left _ hv
      · intro v hv hvmem
        rcases List.mem_append.1 hvmem with hvm | hvm
        · exact hvb v hv hvm
        · have hveq : v = nbr := by simpa using hvm
          apply hvb v hv
          rw [hveq, hnbr_eq]
          exact headD_mem 0 hbne
      · intro v hvbd2 hvnot
        rcases hcov v hvbd2 hvnot with hmem | hacc
        · exact Or.inl (List.mem_append_left _ hmem)
        · exact Or.inr hacc
    · rw [if_neg hcl]
      have hnbr_ne_head : nbr ≠ boundary.headD 0 := by
        intro he
        apply hcl
        rw [headD_append_left 0 hbne, getLastD_append_one]
        exact he.symm
      have hnbr_nacc : ¬ accV nbr := by
        intro hacc
        obtain ⟨u, huacc, hu⟩ := haccpred nbr hacc
        have hueq : u = boundary.getLastD 0 := by
          apply h2 u (haccbd u huacc) _ hcur_bd
          · rw [hu, hnbr]
          · rw [hu]
            rfl
        apply hbacc _ hcur_mem
        rw [← hueq]
        exact huacc
      have hnbr_nb : nbr ∉ boundary := by
        intro hmem
        have htl : nbr ∈ boundary.tail := by
          cases boundary with
          | nil => exact absurd rfl hbne
          | cons a t =>
            rcases List.mem_cons.1 hmem with hna | hna
            · exact absurd hna hnbr_ne_head
            · exact hna
        obtain ⟨k, hk, hgetk, hRk⟩ := chain'_tail_pred hbch htl
        have hkeq : boundary.get ⟨k, by omega⟩ = boundary.getLastD 0 := by
          apply h2 _ (hbbd _ (List.get_mem _ _ _)) _ hcur_bd
          · rw [hRk, hnbr]
          · rw [hRk]
            rfl
        have hlast_eq : boundary.getLastD 0 =
            boundary.get ⟨boundary.length - 1, by omega⟩ :=
          getLastD_eq_get 0 boundary hposb
        rw [hlast_eq] at hkeq
        have hfin := (List.Nodup.get_inj_iff hbnd).1 hkeq
        have hkv : k = boundary.length - 1 := congrArg Fin.val hfin
        omega
      have hnbr_v : nbr ∈ vert := by
        by_contra hnv
        rcases hcov nbr hnbr_bd hnv with hmem | hacc
        · exact hnbr_nb hmem
        · exact hnbr_nacc hacc
      rw [if_pos hnbr_v]
      have hlen' : (vert.erase nbr).length < fuel := by
        rw [List.length_erase_of_mem hnbr_v]
        have := List.length_pos_of_mem hnbr_v
        omega
      have hch' : (boundary ++ [nbr]).Chain' (fun a b => bdNext m a = some b) :=
        chain'_append_one_g 0 hbne hbch hnbr
      have hnd' : (boundary ++ [nbr]).Nodup := nodup_append_one hbnd hnbr_nb
      have hbd' : ∀ v ∈ boundary ++ [nbr], v ∈ bdVertices m := by
        intro v hv
        rcases List.mem_append.1 hv with hv | hv
        · exact hbbd v hv
        · have hveq : v = nbr := by simpa using hv
          rw [hveq]
          exact hnbr_bd
      have hvnd' : (vert.erase nbr).Nodup := hvnd.erase nbr
      have hvb' : ∀ v ∈ vert.erase nbr, v ∉ boundary ++ [nbr] := by
        intro v hv hvmem
        obtain ⟨hvne, hvv⟩ := (hvnd.mem_erase_iff).1 hv
        rcases List.mem_append.1 hvmem with hvm | hvm
        · exact hvb v hvv hvm
        · exact hvne (by simpa using hvm)
      have hvbd' : ∀ v ∈ vert.erase nbr, v ∈ bdVertices m := by
        intro v hv
        exact hvbd v ((List.erase_sublist _ _).subset hv)
      have hcov' : ∀ v ∈ bdVertices m, v ∉ vert.erase nbr →
          v ∈ boundary ++ [nbr] ∨ accV v := by
        intro v hvbd2 hvnot
        by_cases hveq : v = nbr
        · exact Or.inl (List.mem_append_right _ (by simp [hveq]))
        · have hvnv : v ∉ vert := by
            intro hvv
            exact hvnot (List.mem_erase_of_ne hveq |>.2 hvv)
          rcases hcov v hvbd2 hvnv with hmem | hacc
          · exact Or.inl (List.mem_append_left _ hmem)
          · exact Or.inr hacc
      have hbacc' : ∀ v ∈ boundary ++ [nbr], ¬ accV v := by
        intro v hv
        rcases List.mem_append.1 hv with hv | hv
        · exact hbacc v hv
        · have hveq : v = nbr := by simpa using hv
          rw [hveq]
          exact hnbr_nacc
      obtain ⟨bd, va, hrun, c1, c2, c3, c4, c5, c6, c7, c8, c9, c10⟩ :=
        ih (vert.erase nbr) (boundary ++ [nbr]) hlen' (by simp) hch' hnd'
          hbd' hvnd' hvb' hvbd' hcov' hbacc'
      refine ⟨bd, va, hrun, c1, c2, c3, c4, c5, c6,
        c7.trans (List.erase_sublist _ _), ?_, c9, c10⟩
      intro v hv
      exact c8 v (List.mem_append_left _ hv)

theorem nodup_append_one_inv {α : Type} {l : List α} {z : α}
    (h : (l ++ [z]).Nodup) : z ∉ l := by
  induction l with
  | nil => simp
  | cons a t ih =>
    rw [List.cons_append, List.nodup_cons] at h
    intro hmem
    rcases List.mem_cons.1 hmem with hza | hm
    · exact h.1 (List.mem_append_right _ (by simp [hza]))
    · exact ih h.2 hm

theorem mpbOuter_run (m : QMesh)
    (hσbd : ∀ u w : Nat, u ∈ bdVertices m → bdNext m u = some w →
      w ∈ bdVertices m)
    (h1 : ∀ v ∈ bdVertices m, (bdNext m v).isSome = true)
    (h2 : ∀ u ∈ bdVertices m, ∀ v ∈ bdVertices m,
      bdNext m u = bdNext m v → (bdNext m u).isSome = true → u = v) :
    ∀ (fuel : Nat) (vert : List Nat) (acc : List (List Nat)),
      vert.length ≤ fuel →
      vert.Nodup →
      (∀ v ∈ vert, v ∈ bdVertices m) →
      (∀ p ∈ acc, p ≠ [] ∧ 2 ≤ p.length ∧ p.headD 0 = p.getLastD 0 ∧
        p.Chain' (fun a b => bdNext m a = some b)) →
      (∀ p ∈ acc, ∀ v ∈ p, v ∈ bdVertices m) →
      (∀ v ∈ vert, ∀ p ∈ acc, v ∉ p) →
      (∀ v ∈ bdVertices m, v ∉ vert → ∃ p ∈ acc, v ∈ p) →
      acc.Pairwise (fun p q => ∀ v ∈ p, v ∉ q) →
      ∃ pls, mpbOuter m fuel vert acc = some (some pls) ∧
        (∀ p ∈ pls, p ≠ [] ∧ p.headD 0 = p.getLastD 0 ∧
          p.Chain' (fun a b => bdNext m a = some b)) ∧
        (∀ v ∈ bdVertices m, ∃ p ∈ pls, v ∈ p) ∧
        (∀ p ∈ pls, ∀ v ∈ p, v ∈ bdVertices m) ∧
        pls.Pairwise (fun p q => ∀ v ∈ p, v ∉ q) := by
  intro fuel
  induction fuel with
  | zero =>
    intro vert acc hlen hvnd hvbd haccG haccbd hdisj hcov hpair
    cases vert with
    | nil =>
      refine ⟨acc, by rw [mpbOuter], ?_, ?_, haccbd, hpair⟩
      · intro p hp
        obtain ⟨a1, a2, a3, a4⟩ := haccG p hp
        exact ⟨a1, a3, a4⟩
      · intro v hv
        exact hcov v hv (by simp)
    | cons v0 vs =>
      simp only [List.length_cons] at hlen
      omega
  | succ fuel ih =>
    intro vert acc hlen hvnd hvbd haccG haccbd hdisj hcov hpair
    cases vert with
    | nil =>
      refine ⟨acc, by rw [mpbOuter], ?_, ?_, haccbd, hpair⟩
      · intro p hp
        obtain ⟨a1, a2, a3, a4⟩ := haccG p hp
        exact ⟨a1, a3, a4⟩
      · intro v hv
        exact hcov v hv (by simp)
    | cons v0 vs =>
      have hdecomp : (v0 :: vs).dropLast ++ [(v0 :: vs).getLastD 0] = v0 :: vs :=
        dropLast_getLastD _ 0 (by simp)
      have hseedmem : (v0 :: vs).getLastD 0 ∈ v0 :: vs :=
        getLastD_mem _ _ (by simp)
      have hseedbd : (v0 :: vs).getLastD 0 ∈ bdVertices m := hvbd _ hseedmem
      have hnd_app : ((v0 :: vs).dropLast ++ [(v0 :: vs).getLastD 0]).Nodup := by
        rw [hdecomp]
        exact hvnd
      have hseed_nrest : (v0 :: vs).getLastD 0 ∉ (v0 :: vs).dropLast :=
        nodup_append_one_inv hnd_app
      have hvrest_nd : ((v0 :: vs).dropLast).Nodup :=
        List.Pairwise.sublist (List.dropLast_sublist _) hvnd
      have haccbd' : ∀ v, (∃ p ∈ acc, v ∈ p) → v ∈ bdVertices m := by
        rintro v ⟨p, hp, hv⟩
        exact haccbd p hp v hv
      have haccpred' : ∀ v, (∃ p ∈ acc, v ∈ p) →
          ∃ u, (∃ p ∈ acc, u ∈ p) ∧ bdNext m u = some v := by
        rintro v ⟨p, hp, hv⟩
        obtain ⟨a1, a2, a3, a4⟩ := haccG p hp
        obtain ⟨u, hu, hR⟩ := cycle_pred_mem 0 a4 a3 a2 hv
        exact ⟨u, ⟨p, hp, hu⟩, hR⟩
      obtain ⟨bd, va, hrun, c1, c2, c3, c4, c5, c6, c7, c8, c9, c10⟩ :=
        mpbInner_run m (fun v => ∃ p ∈ acc, v ∈ p) hσbd h1 h2 haccbd' haccpred'
          ((v0 :: vs).dropLast.length + 1) ((v0 :: vs).dropLast)
          [(v0 :: vs).getLastD 0] (Nat.lt_succ_self _) (by simp)
          (List.chain'_singleton _) (by simp) (by
            intro v hv
            have hveq : v = (v0 :: vs).getLastD 0 := by simpa using hv
            rw [hveq]
            exact hseedbd)
          hvrest_nd (by
            intro v hv hvmem
            have hveq : v = (v0 :: vs).getLastD 0 := by simpa using hvmem
            exact hseed_nrest (hveq ▸ hv))
          (by
            intro v hv
            exact hvbd v ((List.dropLast_sublist _).subset hv))
          (by
            intro v hvbd2 hvnot
            by_cases hveq : v = (v0 :: vs).getLastD 0
            · exact Or.inl (by simp [hveq])
            · have hvnv : v ∉ v0 :: vs := by
                rw [← hdecomp]
                intro hm
                rcases List.mem_append.1 hm with hm | hm
                · exact hvnot hm
                · exact hveq (by simpa using hm)
              exact Or.inr (hcov v hvbd2 hvnv))
          (by
            intro v hv hacc
            have hveq : v = (v0 :: vs).getLastD 0 := by simpa using hv
            obtain ⟨p, hp, hvp⟩ := hacc
            exact hdisj _ hseedmem p hp (hveq ▸ hvp))
      have hstep : mpbOuter m (fuel + 1) (v0 :: vs) acc =
          mpbOuter m fuel va (acc ++ [bd]) := by
        rw [mpbOuter]
        simp only [hrun]
      have hlen' : va.length ≤ fuel := by
        have hs := c7.length_le
        have hdl : ((v0 :: vs).dropLast).length = vs.length := by
          rw [List.length_dropLast, List.length_cons]
          omega
        simp only [List.length_cons] at hlen
        omega
      have hvnd' : va.Nodup := List.Pairwise.sublist c7 hvrest_nd
      have hvbd' : ∀ v ∈ va, v ∈ bdVertices m := by
        intro v hv
        exact hvbd v ((List.dropLast_sublist _).subset (c7.subset hv))
      have haccG' : ∀ p ∈ acc ++ [bd], p ≠ [] ∧ 2 ≤ p.length ∧
          p.headD 0 = p.getLastD 0 ∧
          p.Chain' (fun a b => bdNext m a = some b) := by
        intro p hp
        rcases List.mem_append.1 hp with hp | hp
        · exact haccG p hp
        · obtain rfl : p = bd := by simpa using hp
          exact ⟨c2, c3, c1, c4⟩
      have haccbd2 : ∀ p ∈ acc ++ [bd], ∀ v ∈ p, v ∈ bdVertices m := by
        intro p hp
        rcases List.mem_append.1 hp with hp | hp
        · exact haccbd p hp
        · obtain rfl : p = bd := by simpa using hp
          exact c5
      have hdisj' : ∀ v ∈ va, ∀ p ∈ acc ++ [bd], v ∉ p := by
        intro v hv p hp
        rcases List.mem_append.1 hp with hp | hp
        · exact hdisj v ((List.dropLast_sublist _).subset (c7.subset hv)) p hp
        · obtain rfl : p = bd := by simpa using hp
          exact c9 v hv
      have hcov' : ∀ v ∈ bdVertices m, v ∉ va → ∃ p ∈ acc ++ [bd], v ∈ p := by
        intro v hvbd2 hvnot
        rcases c10 v hvbd2 hvnot with hm | hacc
        · exact ⟨bd, List.mem_append_right _ (by simp), hm⟩
        · obtain ⟨p, hp, hvp⟩ := hacc
          exact ⟨p, List.mem_append_left _ hp, hvp⟩
      have hpair' : (acc ++ [bd]).Pairwise (fun p q => ∀ v ∈ p, v ∉ q) := by
        rw [List.pairwise_append]
        refine ⟨hpair, by simp, ?_⟩
        intro p hp q hq v hvp hvq
        obtain rfl : q = bd := by simpa using hq
        exact c6 v hvq ⟨p, hp, hvp⟩
      obtain ⟨pls, hres, r1, r2, r3, r4⟩ :=
        ih va (acc ++ [bd]) hlen' hvnd' hvbd' haccG' haccbd2 hdisj' hcov' hpair'
      refine ⟨pls, ?_, r1, r2, r3, r4⟩
      rw [hstep]
      exact hres

/-- Claim C8: `mesh_polylines_boundary` terminates on every mesh within
loop bounds given by the number of boundary-adjacent vertices (the
embedding's fuel; the result is never the fuel-exhaustion marker), and on
a mesh whose face vertices are registered and whose boundary is manifold
(every boundary-adjacent vertex has a boundary-facing outgoing halfedge,
and the boundary successor is injective), it returns, without raising,
closed polylines (first vertex equal to last) that walk along
boundary-facing halfedges, cover exactly the boundary-adjacent vertices,
and are pairwise vertex-disjoint — one per boundary component. -/
theorem C8_mesh_polylines_boundary (m : QMesh) :
    (∃ r, meshPolylinesBoundary m = some r) ∧
    ((∀ fp ∈ m.faceList, ∀ y ∈ fp.2, y ∈ m.vertexList) →
     (∀ v ∈ bdVertices m, (bdNext m v).isSome = true) →
     (∀ u ∈ bdVertices m, ∀ v ∈ bdVertices m,
        bdNext m u = bdNext m v → (bdNext m u).isSome = true → u = v) →
     ∃ pls, meshPolylinesBoundary m = some (some pls) ∧
       (∀ p ∈ pls, p ≠ [] ∧ p.headD 0 = p.getLastD 0) ∧
       (∀ p ∈ pls, ∀ pr ∈ consecPairs p,
         halfedgeFace m pr.1 pr.2 = some none) ∧
       (∀ v ∈ bdVertices m, ∃ p ∈ pls, v ∈ p) ∧
       (∀ p ∈ pls, ∀ v ∈ p, v ∈ bdVertices m) ∧
       pls.Pairwise (fun p q => ∀ v ∈ p, v ∉ q)) := by
  constructor
  · cases hr : meshPolylinesBoundary m with
    | none => exact absurd hr (mpbOuter_ne_none m _ _ _ (Nat.le_refl _))
    | some r => exact ⟨r, rfl⟩
  · intro hreg h1 h2
    have hσbd : ∀ u w : Nat, u ∈ bdVertices m → bdNext m u = some w →
        w ∈ bdVertices m := by
      intro u w _ h
      exact (bdNext_bd hreg h).2
    obtain ⟨pls, hres, r1, r2, r3, r4⟩ := mpbOuter_run m hσbd h1 h2
      (bdVertices m).length (bdVertices m) [] (Nat.le_refl _)
      (bdVertices_nodup m) (fun v hv => hv) (by intro p hp; cases hp)
      (by intro p hp; cases hp) (by intro v _ p hp; cases hp)
      (by intro v hv hnv; exact absurd hv hnv) List.Pairwise.nil
    refine ⟨pls, hres, ?_, ?_, r2, r3, r4⟩
    · intro p hp
      exact ⟨(r1 p hp).1, (r1 p hp).2.1⟩
    · intro p hp pr hpr
      have hlink := chain'_consecPairs (r1 p hp).2.2 pr hpr
      exact (bdNext_halfedge hlink).1

theorem C8_mesh_polylines_boundary_witness :
    ∃ pls, meshPolylinesBoundary annulus = some (some pls) ∧
      (∀ p ∈ pls, p ≠ [] ∧ p.headD 0 = p.getLastD 0) ∧
      (∀ p ∈ pls, ∀ pr ∈ consecPairs p,
        halfedgeFace annulus pr.1 pr.2 = some none) ∧
      (∀ v ∈ bdVertices annulus, ∃ p ∈ pls, v ∈ p) ∧
      (∀ p ∈ pls, ∀ v ∈ p, v ∈ bdVertices annulus) ∧
      pls.Pairwise (fun p q => ∀ v ∈ p, v ∉ q) :=
  (C8_mesh_polylines_boundary annulus).2 (by decide) (by decide) (by decide)

end CompasPattern
